import Mathlib

/-!
# geomean_lab

A shallow embedding of `geomean.c`: the geometric mean of a byte buffer, computed as
`exp (Σ log(s[i]) / n)` over the nonzero bytes, by six work-sharing strategies.

* The C type `double` is abstracted as a field `α`, and the libm functions `log` and `exp`
  are parameters of every definition; the theorems instantiate `α := ℝ`,
  `log := Real.log`, `exp := Real.exp` (exact real arithmetic).
* A buffer `unsigned char *s` is the list of the bytes it is valid for; a read outside of it
  is undefined behaviour and makes the embedded function return `none`.
* The choices of the OpenMP runtime (how many threads, which iterations each one runs, in
  which order the threads take their atomic steps) are explicit arguments.
* `int` arithmetic is arithmetic modulo `2 ^ 32` in two's complement (`wrap32`), and the
  conversion of an `int` to `size_t` is reduction modulo `2 ^ 64` (`toSizeT`).
* The file system `main` reads is a map from an argument to the contents of the file it
  names, if that file can be opened.
-/

namespace Geomean

/-- An `unsigned char`. -/
abbrev Byte := Fin 256

section Model

variable {α : Type} [Field α]

/-- The statement every strategy executes for an index `i`, on the accumulator `acc`:
`if (s[i] > 0) { acc += log(s[i]) / n; }`. -/
def loop_body (log : α → α) (s : List Byte) (n : Nat) (acc : α) (i : Nat) : Option α :=
  match s[i]? with
  | none => none
  | some b => if 0 < b.val then some (acc + log (b.val : α) / (n : α)) else some acc

/-- One thread running the iterations of `chunk`, in order, on its private accumulator. -/
def run_chunk (log : α → α) (s : List Byte) (n : Nat) (acc : α) (chunk : List Nat) :
    Option α :=
  chunk.foldlM (loop_body log s n) acc

/-- The construct `#pragma omp parallel for reduction(+:answer)` around
`for (size_t i = 0; i < n; i++)`: the runtime hands the iterations out to the threads of the
team (`chunks` lists, per thread, the iterations it runs), every thread accumulates into a
private copy of `answer` that starts at `0`, and the private copies are added to the original
variable at the end of the region. -/
def omp_for_reduction (log : α → α) (chunks : List (List Nat)) (s : List Byte) (n : Nat)
    (answer : α) : Option α :=
  (chunks.mapM (run_chunk log s n 0)).map fun privates => privates.foldl (· + ·) answer

/-- The function `geomean_even_split` (lines 8-17). -/
def geomean_even_split (log exp : α → α) (chunks : List (List Nat)) (s : List Byte)
    (n : Nat) : Option α :=
  (omp_for_reduction log chunks s n 0).map exp

/-- The function `geomean_guided` (lines 41-50): the same loop with `schedule(guided)`, which
only changes the assignment `chunks` the runtime picks. -/
def geomean_guided (log exp : α → α) (chunks : List (List Nat)) (s : List Byte)
    (n : Nat) : Option α :=
  (omp_for_reduction log chunks s n 0).map exp

/-- The function `geomean_atomic_non_parallel` (lines 77-87): one thread, every addition made
through an atomic update of `answer`. -/
def geomean_atomic_non_parallel (log exp : α → α) (s : List Byte) (n : Nat) : Option α :=
  ((List.range n).foldlM (loop_body log s n) 0).map exp

/-- The function `geomean_many_to_few_atomic` (lines 89-104): `#pragma omp for nowait` gives
thread `t` the iterations `chunks[t]`, which it sums into its `local_sum`; the threads then
perform `answer += local_sum` atomically, in the order `order` (a list of thread numbers). -/
def geomean_many_to_few_atomic (log exp : α → α) (chunks : List (List Nat))
    (order : List Nat) (s : List Byte) (n : Nat) : Option α :=
  (chunks.mapM (run_chunk log s n 0)).map fun locals =>
    exp (order.foldl (fun answer t => answer + locals.getD t 0) 0)

/-- The selector `geomean` (lines 106-113): it runs `geomean_even_split`. -/
def geomean (log exp : α → α) (chunks : List (List Nat)) (s : List Byte) (n : Nat) :
    Option α :=
  geomean_even_split log exp chunks s n

/-- What `loop_body` adds to the accumulator at index `i` (nothing when the byte is `0`). -/
def term (log : α → α) (s : List Byte) (n : Nat) (i : Nat) : α :=
  if 0 < (s.getD i 0).val then log ((s.getD i 0).val : α) / (n : α) else 0

/-! ### The two strategies with a shared cursor -/

/-- Arithmetic of the type `int`: the mathematical result, reduced modulo `2 ^ 32` into
`[-2 ^ 31, 2 ^ 31)`. -/
def wrap32 (x : Int) : Int := (x + 2 ^ 31) % 2 ^ 32 - 2 ^ 31

/-- The conversion of an `int` to `size_t`, which C applies to the `int` operand when it is
compared with `n`. -/
def toSizeT (x : Int) : Nat := (x % 2 ^ 64).toNat

/-- Where a thread of the `#pragma omp parallel` block stands: inside `while (1)`, between the
loop and its `#pragma omp atomic  answer += local_sum`, or past it. -/
inductive Pc where
  | claiming
  | merging
  | finished
  deriving DecidableEq, Repr

/-- A thread of the team: its control point and its `local_sum`, and two records kept for the
proofs, the values it captured from the cursor and the indices `i` at which it read `s[i]`,
both in the order it did so. -/
structure Worker (α : Type) where
  pc : Pc
  local_sum : α
  claimed : List Int
  processed : List Nat

/-- The shared variables `index` and `answer` and the threads of the team. -/
structure Region (α : Type) where
  index : Int
  answer : α
  workers : List (Worker α)

/-- One pass through the body of `while (1)`: the cursor it leaves, the value it captured, and
either `break` (`none`) or the new `local_sum` with the indices it read. -/
structure Pass (α : Type) where
  index : Int
  captured : Int
  result : Option (α × List Nat)

/-- Lines 26-33 of `geomean_task_queue`: `i = index++;  if (i >= n) break;`
`if (s[i] > 0) local_sum += log(s[i]) / n;`. -/
def task_queue_pass (log : α → α) (s : List Byte) (n : Nat) (index : Int) (local_sum : α) :
    Option (Pass α) :=
  let i := index
  let index' := wrap32 (index + 1)
  if n ≤ toSizeT i then some ⟨index', i, none⟩
  else if i < 0 then none
  else (loop_body log s n local_sum i.toNat).map fun l => ⟨index', i, some (l, [i.toNat])⟩

/-- Lines 65-69 of `geomean_task_queue_large`, from the current value of `i`:
`for (...; i < start && i < n; i++) if (s[i] > 0) local_sum += log(s[i]) / n;`.
The first argument bounds the number of iterations left: the loop is entered with
`start - i` there, and after that many increments the test `i < start` fails.  The increment
cannot overflow, as `i < start`. -/
def chunk_loop (log : α → α) (s : List Byte) (n : Nat) (start : Int) :
    Nat → Int → α → List Nat → Option (α × List Nat)
  | 0, _, acc, seen => some (acc, seen)
  | left + 1, i, acc, seen =>
    if i < start ∧ toSizeT i < n then
      if i < 0 then none
      else
        match loop_body log s n acc i.toNat with
        | none => none
        | some acc' => chunk_loop log s n start left (i + 1) acc' (seen ++ [i.toNat])
    else some (acc, seen)

/-- Lines 59-69 of `geomean_task_queue_large`: `start = index += K;`
`if (start - K >= n) break;` and the loop over the block that starts at `start - K`. -/
def task_queue_large_pass (log : α → α) (s : List Byte) (n : Nat) (K : Int) (index : Int)
    (local_sum : α) : Option (Pass α) :=
  let start := wrap32 (index + K)
  if n ≤ toSizeT (wrap32 (start - K)) then some ⟨start, start, none⟩
  else
    (chunk_loop log s n start (start - wrap32 (start - K)).toNat (wrap32 (start - K))
      local_sum []).map fun r => ⟨start, start, some r⟩

/-- The next atomic step of thread `t` in the `#pragma omp parallel` block shared by the two
cursor strategies (lines 22-37 and 55-73): a thread inside `while (1)` makes one pass, a
thread that left the loop performs `answer += local_sum`, a thread that is done (or a number
that names no thread) leaves the state as it is. -/
def parallel_step (pass : Int → α → Option (Pass α)) (st : Region α) (t : Nat) :
    Option (Region α) :=
  match st.workers[t]? with
  | none => some st
  | some w =>
    match w.pc with
    | .claiming =>
      match pass st.index w.local_sum with
      | none => none
      | some p =>
        match p.result with
        | none => some
            { index := p.index, answer := st.answer,
              workers := st.workers.set t
                { pc := .merging, local_sum := w.local_sum,
                  claimed := w.claimed ++ [p.captured], processed := w.processed } }
        | some r => some
            { index := p.index, answer := st.answer,
              workers := st.workers.set t
                { pc := .claiming, local_sum := r.1,
                  claimed := w.claimed ++ [p.captured], processed := w.processed ++ r.2 } }
    | .merging => some
        { index := st.index, answer := st.answer + w.local_sum,
          workers := st.workers.set t
            { pc := .finished, local_sum := w.local_sum,
              claimed := w.claimed, processed := w.processed } }
    | .finished => some st

/-- The state in which a team of `T` threads enters the block: `index = 0`, `answer = 0.0`,
every `local_sum = 0.0`. -/
def Region.start (T : Nat) : Region α :=
  { index := 0, answer := 0, workers := List.replicate T ⟨.claiming, 0, [], []⟩ }

/-- The block run by `T` threads whose atomic steps happen in the order `sched` (a list of
thread numbers). -/
def parallel_region (pass : Int → α → Option (Pass α)) (T : Nat) (sched : List Nat) :
    Option (Region α) :=
  sched.foldlM (parallel_step pass) (Region.start T)

/-- Every thread has gone through its `answer += local_sum`: the block is over. -/
def Region.done (st : Region α) : Bool :=
  st.workers.all fun w => decide (w.pc = .finished)

/-- The function `geomean_task_queue` (lines 19-39), run by `T` threads under the
interleaving `sched`; `none` if a read leaves the buffer or if `sched` ends before the block
is over. -/
def geomean_task_queue (log exp : α → α) (T : Nat) (sched : List Nat) (s : List Byte)
    (n : Nat) : Option α :=
  match parallel_region (task_queue_pass log s n) T sched with
  | none => none
  | some st => if st.done then some (exp st.answer) else none

/-- The function `geomean_task_queue_large` (lines 52-75), run by `T` threads under the
interleaving `sched`; `none` if a read leaves the buffer or if `sched` ends before the block
is over. -/
def geomean_task_queue_large (log exp : α → α) (T : Nat) (sched : List Nat) (s : List Byte)
    (n : Nat) (K : Int) : Option α :=
  match parallel_region (task_queue_large_pass log s n K) T sched with
  | none => none
  | some st => if st.done then some (exp st.answer) else none

/-! ### Vocabulary of the proofs about the shared cursor -/

/-- The number of values captured from the cursor so far, by all threads together. -/
def Region.claims (st : Region α) : Nat :=
  (st.workers.map fun w => w.claimed.length).sum

/-- The number of threads that have left `while (1)`. -/
def Region.exited (st : Region α) : Nat :=
  (st.workers.map fun w => if w.pc = .claiming then 0 else 1).sum

/-- What a pass does as long as the cursor has not overflowed, for a cursor that advances by
`K`: the pass number `k` (counted from `0`) finds the cursor at `k * K`, leaves it at
`(k + 1) * K`, captures `cap k`, and either breaks (`n ≤ k * K`) or handles the indices of
the block `[k * K, (k + 1) * K)` that lie below `n`, adding `f i` for each. -/
def PassSpec (pass : Int → α → Option (Pass α)) (f : Nat → α) (cap : Nat → Int)
    (K n : Nat) : Prop :=
  ∀ k : Nat, (k + 1) * K < 2 ^ 31 → ∀ l : α,
    pass ((k * K : Nat) : Int) l = some
      { index := (((k + 1) * K : Nat) : Int)
        captured := cap k
        result :=
          if n ≤ k * K then none
          else some (l + ((List.range' (k * K) (min K (n - k * K))).map f).sum,
            List.range' (k * K) (min K (n - k * K))) }

/-- The invariant of the block, for a state reached by the interleaving `pre`. -/
structure QInv (f : Nat → α) (cap : Nat → Int) (K n T : Nat) (pre : List Nat)
    (st : Region α) : Prop where
  len : st.workers.length = T
  idx : st.index = ((st.claims * K : Nat) : Int)
  low : st.exited = 0 → st.claims ≤ (n + K - 1) / K
  high : 1 ≤ st.exited → st.claims = (n + K - 1) / K + st.exited
  proc : (st.workers.map fun w => (w.processed : Multiset Nat)).sum =
    Multiset.range (min (st.claims * K) n)
  clm : (st.workers.map fun w => (w.claimed : Multiset Int)).sum =
    (Multiset.range st.claims).map cap
  loc : ∀ w ∈ st.workers, w.local_sum = (w.processed.map f).sum
  ans : st.answer = (st.workers.map fun w => if w.pc = .finished then w.local_sum else 0).sum
  live : ∀ t w, st.workers[t]? = some w → w.pc ≠ .finished → pre.count t = w.claimed.length

/-- The invariant of the block when every pass breaks (as it does for `n = 0`): nothing is
ever read or added, and a thread is done after two steps. -/
structure ZInv (T : Nat) (pre : List Nat) (st : Region α) : Prop where
  len : st.workers.length = T
  ans : st.answer = 0
  idle : ∀ w ∈ st.workers, w.local_sum = 0 ∧ w.processed = []
  live : ∀ t w, st.workers[t]? = some w →
    (w.pc = .claiming → pre.count t = 0) ∧ (w.pc = .merging → pre.count t = 1)

/-- How far a non-negative `int` cursor is from `2 ^ 31`, where it wraps to a negative value
(`0` once it is negative). -/
def toWrap (index : Int) : Nat := if index < 0 then 0 else (2 ^ 31 - index).toNat

/-- What a pass does for any value of the cursor, overflow included, for a cursor that
advances by `K`: it never leaves the buffer, it breaks exactly when the cursor it finds,
converted to `size_t`, is at least `n`, and otherwise it handles a block `blk` of indices
below `n`, adding `f i` for each. -/
def PassSafe (pass : Int → α → Option (Pass α)) (f : Nat → α) (K : Int) (n : Nat) : Prop :=
  ∀ index : Int, -2 ^ 31 ≤ index → index < 2 ^ 31 → ∀ l : α,
    ∃ p, pass index l = some p ∧ p.index = wrap32 (index + K) ∧
      (n ≤ toSizeT index → p.result = none) ∧
      (toSizeT index < n →
        ∃ blk : List Nat, p.result = some (l + (blk.map f).sum, blk) ∧ ∀ i ∈ blk, i < n)

/-- The invariant of the block that holds whether or not the cursor overflows. -/
structure WInv (f : Nat → α) (n T : Nat) (pre : List Nat) (st : Region α) : Prop where
  len : st.workers.length = T
  lo : -2 ^ 31 ≤ st.index
  hi : st.index < 2 ^ 31
  loc : ∀ w ∈ st.workers, w.local_sum = (w.processed.map f).sum ∧ ∀ i ∈ w.processed, i < n
  ans : st.answer = (st.workers.map fun w => if w.pc = .finished then w.local_sum else 0).sum
  live : ∀ t w, st.workers[t]? = some w → w.pc ≠ .finished → pre.count t = w.claimed.length
  meas : st.claims + toWrap st.index ≤ 2 ^ 31 + (2 ^ 31 + 1) * st.exited

/-- A state of the block in which every captured value `i` is replaced by `g i`: the same
cursor, accumulator, control points, local sums and indices read. -/
def Region.relabel (g : Int → Int) (st : Region α) : Region α :=
  { index := st.index, answer := st.answer,
    workers := st.workers.map fun w =>
      { pc := w.pc, local_sum := w.local_sum, claimed := w.claimed.map g,
        processed := w.processed } }

/-- The part of the invariant of the block that concerns memory: the cursor is an `int` and
every index read so far lies below `n`. -/
structure SInv (n : Nat) (st : Region α) : Prop where
  lo : -2 ^ 31 ≤ st.index
  hi : st.index < 2 ^ 31
  read : ∀ w ∈ st.workers, ∀ i ∈ w.processed, i < n

/-! ### The loader in `main` -/

/-- Step 1 of `main` (lines 125-141): `s` starts empty with `n = 0`; for each argument
`argv[i]`, `i ≥ 1`, in order, if `fopen` succeeds the file's bytes are appended to `s` and
their number is added to `n`, otherwise only `errno` is reset.  The file system is `fs`: it
gives the contents of the file an argument names, if it can be opened. -/
def main_load (fs : List Byte → Option (List Byte)) (argv : List (List Byte)) :
    List Byte × Nat :=
  (argv.drop 1).foldl
    (fun sn arg =>
      match fs arg with
      | some contents => (sn.1 ++ contents, sn.2 + contents.length)
      | none => sn)
    ([], 0)

/-- The buffer and length the comments of `main` announce ("add argument i's file contents (or
string value) to s", "not a file; treat as a string"): the concatenation, over the arguments,
of the file's contents when the argument names a readable file and of the argument's own
bytes otherwise. -/
def announced_load (fs : List Byte → Option (List Byte)) (argv : List (List Byte)) :
    List Byte × Nat :=
  (argv.drop 1).foldl
    (fun sn arg =>
      match fs arg with
      | some contents => (sn.1 ++ contents, sn.2 + contents.length)
      | none => (sn.1 ++ arg, sn.2 + arg.length))
    ([], 0)

end Model

/-! ## The loop body and the statically scheduled loops -/

section Static

variable {α : Type} [Field α]

theorem loop_body_eq (log : α → α) (s : List Byte) (n : Nat) (acc : α) (i : Nat)
    (hi : i < s.length) : loop_body log s n acc i = some (acc + term log s n i) := by
  have h : s[i]? = some s[i] := List.getElem?_eq_getElem hi
  have hd : s.getD i 0 = s[i] := by simp [List.getD, h]
  unfold loop_body term
  rw [h, hd]
  by_cases hb : 0 < (s[i]).val <;> simp [hb]

theorem run_chunk_eq (log : α → α) (s : List Byte) (n : Nat) (chunk : List Nat) :
    ∀ acc : α, (∀ i ∈ chunk, i < s.length) →
      run_chunk log s n acc chunk = some (acc + (chunk.map (term log s n)).sum) := by
  induction chunk with
  | nil => intro acc _; simp [run_chunk]
  | cons i rest ih =>
    intro acc h
    have hi : i < s.length := h i (List.mem_cons_self _ _)
    have hrest : ∀ j ∈ rest, j < s.length := fun j hj => h j (List.mem_cons_of_mem _ hj)
    have := ih (acc + term log s n i) hrest
    unfold run_chunk at this ⊢
    simp only [List.foldlM_cons, loop_body_eq log s n acc i hi, Option.bind_eq_bind,
      Option.some_bind, this, List.map_cons, List.sum_cons, add_assoc]

theorem mapM_run_chunk_eq (log : α → α) (s : List Byte) (n : Nat) (chunks : List (List Nat))
    (h : ∀ i ∈ chunks.flatten, i < s.length) :
    chunks.mapM (run_chunk log s n 0) =
      some (chunks.map fun c => (c.map (term log s n)).sum) := by
  induction chunks with
  | nil => rfl
  | cons c rest ih =>
    have hc : ∀ i ∈ c, i < s.length := fun i hi => h i (by simp [hi])
    have hrest : ∀ i ∈ rest.flatten, i < s.length := fun i hi => h i (by
      simp only [List.flatten_cons, List.mem_append]; exact Or.inr hi)
    rw [List.mapM_cons, run_chunk_eq log s n c 0 hc, ih hrest]
    simp

theorem foldl_add_eq (l : List α) (a : α) : l.foldl (· + ·) a = a + l.sum := by
  induction l generalizing a with
  | nil => simp
  | cons x xs ih => simp [ih, add_assoc]

theorem sum_chunks_eq (f : Nat → α) (chunks : List (List Nat)) :
    (chunks.map fun c => (c.map f).sum).sum = (chunks.flatten.map f).sum := by
  induction chunks with
  | nil => simp
  | cons c rest ih => simp [ih]

theorem list_sum_range_eq (f : Nat → α) (n : Nat) :
    ((List.range n).map f).sum = ∑ i ∈ Finset.range n, f i := by
  induction n with
  | zero => simp
  | succ k ih => rw [List.sum_range_succ, Finset.sum_range_succ, ih]

theorem sum_range_eq_filter (log : α → α) (s : List Byte) (n : Nat) :
    ((List.range n).map (term log s n)).sum =
      ∑ i ∈ (Finset.range n).filter (fun i => 0 < (s.getD i 0).val),
        log ((s.getD i 0).val : α) / (n : α) := by
  rw [Finset.sum_filter, list_sum_range_eq]
  rfl

theorem omp_for_reduction_eq (log : α → α) (chunks : List (List Nat)) (s : List Byte)
    (n : Nat) (hs : s.length = n) (hc : chunks.flatten.Perm (List.range n)) :
    omp_for_reduction log chunks s n 0 =
      some (∑ i ∈ (Finset.range n).filter (fun i => 0 < (s.getD i 0).val),
        log ((s.getD i 0).val : α) / (n : α)) := by
  have hb : ∀ i ∈ chunks.flatten, i < s.length := fun i hi => by
    have := (hc.mem_iff).1 hi
    rw [hs]; exact List.mem_range.1 this
  unfold omp_for_reduction
  rw [mapM_run_chunk_eq log s n chunks hb]
  simp only [Option.map_some', foldl_add_eq, zero_add, sum_chunks_eq]
  rw [(hc.map (term log s n)).sum_eq, sum_range_eq_filter]

theorem map_getD_range (l : List α) :
    (List.range l.length).map (fun t => l.getD t 0) = l := by
  apply List.ext_getElem
  · simp
  · intro i h1 h2
    simp [List.getD, List.getElem?_eq_getElem h2]

theorem foldl_order_eq (locals : List α) (order : List Nat)
    (ho : order.Perm (List.range locals.length)) :
    order.foldl (fun answer t => answer + locals.getD t 0) 0 = locals.sum := by
  have h : ∀ (l : List Nat) (a : α),
      l.foldl (fun answer t => answer + locals.getD t 0) a =
        a + (l.map fun t => locals.getD t 0).sum := by
    intro l
    induction l with
    | nil => intro a; simp
    | cons x xs ih =>
      intro a
      rw [List.foldl_cons, ih, List.map_cons, List.sum_cons, add_assoc]
  rw [h, zero_add, (ho.map _).sum_eq, map_getD_range]

theorem geomean_even_split_eq (log exp : α → α) (chunks : List (List Nat)) (s : List Byte)
    (n : Nat) (hs : s.length = n) (hc : chunks.flatten.Perm (List.range n)) :
    geomean_even_split log exp chunks s n =
      some (exp (∑ i ∈ (Finset.range n).filter (fun i => 0 < (s.getD i 0).val),
        log ((s.getD i 0).val : α) / (n : α))) := by
  unfold geomean_even_split
  rw [omp_for_reduction_eq log chunks s n hs hc]
  rfl

theorem geomean_guided_eq (log exp : α → α) (chunks : List (List Nat)) (s : List Byte)
    (n : Nat) (hs : s.length = n) (hc : chunks.flatten.Perm (List.range n)) :
    geomean_guided log exp chunks s n =
      some (exp (∑ i ∈ (Finset.range n).filter (fun i => 0 < (s.getD i 0).val),
        log ((s.getD i 0).val : α) / (n : α))) := by
  unfold geomean_guided
  rw [omp_for_reduction_eq log chunks s n hs hc]
  rfl

theorem geomean_atomic_non_parallel_eq (log exp : α → α) (s : List Byte) (n : Nat)
    (hs : s.length = n) :
    geomean_atomic_non_parallel log exp s n =
      some (exp (∑ i ∈ (Finset.range n).filter (fun i => 0 < (s.getD i 0).val),
        log ((s.getD i 0).val : α) / (n : α))) := by
  have h := run_chunk_eq log s n (List.range n) 0
    (fun i hi => by rw [hs]; exact List.mem_range.1 hi)
  unfold run_chunk at h
  unfold geomean_atomic_non_parallel
  rw [h, zero_add, sum_range_eq_filter]
  rfl

theorem geomean_many_to_few_atomic_eq (log exp : α → α) (chunks : List (List Nat))
    (order : List Nat) (s : List Byte) (n : Nat) (hs : s.length = n)
    (hc : chunks.flatten.Perm (List.range n)) (ho : order.Perm (List.range chunks.length)) :
    geomean_many_to_few_atomic log exp chunks order s n =
      some (exp (∑ i ∈ (Finset.range n).filter (fun i => 0 < (s.getD i 0).val),
        log ((s.getD i 0).val : α) / (n : α))) := by
  have hb : ∀ i ∈ chunks.flatten, i < s.length := fun i hi => by
    have := (hc.mem_iff).1 hi
    rw [hs]; exact List.mem_range.1 this
  unfold geomean_many_to_few_atomic
  rw [mapM_run_chunk_eq log s n chunks hb]
  simp only [Option.map_some']
  rw [foldl_order_eq _ order (by simpa using ho), sum_chunks_eq,
    (hc.map (term log s n)).sum_eq, sum_range_eq_filter]

end Static

/-! ## The block with a shared cursor: invariant -/

section Queue

variable {α : Type} [Field α]

theorem sum_map_set {β M : Type} [AddCommMonoid M] (f : β → M) (l : List β) (t : Nat)
    (w w' : β) (h : l[t]? = some w) :
    ((l.set t w').map f).sum + f w = (l.map f).sum + f w' := by
  induction l generalizing t with
  | nil => simp at h
  | cons x xs ih =>
    cases t with
    | zero =>
      simp only [List.getElem?_cons_zero, Option.some.injEq] at h
      subst h
      simp only [List.set_cons_zero, List.map_cons, List.sum_cons]
      rw [add_comm (f w') _, add_assoc, add_comm (f x) _, add_comm (f w') _, add_assoc]
    | succ k =>
      simp only [List.getElem?_cons_succ] at h
      simp only [List.set_cons_succ, List.map_cons, List.sum_cons, add_assoc, ih k h]

theorem exited_list_le {β : Type} (ws : List (Worker β)) :
    (ws.map fun w => if w.pc = .claiming then 0 else 1).sum ≤ ws.length := by
  induction ws with
  | nil => simp
  | cons w ws ih =>
    simp only [List.map_cons, List.sum_cons, List.length_cons]
    split <;> omega

theorem exited_lt_length {β : Type} (st : Region β) (t : Nat) (w : Worker β)
    (hw : st.workers[t]? = some w) (hpc : w.pc = .claiming) :
    st.exited + 1 ≤ st.workers.length := by
  have h1 := sum_map_set (fun w : Worker β => if w.pc = .claiming then 0 else 1)
    st.workers t w ⟨.merging, w.local_sum, w.claimed, w.processed⟩ hw
  have h2 := exited_list_le (st.workers.set t ⟨.merging, w.local_sum, w.claimed, w.processed⟩)
  simp only [hpc, reduceCtorEq, if_false, if_true, add_zero] at h1
  rw [List.length_set] at h2
  unfold Region.exited
  omega

theorem ceil_le_iff (K n k : Nat) (hK : 1 ≤ K) : (n + K - 1) / K ≤ k ↔ n ≤ k * K := by
  rw [← Nat.lt_succ_iff, Nat.div_lt_iff_lt_mul (by omega), Nat.succ_mul]
  omega

theorem range_min_succ (K n c : Nat) (h : c * K < n) :
    Multiset.range (min ((c + 1) * K) n) =
      Multiset.range (min (c * K) n) + ((List.range' (c * K) (min K (n - c * K)) : List Nat) :
        Multiset Nat) := by
  have h1 : min (c * K) n = c * K := by omega
  have h2 : min ((c + 1) * K) n = c * K + min K (n - c * K) := by
    rw [Nat.succ_mul]; omega
  rw [h1, h2, ← Multiset.coe_range, ← Multiset.coe_range, Multiset.coe_add,
    List.range_eq_range', List.range_eq_range']
  congr 1
  have := @List.range'_append 0 (c * K) (min K (n - c * K)) 1
  simp only [one_mul, zero_add] at this
  rw [add_comm]
  exact this.symm

theorem count_snoc_self (pre : List Nat) (t : Nat) :
    (pre ++ [t]).count t = pre.count t + 1 := by
  simp [List.count_append]

theorem count_snoc_ne (pre : List Nat) (t u : Nat) (h : t ≠ u) :
    (pre ++ [t]).count u = pre.count u := by
  simp [List.count_append, List.count_cons, h]

theorem live_set {β : Type} (pre : List Nat) (ws : List (Worker β)) (t : Nat)
    (w w' : Worker β) (hw : ws[t]? = some w) (hpc : w.pc ≠ .finished)
    (hlen : w'.pc ≠ .finished → w'.claimed.length = w.claimed.length + 1)
    (hlive : ∀ u v, ws[u]? = some v → v.pc ≠ .finished → pre.count u = v.claimed.length) :
    ∀ u v, (ws.set t w')[u]? = some v → v.pc ≠ .finished →
      (pre ++ [t]).count u = v.claimed.length := by
  intro u v hv hvpc
  have ht : t < ws.length := by
    rcases Nat.lt_or_ge t ws.length with h | h
    · exact h
    · rw [List.getElem?_eq_none h] at hw; cases hw
  by_cases htu : t = u
  · subst htu
    rw [List.getElem?_set, if_pos rfl, if_pos ht] at hv
    cases hv
    rw [count_snoc_self, hlive t w hw hpc, hlen hvpc]
  · rw [List.getElem?_set, if_neg htu] at hv
    rw [count_snoc_ne pre t u htu]
    exact hlive u v hv hvpc

theorem live_idle {β : Type} (pre : List Nat) (ws : List (Worker β)) (t : Nat)
    (hidle : ∀ w, ws[t]? = some w → w.pc = .finished)
    (hlive : ∀ u v, ws[u]? = some v → v.pc ≠ .finished → pre.count u = v.claimed.length) :
    ∀ u v, ws[u]? = some v → v.pc ≠ .finished → (pre ++ [t]).count u = v.claimed.length := by
  intro u v hv hvpc
  by_cases htu : t = u
  · subst htu
    exact absurd (hidle v hv) hvpc
  · rw [count_snoc_ne pre t u htu]
    exact hlive u v hv hvpc

theorem mem_of_getElem?_eq {β : Type} (ws : List β) (t : Nat) (w : β) (hw : ws[t]? = some w) :
    w ∈ ws := by
  rcases List.getElem?_eq_some.1 hw with ⟨h, rfl⟩
  exact List.getElem_mem h

theorem inv_start (f : Nat → α) (cap : Nat → Int) (K n T : Nat) :
    QInv f cap K n T [] (Region.start T : Region α) := by
  have hc : (Region.start T : Region α).claims = 0 := by
    simp [Region.claims, Region.start]
  have he : (Region.start T : Region α).exited = 0 := by
    simp [Region.exited, Region.start]
  refine ⟨by simp [Region.start], by rw [hc]; simp [Region.start], fun _ => by simp [hc],
    fun h => by omega, ?_, ?_, ?_, ?_, ?_⟩
  · rw [hc]; simp [Region.start]
  · rw [hc]; simp [Region.start]
  · intro w hw
    simp only [Region.start] at hw
    rw [List.eq_of_mem_replicate hw]
    simp
  · simp [Region.start]
  · intro t w hw _
    simp only [Region.start] at hw
    have := mem_of_getElem?_eq _ _ _ hw
    rw [List.eq_of_mem_replicate this]
    simp

theorem inv_idle (f : Nat → α) (cap : Nat → Int) (K n T : Nat) (pre : List Nat)
    (st : Region α) (t : Nat) (hinv : QInv f cap K n T pre st)
    (hidle : ∀ w, st.workers[t]? = some w → w.pc = .finished) :
    QInv f cap K n T (pre ++ [t]) st :=
  ⟨hinv.len, hinv.idx, hinv.low, hinv.high, hinv.proc, hinv.clm, hinv.loc, hinv.ans,
    live_idle pre st.workers t hidle hinv.live⟩

theorem inv_merge (f : Nat → α) (cap : Nat → Int) (K n T : Nat) (pre : List Nat)
    (st st' : Region α) (t : Nat) (w w' : Worker α) (hinv : QInv f cap K n T pre st)
    (hw : st.workers[t]? = some w) (hpc : w.pc = .merging)
    (hidx : st'.index = st.index) (hans : st'.answer = st.answer + w.local_sum)
    (hws : st'.workers = st.workers.set t w')
    (hpc' : w'.pc = .finished) (hl' : w'.local_sum = w.local_sum)
    (hc' : w'.claimed = w.claimed) (hp' : w'.processed = w.processed) :
    QInv f cap K n T (pre ++ [t]) st' := by
  have hc : st'.claims = st.claims := by
    unfold Region.claims
    rw [hws]
    have := sum_map_set (fun w : Worker α => w.claimed.length) st.workers t w w' hw
    simp only [hc'] at this
    omega
  have he : st'.exited = st.exited := by
    unfold Region.exited
    rw [hws]
    have := sum_map_set (fun w : Worker α => if w.pc = .claiming then 0 else 1)
      st.workers t w w' hw
    simp only [hpc, hpc', reduceCtorEq, if_false] at this
    omega
  refine ⟨by rw [hws, List.length_set]; exact hinv.len, by rw [hidx, hc]; exact hinv.idx,
    by rw [hc, he]; exact hinv.low, by rw [hc, he]; exact hinv.high, ?_, ?_, ?_, ?_, ?_⟩
  · rw [hc, ← hinv.proc, hws]
    have := sum_map_set (fun w : Worker α => (w.processed : Multiset Nat)) st.workers t w w' hw
    simp only [hp'] at this
    exact add_right_cancel this
  · rw [hc, ← hinv.clm, hws]
    have := sum_map_set (fun w : Worker α => (w.claimed : Multiset Int)) st.workers t w w' hw
    simp only [hc'] at this
    exact add_right_cancel this
  · intro v hv
    rw [hws] at hv
    rcases List.mem_or_eq_of_mem_set hv with h | h
    · exact hinv.loc v h
    · rw [h, hl', hp']
      exact hinv.loc w (mem_of_getElem?_eq _ _ _ hw)
  · rw [hans, hws, hinv.ans]
    have := sum_map_set (fun w : Worker α => if w.pc = .finished then w.local_sum else 0)
      st.workers t w w' hw
    simp only [hpc, hpc', hl', reduceCtorEq, if_false, if_true, add_zero] at this
    exact this.symm
  · rw [hws]
    exact live_set pre st.workers t w w' hw (by rw [hpc]; decide) (fun h => absurd hpc' h)
      hinv.live

theorem claimed_snoc (cap : Nat → Int) (c : Nat) (m : Multiset Int) (l : List Int)
    (h : m + (l : Multiset Int) = (Multiset.range c).map cap + ((l ++ [cap c] : List Int) :
      Multiset Int)) :
    m = (Multiset.range (c + 1)).map cap := by
  rw [← Multiset.coe_add, Multiset.coe_singleton, add_comm (l : Multiset Int) _, ← add_assoc]
    at h
  rw [add_right_cancel h, Multiset.range_succ, Multiset.map_cons, add_comm,
    Multiset.singleton_add]

theorem inv_break (f : Nat → α) (cap : Nat → Int) (K n T : Nat) (hK : 1 ≤ K)
    (pre : List Nat) (st st' : Region α) (t : Nat) (w w' : Worker α)
    (hinv : QInv f cap K n T pre st)
    (hw : st.workers[t]? = some w) (hpc : w.pc = .claiming) (hn : n ≤ st.claims * K)
    (hidx : st'.index = (((st.claims + 1) * K : Nat) : Int)) (hans : st'.answer = st.answer)
    (hws : st'.workers = st.workers.set t w')
    (hpc' : w'.pc = .merging) (hl' : w'.local_sum = w.local_sum)
    (hc' : w'.claimed = w.claimed ++ [cap st.claims]) (hp' : w'.processed = w.processed) :
    QInv f cap K n T (pre ++ [t]) st' := by
  have hc : st'.claims = st.claims + 1 := by
    unfold Region.claims
    rw [hws]
    have := sum_map_set (fun w : Worker α => w.claimed.length) st.workers t w w' hw
    simp only [hc', List.length_append, List.length_singleton] at this
    omega
  have he : st'.exited = st.exited + 1 := by
    unfold Region.exited
    rw [hws]
    have := sum_map_set (fun w : Worker α => if w.pc = .claiming then 0 else 1)
      st.workers t w w' hw
    simp only [hpc, hpc', reduceCtorEq, if_false, if_true] at this
    omega
  have hN : (n + K - 1) / K ≤ st.claims := (ceil_le_iff K n st.claims hK).2 hn
  refine ⟨by rw [hws, List.length_set]; exact hinv.len, by rw [hidx, hc],
    fun h => by omega, fun _ => ?_, ?_, ?_, ?_, ?_, ?_⟩
  · rw [hc, he]
    rcases Nat.eq_zero_or_pos st.exited with h0 | h1
    · have := hinv.low h0
      omega
    · have := hinv.high h1
      omega
  · have h1 : min (st'.claims * K) n = min (st.claims * K) n := by
      rw [hc, Nat.succ_mul]; omega
    rw [h1, ← hinv.proc, hws]
    have := sum_map_set (fun w : Worker α => (w.processed : Multiset Nat)) st.workers t w w' hw
    simp only [hp'] at this
    exact add_right_cancel this
  · rw [hc, hws]
    have := sum_map_set (fun w : Worker α => (w.claimed : Multiset Int)) st.workers t w w' hw
    simp only [hc', hinv.clm] at this
    exact claimed_snoc cap st.claims _ _ this
  · intro v hv
    rw [hws] at hv
    rcases List.mem_or_eq_of_mem_set hv with h | h
    · exact hinv.loc v h
    · rw [h, hl', hp']
      exact hinv.loc w (mem_of_getElem?_eq _ _ _ hw)
  · rw [hans, hws, hinv.ans]
    have := sum_map_set (fun w : Worker α => if w.pc = .finished then w.local_sum else 0)
      st.workers t w w' hw
    simp only [hpc, hpc', reduceCtorEq, if_false, add_zero] at this
    exact this.symm
  · rw [hws]
    exact live_set pre st.workers t w w' hw (by rw [hpc]; decide)
      (fun _ => by rw [hc']; simp) hinv.live

theorem inv_process (f : Nat → α) (cap : Nat → Int) (K n T : Nat) (hK : 1 ≤ K)
    (pre : List Nat) (st st' : Region α) (t : Nat) (w w' : Worker α)
    (hinv : QInv f cap K n T pre st)
    (hw : st.workers[t]? = some w) (hpc : w.pc = .claiming) (hn : st.claims * K < n)
    (hidx : st'.index = (((st.claims + 1) * K : Nat) : Int)) (hans : st'.answer = st.answer)
    (hws : st'.workers = st.workers.set t w')
    (hpc' : w'.pc = .claiming)
    (hl' : w'.local_sum = w.local_sum +
      ((List.range' (st.claims * K) (min K (n - st.claims * K))).map f).sum)
    (hc' : w'.claimed = w.claimed ++ [cap st.claims])
    (hp' : w'.processed =
      w.processed ++ List.range' (st.claims * K) (min K (n - st.claims * K))) :
    QInv f cap K n T (pre ++ [t]) st' := by
  have hc : st'.claims = st.claims + 1 := by
    unfold Region.claims
    rw [hws]
    have := sum_map_set (fun w : Worker α => w.claimed.length) st.workers t w w' hw
    simp only [hc', List.length_append, List.length_singleton] at this
    omega
  have he : st'.exited = st.exited := by
    unfold Region.exited
    rw [hws]
    have := sum_map_set (fun w : Worker α => if w.pc = .claiming then 0 else 1)
      st.workers t w w' hw
    simp only [hpc, hpc', if_true] at this
    omega
  have hN : ¬ (n + K - 1) / K ≤ st.claims := fun h =>
    absurd ((ceil_le_iff K n st.claims hK).1 h) (by omega)
  refine ⟨by rw [hws, List.length_set]; exact hinv.len, by rw [hidx, hc],
    fun _ => by omega, fun h => ?_, ?_, ?_, ?_, ?_, ?_⟩
  · rw [he] at h
    have := hinv.high h
    omega
  · rw [hc, range_min_succ K n st.claims hn, ← hinv.proc, hws]
    have := sum_map_set (fun w : Worker α => (w.processed : Multiset Nat)) st.workers t w w' hw
    simp only [hp', ← Multiset.coe_add] at this
    rw [add_comm (w.processed : Multiset Nat) _, ← add_assoc] at this
    exact add_right_cancel this
  · rw [hc, hws]
    have := sum_map_set (fun w : Worker α => (w.claimed : Multiset Int)) st.workers t w w' hw
    simp only [hc', hinv.clm] at this
    exact claimed_snoc cap st.claims _ _ this
  · intro v hv
    rw [hws] at hv
    rcases List.mem_or_eq_of_mem_set hv with h | h
    · exact hinv.loc v h
    · rw [h, hl', hp', List.map_append, List.sum_append,
        hinv.loc w (mem_of_getElem?_eq _ _ _ hw)]
  · rw [hans, hws, hinv.ans]
    have := sum_map_set (fun w : Worker α => if w.pc = .finished then w.local_sum else 0)
      st.workers t w w' hw
    simp only [hpc, hpc', reduceCtorEq, if_false, add_zero] at this
    exact this.symm
  · rw [hws]
    exact live_set pre st.workers t w w' hw (by rw [hpc]; decide)
      (fun _ => by rw [hc']; simp) hinv.live

theorem parallel_step_inv (pass : Int → α → Option (Pass α)) (f : Nat → α) (cap : Nat → Int)
    (K n T : Nat) (hK : 1 ≤ K) (hov : ((n + K - 1) / K + T) * K < 2 ^ 31)
    (hspec : PassSpec pass f cap K n) (pre : List Nat) (st : Region α)
    (hinv : QInv f cap K n T pre st) (t : Nat) :
    ∃ st', parallel_step pass st t = some st' ∧ QInv f cap K n T (pre ++ [t]) st' := by
  unfold parallel_step
  cases hw : st.workers[t]? with
  | none =>
    exact ⟨st, rfl, inv_idle f cap K n T pre st t hinv (fun w h => by rw [hw] at h; cases h)⟩
  | some w =>
    cases hpc : w.pc with
    | finished =>
      simp only [hpc]
      refine ⟨st, rfl, inv_idle f cap K n T pre st t hinv (fun v h => ?_)⟩
      rw [hw] at h
      cases h
      exact hpc
    | merging =>
      simp only [hpc]
      exact ⟨_, rfl, inv_merge f cap K n T pre st _ t w _ hinv hw hpc rfl rfl rfl rfl rfl rfl
        rfl⟩
    | claiming =>
      have hlt := exited_lt_length st t w hw hpc
      rw [hinv.len] at hlt
      have hle : st.claims + 1 ≤ (n + K - 1) / K + T := by
        rcases Nat.eq_zero_or_pos st.exited with h0 | h1
        · have := hinv.low h0
          omega
        · have := hinv.high h1
          omega
      have hk : (st.claims + 1) * K < 2 ^ 31 :=
        lt_of_le_of_lt (Nat.mul_le_mul_right K hle) hov
      simp only [hpc, hinv.idx, hspec st.claims hk w.local_sum]
      by_cases hn : n ≤ st.claims * K
      · simp only [hn, if_true]
        exact ⟨_, rfl, inv_break f cap K n T hK pre st _ t w _ hinv hw hpc hn rfl rfl rfl rfl
          rfl rfl rfl⟩
      · simp only [hn, if_false]
        exact ⟨_, rfl, inv_process f cap K n T hK pre st _ t w _ hinv hw hpc (by omega) rfl
          rfl rfl rfl rfl rfl rfl⟩

theorem foldlM_step_inv (pass : Int → α → Option (Pass α)) (f : Nat → α) (cap : Nat → Int)
    (K n T : Nat) (hK : 1 ≤ K) (hov : ((n + K - 1) / K + T) * K < 2 ^ 31)
    (hspec : PassSpec pass f cap K n) (sched : List Nat) :
    ∀ (pre : List Nat) (st : Region α), QInv f cap K n T pre st →
      ∃ st', sched.foldlM (parallel_step pass) st = some st' ∧
        QInv f cap K n T (pre ++ sched) st' := by
  induction sched with
  | nil => intro pre st h; exact ⟨st, rfl, by simpa using h⟩
  | cons t rest ih =>
    intro pre st h
    obtain ⟨st1, h1, hinv1⟩ := parallel_step_inv pass f cap K n T hK hov hspec pre st h t
    obtain ⟨st2, h2, hinv2⟩ := ih (pre ++ [t]) st1 hinv1
    refine ⟨st2, ?_, by simpa using hinv2⟩
    rw [List.foldlM_cons, h1]
    exact h2

theorem parallel_region_inv (pass : Int → α → Option (Pass α)) (f : Nat → α)
    (cap : Nat → Int) (K n T : Nat) (hK : 1 ≤ K) (hov : ((n + K - 1) / K + T) * K < 2 ^ 31)
    (hspec : PassSpec pass f cap K n) (sched : List Nat) :
    ∃ st, parallel_region pass T sched = some st ∧ QInv f cap K n T sched st := by
  obtain ⟨st, h1, h2⟩ :=
    foldlM_step_inv pass f cap K n T hK hov hspec sched [] _ (inv_start f cap K n T)
  exact ⟨st, h1, by simpa using h2⟩

/-! ## The block with a shared cursor: what the invariant gives once every thread is done -/

theorem sum_coe_eq_flatten {β γ : Type} (g : β → List γ) (ws : List β) :
    (ws.map fun w => ((g w : List γ) : Multiset γ)).sum =
      (((ws.map g).flatten : List γ) : Multiset γ) := by
  induction ws with
  | nil => rfl
  | cons w ws ih =>
    simp only [List.map_cons, List.sum_cons, List.flatten_cons, ih, Multiset.coe_add]

theorem done_iff {β : Type} (st : Region β) :
    st.done = true ↔ ∀ w ∈ st.workers, w.pc = .finished := by
  simp [Region.done, List.all_eq_true]

theorem exited_of_done {β : Type} (st : Region β) (h : st.done = true) :
    st.exited = st.workers.length := by
  have h' := (done_iff st).1 h
  unfold Region.exited
  generalize st.workers = ws at h'
  induction ws with
  | nil => rfl
  | cons w ws ih =>
    have hw : w.pc = .finished := h' w (List.mem_cons_self _ _)
    simp only [List.map_cons, List.sum_cons, List.length_cons, hw, reduceCtorEq, if_false,
      ih (fun v hv => h' v (List.mem_cons_of_mem _ hv))]
    omega

theorem ceil_mul_ge (K n : Nat) (hK : 1 ≤ K) : n ≤ (n + K - 1) / K * K :=
  (ceil_le_iff K n _ hK).1 (le_refl _)

theorem inv_done (f : Nat → α) (cap : Nat → Int) (K n T : Nat) (hK : 1 ≤ K) (hT : 1 ≤ T)
    (pre : List Nat) (st : Region α) (hinv : QInv f cap K n T pre st)
    (hdone : st.done = true) :
    st.claims = (n + K - 1) / K + T ∧
    (st.workers.map fun w => w.processed).flatten.Perm (List.range n) ∧
    (st.workers.map fun w => w.claimed).flatten.Perm
      ((List.range ((n + K - 1) / K + T)).map cap) ∧
    st.answer = (st.workers.map fun w => w.local_sum).sum ∧
    st.answer = ((List.range n).map f).sum := by
  have he : st.exited = T := by rw [exited_of_done st hdone, hinv.len]
  have hc : st.claims = (n + K - 1) / K + T := by
    have := hinv.high (by omega)
    omega
  have hmin : min (st.claims * K) n = n := by
    have h1 := ceil_mul_ge K n hK
    have h2 : (n + K - 1) / K * K ≤ st.claims * K :=
      Nat.mul_le_mul_right K (by omega)
    omega
  have hproc : (st.workers.map fun w => w.processed).flatten.Perm (List.range n) := by
    have := hinv.proc
    rw [sum_coe_eq_flatten, hmin, ← Multiset.coe_range] at this
    exact Multiset.coe_eq_coe.1 this
  have hclm : (st.workers.map fun w => w.claimed).flatten.Perm
      ((List.range ((n + K - 1) / K + T)).map cap) := by
    have := hinv.clm
    rw [sum_coe_eq_flatten, hc, ← Multiset.coe_range, Multiset.map_coe] at this
    exact Multiset.coe_eq_coe.1 this
  have hans : st.answer = (st.workers.map fun w => w.local_sum).sum := by
    rw [hinv.ans]
    congr 1
    apply List.map_congr_left
    intro w hw
    rw [if_pos ((done_iff st).1 hdone w hw)]
  refine ⟨hc, hproc, hclm, hans, ?_⟩
  rw [hans, ← (hproc.map f).sum_eq, ← sum_chunks_eq, List.map_map]
  congr 1
  apply List.map_congr_left
  intro w hw
  exact hinv.loc w hw

theorem inv_fair_done (f : Nat → α) (cap : Nat → Int) (K n T : Nat) (pre : List Nat)
    (st : Region α) (hinv : QInv f cap K n T pre st)
    (hfair : ∀ t, t < T → (n + K - 1) / K + T < pre.count t) : st.done = true := by
  rw [done_iff]
  intro w hw
  by_contra hpc
  obtain ⟨t, ht⟩ := List.getElem?_of_mem hw
  have htT : t < T := by
    rcases List.getElem?_eq_some.1 ht with ⟨h, _⟩
    rw [← hinv.len]; exact h
  have h1 := hinv.live t w ht hpc
  have h2 : w.claimed.length ≤ st.claims :=
    List.single_le_sum (fun _ _ => Nat.zero_le _) _
      (List.mem_map_of_mem (fun w : Worker α => w.claimed.length) hw)
  have h3 : st.exited ≤ T := by
    have := exited_list_le st.workers
    rw [hinv.len] at this
    exact this
  have h4 : st.claims ≤ (n + K - 1) / K + T := by
    rcases Nat.eq_zero_or_pos st.exited with h0 | h1
    · have := hinv.low h0
      omega
    · have := hinv.high h1
      omega
  have := hfair t htT
  omega

/-! ## The two passes meet `PassSpec` while the cursor stays in range -/

theorem wrap32_eq (x : Int) (h1 : -2 ^ 31 ≤ x) (h2 : x < 2 ^ 31) : wrap32 x = x := by
  unfold wrap32
  omega

theorem toSizeT_natCast (k : Nat) (h : k < 2 ^ 64) : toSizeT (k : Int) = k := by
  unfold toSizeT
  omega

theorem task_queue_pass_spec (log : α → α) (s : List Byte) (n : Nat) (hs : s.length = n) :
    PassSpec (task_queue_pass log s n) (term log s n) (fun k => (k : Int)) 1 n := by
  intro k hk l
  simp only [Nat.mul_one] at hk ⊢
  unfold task_queue_pass
  have hw : wrap32 ((k : Int) + 1) = ((k + 1 : Nat) : Int) := by
    rw [wrap32_eq] <;> omega
  dsimp only
  rw [toSizeT_natCast k (by omega)]
  by_cases hn : n ≤ k
  · simp only [hn, if_true, hw]
  · have hneg : ¬ ((k : Int) < 0) := by omega
    have hmin : min 1 (n - k) = 1 := by omega
    simp only [hn, if_false, hneg, hw, Int.toNat_ofNat, hmin,
      loop_body_eq log s n l k (by omega), Option.map_some']
    simp [List.range']

theorem chunk_loop_eq (log : α → α) (s : List Byte) (n : Nat) (hs : s.length = n)
    (start : Nat) (hstart : start < 2 ^ 31) (left : Nat) :
    ∀ (i : Nat) (acc : α) (seen : List Nat), start ≤ i + left →
      chunk_loop log s n (start : Int) left (i : Int) acc seen =
        some (acc + ((List.range' i (min (start - i) (n - i))).map (term log s n)).sum,
          seen ++ List.range' i (min (start - i) (n - i))) := by
  induction left with
  | zero =>
    intro i acc seen hle
    have hm : min (start - i) (n - i) = 0 := by omega
    simp [chunk_loop, hm]
  | succ left ih =>
    intro i acc seen hle
    unfold chunk_loop
    by_cases hc : (i : Int) < (start : Int) ∧ toSizeT (i : Int) < n
    · have hc' := hc
      rw [toSizeT_natCast i (by omega)] at hc'
      have hneg : ¬ ((i : Int) < 0) := by omega
      have hrec := ih (i + 1) (acc + term log s n i) (seen ++ [i]) (by omega)
      simp only [Nat.cast_add, Nat.cast_one] at hrec
      have hm : min (start - i) (n - i) = min (start - (i + 1)) (n - (i + 1)) + 1 := by
        omega
      rw [if_pos hc, if_neg hneg]
      simp only [Int.toNat_ofNat, loop_body_eq log s n acc i (by omega), hrec, hm]
      simp [List.range', add_assoc]
    · have hm : min (start - i) (n - i) = 0 := by
        by_contra h
        apply hc
        rw [toSizeT_natCast i (by omega)]
        omega
      rw [if_neg hc, hm]
      simp

theorem task_queue_large_pass_spec (log : α → α) (s : List Byte) (n : Nat)
    (hs : s.length = n) (K : Nat) :
    PassSpec (task_queue_large_pass log s n (K : Int)) (term log s n)
      (fun k => (((k + 1) * K : Nat) : Int)) K n := by
  intro k hk l
  unfold task_queue_large_pass
  have hle : k * K ≤ (k + 1) * K := Nat.mul_le_mul_right K (Nat.le_succ k)
  have hsum : ((k * K : Nat) : Int) + (K : Int) = (((k + 1) * K : Nat) : Int) := by
    push_cast; ring
  have hsub : (((k + 1) * K : Nat) : Int) - (K : Int) = ((k * K : Nat) : Int) := by
    push_cast; ring
  have hw1 : wrap32 (((k * K : Nat) : Int) + (K : Int)) = (((k + 1) * K : Nat) : Int) := by
    rw [hsum, wrap32_eq] <;> omega
  have hw2 : wrap32 ((((k + 1) * K : Nat) : Int) - (K : Int)) = ((k * K : Nat) : Int) := by
    rw [hsub, wrap32_eq] <;> omega
  dsimp only
  simp only [hw1, hw2]
  rw [toSizeT_natCast (k * K) (by omega)]
  by_cases hn : n ≤ k * K
  · simp only [hn, if_true]
  · have hm : min K (n - k * K) = min ((k + 1) * K - k * K) (n - k * K) := by
      rw [Nat.succ_mul]; omega
    simp only [hn, if_false]
    rw [chunk_loop_eq log s n hs ((k + 1) * K) hk _ (k * K) l [] (by omega), ← hm]
    simp

/-! ## The two cursor strategies, for a cursor that stays in range -/

theorem task_queue_region (log : α → α) (s : List Byte) (n T : Nat) (hs : s.length = n)
    (hfit : n + T < 2 ^ 31) (sched : List Nat) :
    ∃ st, parallel_region (task_queue_pass log s n) T sched = some st ∧
      QInv (term log s n) (fun k => (k : Int)) 1 n T sched st :=
  parallel_region_inv _ _ _ 1 n T (le_refl 1) (by simpa using hfit)
    (task_queue_pass_spec log s n hs) sched

theorem task_queue_large_region (log : α → α) (s : List Byte) (n T K : Nat)
    (hs : s.length = n) (hK : 1 ≤ K) (hfit : ((n + K - 1) / K + T) * K < 2 ^ 31)
    (sched : List Nat) :
    ∃ st, parallel_region (task_queue_large_pass log s n (K : Int)) T sched = some st ∧
      QInv (term log s n) (fun k => (((k + 1) * K : Nat) : Int)) K n T sched st :=
  parallel_region_inv _ _ _ K n T hK hfit (task_queue_large_pass_spec log s n hs K) sched

theorem geomean_task_queue_total (log exp : α → α) (s : List Byte) (n T : Nat)
    (hs : s.length = n) (hT : 1 ≤ T) (hfit : n + T < 2 ^ 31) (sched : List Nat)
    (hfair : ∀ t, t < T → n + T < sched.count t) :
    geomean_task_queue log exp T sched s n =
      some (exp (∑ i ∈ (Finset.range n).filter (fun i => 0 < (s.getD i 0).val),
        log ((s.getD i 0).val : α) / (n : α))) := by
  obtain ⟨st, hst, hinv⟩ := task_queue_region log s n T hs hfit sched
  have hd : st.done = true := inv_fair_done _ _ 1 n T sched st hinv (by simpa using hfair)
  unfold geomean_task_queue
  rw [hst]
  simp only [hd, if_true]
  rw [(inv_done _ _ 1 n T (le_refl 1) hT sched st hinv hd).2.2.2.2, sum_range_eq_filter]

theorem geomean_task_queue_large_total (log exp : α → α) (s : List Byte) (n T K : Nat)
    (hs : s.length = n) (hT : 1 ≤ T) (hK : 1 ≤ K)
    (hfit : ((n + K - 1) / K + T) * K < 2 ^ 31) (sched : List Nat)
    (hfair : ∀ t, t < T → (n + K - 1) / K + T < sched.count t) :
    geomean_task_queue_large log exp T sched s n (K : Int) =
      some (exp (∑ i ∈ (Finset.range n).filter (fun i => 0 < (s.getD i 0).val),
        log ((s.getD i 0).val : α) / (n : α))) := by
  obtain ⟨st, hst, hinv⟩ := task_queue_large_region log s n T K hs hK hfit sched
  have hd : st.done = true := inv_fair_done _ _ K n T sched st hinv hfair
  unfold geomean_task_queue_large
  rw [hst]
  simp only [hd, if_true]
  rw [(inv_done _ _ K n T hK hT sched st hinv hd).2.2.2.2, sum_range_eq_filter]

theorem existsUnique_of_nodup_flatten {γ : Type} (ls : List (List γ)) (a : γ)
    (hnd : ls.flatten.Nodup) (ha : a ∈ ls.flatten) :
    ∃! t : Nat, ∃ l : List γ, ls[t]? = some l ∧ a ∈ l := by
  obtain ⟨l, hl, hal⟩ := List.mem_flatten.1 ha
  obtain ⟨t, ht⟩ := List.getElem?_of_mem hl
  refine ⟨t, ⟨l, ht, hal⟩, ?_⟩
  rintro u ⟨m, hu, ham⟩
  by_contra hne
  have hpw := (List.nodup_flatten.1 hnd).2
  rw [List.pairwise_iff_getElem] at hpw
  obtain ⟨htl, rfl⟩ := List.getElem?_eq_some.1 ht
  obtain ⟨hul, rfl⟩ := List.getElem?_eq_some.1 hu
  rcases Nat.lt_or_gt_of_ne hne with h | h
  · exact hpw u t hul htl h ham hal
  · exact hpw t u htl hul h hal ham

theorem claimed_by_one_thread {β : Type} (cap : Nat → Int) (hcap : Function.Injective cap)
    (m : Nat) (ws : List (Worker β))
    (h : (ws.map fun w => w.claimed).flatten.Perm ((List.range m).map cap)) (k : Nat)
    (hk : k < m) : ∃! t : Nat, ∃ w : Worker β, ws[t]? = some w ∧ cap k ∈ w.claimed := by
  have hnd : (ws.map fun w => w.claimed).flatten.Nodup :=
    (h.nodup_iff).2 ((List.nodup_range m).map hcap)
  have hmem : cap k ∈ (ws.map fun w => w.claimed).flatten :=
    (h.mem_iff).2 (List.mem_map_of_mem cap (List.mem_range.2 hk))
  obtain ⟨t, ⟨l, hl, hal⟩, huniq⟩ := existsUnique_of_nodup_flatten _ _ hnd hmem
  rw [List.getElem?_map] at hl
  cases hw : ws[t]? with
  | none => rw [hw] at hl; cases hl
  | some w =>
    rw [hw] at hl
    simp only [Option.map_some', Option.some.injEq] at hl
    refine ⟨t, ⟨w, hw, by rw [hl]; exact hal⟩, ?_⟩
    rintro u ⟨v, hv, hav⟩
    apply huniq
    exact ⟨v.claimed, by rw [List.getElem?_map, hv]; rfl, hav⟩

theorem processed_lt (f : Nat → α) (cap : Nat → Int) (K n T : Nat) (pre : List Nat)
    (st : Region α) (hinv : QInv f cap K n T pre st) :
    ∀ w ∈ st.workers, ∀ i ∈ w.processed, i < n := by
  intro w hw i hi
  have h1 : i ∈ (st.workers.map fun w => (w.processed : Multiset Nat)).sum := by
    rw [sum_coe_eq_flatten, Multiset.mem_coe, List.mem_flatten]
    exact ⟨w.processed, List.mem_map_of_mem (fun w : Worker α => w.processed) hw, hi⟩
  rw [hinv.proc, Multiset.mem_range] at h1
  omega

/-! ## The block when every pass breaks -/

theorem zinv_start (T : Nat) : ZInv T [] (Region.start T : Region α) := by
  refine ⟨by simp [Region.start], rfl, ?_, ?_⟩
  · intro w hw
    simp only [Region.start] at hw
    rw [List.eq_of_mem_replicate hw]
    exact ⟨rfl, rfl⟩
  · intro t w hw
    simp only [Region.start] at hw
    rw [List.eq_of_mem_replicate (mem_of_getElem?_eq _ _ _ hw)]
    exact ⟨fun _ => rfl, fun h => (by cases h)⟩

theorem zinv_step (pass : Int → α → Option (Pass α))
    (hpass : ∀ index l, ∃ p, pass index l = some p ∧ p.result = none) (T : Nat)
    (pre : List Nat) (st : Region α) (hinv : ZInv T pre st) (t : Nat) :
    ∃ st', parallel_step pass st t = some st' ∧ ZInv T (pre ++ [t]) st' := by
  unfold parallel_step
  cases hw : st.workers[t]? with
  | none =>
    refine ⟨st, rfl, hinv.len, hinv.ans, hinv.idle, fun u v hv => ?_⟩
    have hne : t ≠ u := by rintro rfl; rw [hw] at hv; cases hv
    rw [count_snoc_ne pre t u hne]
    exact hinv.live u v hv
  | some w =>
    have ht : t < st.workers.length := (List.getElem?_eq_some.1 hw).1
    have hmem : w ∈ st.workers := mem_of_getElem?_eq _ _ _ hw
    have hother : ∀ (w' : Worker α) (u : Nat) (v : Worker α), t ≠ u →
        (st.workers.set t w')[u]? = some v →
        (v.pc = .claiming → (pre ++ [t]).count u = 0) ∧
          (v.pc = .merging → (pre ++ [t]).count u = 1) := by
      intro w' u v hne hv
      rw [List.getElem?_set, if_neg hne] at hv
      rw [count_snoc_ne pre t u hne]
      exact hinv.live u v hv
    cases hpc : w.pc with
    | finished =>
      simp only [hpc]
      refine ⟨st, rfl, hinv.len, hinv.ans, hinv.idle, fun u v hv => ?_⟩
      by_cases hne : t = u
      · subst hne
        rw [hw] at hv
        cases hv
        rw [hpc]
        exact ⟨fun h => (by cases h), fun h => (by cases h)⟩
      · rw [count_snoc_ne pre t u hne]
        exact hinv.live u v hv
    | merging =>
      simp only [hpc]
      refine ⟨_, rfl, by simp [hinv.len], by simp [hinv.ans, (hinv.idle w hmem).1], ?_, ?_⟩
      · intro v hv
        rcases List.mem_or_eq_of_mem_set hv with h | h
        · exact hinv.idle v h
        · rw [h]
          exact hinv.idle w hmem
      · intro u v hv
        by_cases hne : t = u
        · subst hne
          simp only [List.getElem?_set, if_pos ht, if_true, Option.some.injEq] at hv
          rw [← hv]
          exact ⟨fun h => (by cases h), fun h => (by cases h)⟩
        · exact hother _ u v hne hv
    | claiming =>
      obtain ⟨p, hp, hres⟩ := hpass st.index w.local_sum
      simp only [hpc, hp, hres]
      refine ⟨_, rfl, by simp [hinv.len], hinv.ans, ?_, ?_⟩
      · intro v hv
        rcases List.mem_or_eq_of_mem_set hv with h | h
        · exact hinv.idle v h
        · rw [h]
          exact hinv.idle w hmem
      · intro u v hv
        by_cases hne : t = u
        · subst hne
          simp only [List.getElem?_set, if_pos ht, if_true, Option.some.injEq] at hv
          rw [← hv]
          refine ⟨fun h => (by cases h), fun _ => ?_⟩
          rw [count_snoc_self, (hinv.live t w hw).1 hpc]
        · exact hother _ u v hne hv

theorem zinv_run (pass : Int → α → Option (Pass α))
    (hpass : ∀ index l, ∃ p, pass index l = some p ∧ p.result = none) (T : Nat)
    (sched : List Nat) :
    ∀ (pre : List Nat) (st : Region α), ZInv T pre st →
      ∃ st', sched.foldlM (parallel_step pass) st = some st' ∧ ZInv T (pre ++ sched) st' := by
  induction sched with
  | nil => intro pre st h; exact ⟨st, rfl, by simpa using h⟩
  | cons t rest ih =>
    intro pre st h
    obtain ⟨st1, h1, hinv1⟩ := zinv_step pass hpass T pre st h t
    obtain ⟨st2, h2, hinv2⟩ := ih (pre ++ [t]) st1 hinv1
    refine ⟨st2, ?_, by simpa using hinv2⟩
    rw [List.foldlM_cons, h1]
    exact h2

theorem zinv_region (pass : Int → α → Option (Pass α))
    (hpass : ∀ index l, ∃ p, pass index l = some p ∧ p.result = none) (T : Nat)
    (sched : List Nat) :
    ∃ st, parallel_region pass T sched = some st ∧ ZInv T sched st := by
  obtain ⟨st, h1, h2⟩ := zinv_run pass hpass T sched [] _ (zinv_start T)
  exact ⟨st, h1, by simpa using h2⟩

theorem zinv_done (T : Nat) (pre : List Nat) (st : Region α) (hinv : ZInv T pre st)
    (hfair : ∀ t, t < T → 2 ≤ pre.count t) : st.done = true := by
  rw [done_iff]
  intro w hw
  obtain ⟨t, ht⟩ := List.getElem?_of_mem hw
  have htT : t < T := by
    rw [← hinv.len]; exact (List.getElem?_eq_some.1 ht).1
  have h1 := hinv.live t w ht
  have h2 := hfair t htT
  cases hpc : w.pc with
  | claiming => have := h1.1 hpc; omega
  | merging => have := h1.2 hpc; omega
  | finished => rfl

theorem task_queue_pass_zero (log : α → α) (s : List Byte) (index : Int) (l : α) :
    ∃ p, task_queue_pass log s 0 index l = some p ∧ p.result = none :=
  ⟨⟨wrap32 (index + 1), index, none⟩, by simp [task_queue_pass], rfl⟩

theorem task_queue_large_pass_zero (log : α → α) (s : List Byte) (K : Int) (index : Int)
    (l : α) : ∃ p, task_queue_large_pass log s 0 K index l = some p ∧ p.result = none :=
  ⟨⟨wrap32 (index + K), wrap32 (index + K), none⟩, by simp [task_queue_large_pass], rfl⟩

theorem foldl_order_zero (locals : List α) (hz : ∀ x ∈ locals, x = 0) (order : List Nat) :
    order.foldl (fun answer t => answer + locals.getD t 0) 0 = 0 := by
  have hget : ∀ t, locals.getD t 0 = 0 := by
    intro t
    rw [List.getD_eq_getElem?_getD]
    cases h : locals[t]? with
    | none => rfl
    | some x => exact hz x (mem_of_getElem?_eq _ _ _ h)
  induction order with
  | nil => rfl
  | cons t rest ih => rw [List.foldl_cons, hget, add_zero, ih]

theorem static_empty (log exp : α → α) (s : List Byte) (chunks : List (List Nat))
    (hc : chunks.flatten = []) (order : List Nat) :
    omp_for_reduction log chunks s 0 0 = some 0 ∧
    geomean_even_split log exp chunks s 0 = some (exp 0) ∧
    geomean_guided log exp chunks s 0 = some (exp 0) ∧
    geomean_many_to_few_atomic log exp chunks order s 0 = some (exp 0) := by
  have hb : ∀ i ∈ chunks.flatten, i < s.length := by rw [hc]; intro i hi; cases hi
  have hred : omp_for_reduction log chunks s 0 0 = some 0 := by
    unfold omp_for_reduction
    rw [mapM_run_chunk_eq log s 0 chunks hb]
    simp only [Option.map_some', foldl_add_eq, zero_add, sum_chunks_eq, hc, List.map_nil,
      List.sum_nil]
  refine ⟨hred, ?_, ?_, ?_⟩
  · unfold geomean_even_split; rw [hred]; rfl
  · unfold geomean_guided; rw [hred]; rfl
  · unfold geomean_many_to_few_atomic
    rw [mapM_run_chunk_eq log s 0 chunks hb]
    simp only [Option.map_some']
    rw [foldl_order_zero]
    intro x hx
    obtain ⟨c, hcm, rfl⟩ := List.mem_map.1 hx
    have : c = [] := by
      have h := List.flatten_eq_nil_iff.1 hc c hcm
      exact h
    rw [this]; rfl

theorem queue_empty (pass : Int → α → Option (Pass α))
    (hpass : ∀ index l, ∃ p, pass index l = some p ∧ p.result = none) (T : Nat)
    (sched : List Nat) :
    ∃ st, parallel_region pass T sched = some st ∧ st.answer = 0 ∧
      (∀ w ∈ st.workers, w.processed = []) ∧
      ((∀ t, t < T → 2 ≤ sched.count t) → st.done = true) := by
  obtain ⟨st, hst, hinv⟩ := zinv_region pass hpass T sched
  exact ⟨st, hst, hinv.ans, fun w hw => (hinv.idle w hw).2, zinv_done T sched st hinv⟩

/-! ## The chunked queue with chunk size `0` -/

theorem task_queue_large_pass_stuck (log : α → α) (s : List Byte) (n : Nat) (hn : 1 ≤ n)
    (l : α) : task_queue_large_pass log s n 0 0 l = some ⟨0, 0, some (l, [])⟩ := by
  have h0 : wrap32 0 = 0 := by unfold wrap32; omega
  have h1 : toSizeT 0 = 0 := by unfold toSizeT; omega
  have h2 : ¬ n ≤ 0 := by omega
  simp [task_queue_large_pass, h0, h1, h2, chunk_loop]

theorem stuck_step (log : α → α) (s : List Byte) (n : Nat) (hn : 1 ≤ n) (T : Nat)
    (st : Region α) (t : Nat)
    (h : st.index = 0 ∧ st.answer = 0 ∧ st.workers.length = T ∧
      ∀ w ∈ st.workers, w.pc = .claiming ∧ w.local_sum = 0 ∧ w.processed = []) :
    ∃ st', parallel_step (task_queue_large_pass log s n 0) st t = some st' ∧
      st'.index = 0 ∧ st'.answer = 0 ∧ st'.workers.length = T ∧
      ∀ w ∈ st'.workers, w.pc = .claiming ∧ w.local_sum = 0 ∧ w.processed = [] := by
  obtain ⟨hidx, hans, hlen, hws⟩ := h
  unfold parallel_step
  cases hw : st.workers[t]? with
  | none => exact ⟨st, rfl, hidx, hans, hlen, hws⟩
  | some w =>
    obtain ⟨hpc, hl, hp⟩ := hws w (mem_of_getElem?_eq _ _ _ hw)
    simp only [hpc, hidx, task_queue_large_pass_stuck log s n hn]
    refine ⟨_, rfl, rfl, hans, by simp [hlen], fun v hv => ?_⟩
    rcases List.mem_or_eq_of_mem_set hv with h | h
    · exact hws v h
    · rw [h]
      exact ⟨rfl, hl, by simp [hp]⟩

theorem stuck_run (log : α → α) (s : List Byte) (n : Nat) (hn : 1 ≤ n) (T : Nat)
    (sched : List Nat) :
    ∀ st : Region α,
      (st.index = 0 ∧ st.answer = 0 ∧ st.workers.length = T ∧
        ∀ w ∈ st.workers, w.pc = .claiming ∧ w.local_sum = 0 ∧ w.processed = []) →
      ∃ st', sched.foldlM (parallel_step (task_queue_large_pass log s n 0)) st = some st' ∧
        st'.index = 0 ∧ st'.answer = 0 ∧ st'.workers.length = T ∧
        ∀ w ∈ st'.workers, w.pc = .claiming ∧ w.local_sum = 0 ∧ w.processed = [] := by
  induction sched with
  | nil => intro st h; exact ⟨st, rfl, h⟩
  | cons t rest ih =>
    intro st h
    obtain ⟨st1, h1, hinv1⟩ := stuck_step log s n hn T st t h
    obtain ⟨st2, h2, hinv2⟩ := ih st1 hinv1
    refine ⟨st2, ?_, hinv2⟩
    rw [List.foldlM_cons, h1]
    exact h2

theorem task_queue_large_zero_region (log : α → α) (s : List Byte) (n : Nat) (hn : 1 ≤ n)
    (T : Nat) (sched : List Nat) :
    ∃ st, parallel_region (task_queue_large_pass log s n 0) T sched = some st ∧
      st.index = 0 ∧ st.answer = 0 ∧ st.workers.length = T ∧
      ∀ w ∈ st.workers, w.pc = .claiming ∧ w.local_sum = 0 ∧ w.processed = [] := by
  apply stuck_run log s n hn T sched
  refine ⟨rfl, rfl, by simp [Region.start], fun w hw => ?_⟩
  simp only [Region.start] at hw
  rw [List.eq_of_mem_replicate hw]
  exact ⟨rfl, rfl, rfl⟩

theorem geomean_task_queue_large_zero (log exp : α → α) (s : List Byte) (n : Nat)
    (hn : 1 ≤ n) (T : Nat) (hT : 1 ≤ T) (sched : List Nat) :
    geomean_task_queue_large log exp T sched s n 0 = none := by
  obtain ⟨st, hst, -, -, hlen, hws⟩ := task_queue_large_zero_region log s n hn T sched
  unfold geomean_task_queue_large
  rw [hst]
  have hd : st.done = false := by
    cases hd : st.done with
    | false => rfl
    | true =>
      exfalso
      have hne : st.workers ≠ [] := by
        intro h
        rw [h] at hlen
        simp at hlen
        omega
      obtain ⟨w, hw⟩ := List.exists_mem_of_ne_nil _ hne
      have h1 := (done_iff st).1 hd w hw
      rw [(hws w hw).1] at h1
      cases h1
  simp [hd]

/-! ## The block with a shared cursor, overflow included: safety and termination -/

theorem wrap32_range (x : Int) : -2 ^ 31 ≤ wrap32 x ∧ wrap32 x < 2 ^ 31 := by
  unfold wrap32
  omega

theorem winv_start (f : Nat → α) (n T : Nat) : WInv f n T [] (Region.start T : Region α) := by
  have hc : (Region.start T : Region α).claims = 0 := by
    simp [Region.claims, Region.start]
  have he : (Region.start T : Region α).exited = 0 := by
    simp [Region.exited, Region.start]
  refine ⟨by simp [Region.start], by simp [Region.start], by simp [Region.start], ?_, ?_, ?_,
    ?_⟩
  · intro w hw
    simp only [Region.start] at hw
    rw [List.eq_of_mem_replicate hw]
    simp
  · simp [Region.start]
  · intro t w hw _
    simp only [Region.start] at hw
    rw [List.eq_of_mem_replicate (mem_of_getElem?_eq _ _ _ hw)]
    simp
  · rw [hc, he]
    simp [Region.start, toWrap]

theorem winv_update (f : Nat → α) (n T : Nat) (pre : List Nat) (st st' : Region α) (t : Nat)
    (w w' : Worker α) (hinv : WInv f n T pre st) (hw : st.workers[t]? = some w)
    (hpc : w.pc ≠ .finished) (hws : st'.workers = st.workers.set t w')
    (hlo : -2 ^ 31 ≤ st'.index) (hhi : st'.index < 2 ^ 31)
    (hloc : w'.local_sum = (w'.processed.map f).sum ∧ ∀ i ∈ w'.processed, i < n)
    (hans : st'.answer = st.answer + if w'.pc = .finished then w'.local_sum else 0)
    (hlen : w'.pc ≠ .finished → w'.claimed.length = w.claimed.length + 1)
    (hmeas : st'.claims + toWrap st'.index ≤ 2 ^ 31 + (2 ^ 31 + 1) * st'.exited) :
    WInv f n T (pre ++ [t]) st' := by
  refine ⟨by rw [hws, List.length_set]; exact hinv.len, hlo, hhi, ?_, ?_, ?_, hmeas⟩
  · intro v hv
    rw [hws] at hv
    rcases List.mem_or_eq_of_mem_set hv with h | h
    · exact hinv.loc v h
    · rw [h]; exact hloc
  · rw [hans, hws, hinv.ans]
    have := sum_map_set (fun w : Worker α => if w.pc = .finished then w.local_sum else 0)
      st.workers t w w' hw
    simp only [hpc, if_false, add_zero] at this
    exact this.symm
  · rw [hws]
    exact live_set pre st.workers t w w' hw hpc hlen hinv.live

theorem winv_step (pass : Int → α → Option (Pass α)) (f : Nat → α) (K n T : Nat)
    (hK : 1 ≤ K) (hK' : K < 2 ^ 31) (hn : n < 2 ^ 63)
    (hpass : PassSafe pass f (K : Int) n) (pre : List Nat) (st : Region α)
    (hinv : WInv f n T pre st) (t : Nat) :
    ∃ st', parallel_step pass st t = some st' ∧ WInv f n T (pre ++ [t]) st' := by
  unfold parallel_step
  cases hw : st.workers[t]? with
  | none =>
    exact ⟨st, rfl, hinv.len, hinv.lo, hinv.hi, hinv.loc, hinv.ans,
      live_idle pre st.workers t (fun w h => by rw [hw] at h; cases h) hinv.live, hinv.meas⟩
  | some w =>
    have hmem : w ∈ st.workers := mem_of_getElem?_eq _ _ _ hw
    cases hpc : w.pc with
    | finished =>
      simp only [hpc]
      refine ⟨st, rfl, hinv.len, hinv.lo, hinv.hi, hinv.loc, hinv.ans,
        live_idle pre st.workers t (fun v h => ?_) hinv.live, hinv.meas⟩
      rw [hw] at h
      cases h
      exact hpc
    | merging =>
      simp only [hpc]
      refine ⟨_, rfl, winv_update f n T pre st _ t w _ hinv hw (by rw [hpc]; decide) rfl
        hinv.lo hinv.hi (hinv.loc w hmem) (by simp) (fun h => absurd rfl h) ?_⟩
      have hc := sum_map_set (fun w : Worker α => w.claimed.length) st.workers t w
        ⟨.finished, w.local_sum, w.claimed, w.processed⟩ hw
      have he := sum_map_set (fun w : Worker α => if w.pc = .claiming then 0 else 1)
        st.workers t w ⟨.finished, w.local_sum, w.claimed, w.processed⟩ hw
      simp only [hpc, reduceCtorEq, if_false] at hc he
      have hm := hinv.meas
      unfold Region.claims Region.exited at hm ⊢
      simp only at hm ⊢
      have e1 : (List.map (fun w => w.claimed.length) (st.workers.set t
          ⟨.finished, w.local_sum, w.claimed, w.processed⟩)).sum =
          (List.map (fun w => w.claimed.length) st.workers).sum := by omega
      have e2 : (List.map (fun w : Worker α => if w.pc = .claiming then 0 else 1)
          (st.workers.set t ⟨.finished, w.local_sum, w.claimed, w.processed⟩)).sum =
          (List.map (fun w : Worker α => if w.pc = .claiming then 0 else 1) st.workers).sum := by
        omega
      rw [e1, e2]
      exact hm
    | claiming =>
      obtain ⟨p, hp, hidx, hbrk, hproc⟩ := hpass st.index hinv.lo hinv.hi w.local_sum
      have hr := wrap32_range (st.index + (K : Int))
      have hm := hinv.meas
      simp only [hpc, hp]
      by_cases hb : n ≤ toSizeT st.index
      · rw [hbrk hb]
        simp only
        refine ⟨_, rfl, winv_update f n T pre st _ t w _ hinv hw (by rw [hpc]; decide) rfl
          (by rw [hidx]; exact hr.1) (by rw [hidx]; exact hr.2) (hinv.loc w hmem) (by simp)
          (fun _ => by simp) ?_⟩
        have hc := sum_map_set (fun w : Worker α => w.claimed.length) st.workers t w
          ⟨.merging, w.local_sum, w.claimed ++ [p.captured], w.processed⟩ hw
        have he := sum_map_set (fun w : Worker α => if w.pc = .claiming then 0 else 1)
          st.workers t w ⟨.merging, w.local_sum, w.claimed ++ [p.captured], w.processed⟩ hw
        simp only [hpc, reduceCtorEq, if_false, if_true, List.length_append,
          List.length_singleton] at hc he
        unfold Region.claims Region.exited at hm ⊢
        simp only at hm ⊢
        have hd : toWrap p.index ≤ 2 ^ 31 := by
          rw [hidx]; unfold toWrap; split <;> omega
        rw [Nat.mul_comm] at hm ⊢
        omega
      · obtain ⟨blk, hres, hblk⟩ := hproc (by omega)
        rw [hres]
        simp only
        have hl := hinv.loc w hmem
        refine ⟨_, rfl, winv_update f n T pre st _ t w _ hinv hw (by rw [hpc]; decide) rfl
          (by rw [hidx]; exact hr.1) (by rw [hidx]; exact hr.2) ⟨?_, ?_⟩ (by simp)
          (fun _ => by simp) ?_⟩
        · simp only [List.map_append, List.sum_append, hl.1]
        · intro i hi
          rcases List.mem_append.1 hi with h | h
          · exact hl.2 i h
          · exact hblk i h
        · have hc := sum_map_set (fun w : Worker α => w.claimed.length) st.workers t w
            ⟨.claiming, w.local_sum + (blk.map f).sum, w.claimed ++ [p.captured],
              w.processed ++ blk⟩ hw
          have he := sum_map_set (fun w : Worker α => if w.pc = .claiming then 0 else 1)
            st.workers t w ⟨.claiming, w.local_sum + (blk.map f).sum,
              w.claimed ++ [p.captured], w.processed ++ blk⟩ hw
          simp only [hpc, if_true, List.length_append, List.length_singleton] at hc he
          unfold Region.claims Region.exited at hm ⊢
          simp only at hm ⊢
          have hlo := hinv.lo
          have hhi := hinv.hi
          have hd : toWrap p.index + 1 ≤ toWrap st.index := by
            rw [hidx]
            unfold toSizeT at hb
            unfold toWrap wrap32
            split <;> split <;> omega
          rw [Nat.mul_comm] at hm ⊢
          omega

theorem winv_run (pass : Int → α → Option (Pass α)) (f : Nat → α) (K n T : Nat)
    (hK : 1 ≤ K) (hK' : K < 2 ^ 31) (hn : n < 2 ^ 63)
    (hpass : PassSafe pass f (K : Int) n) (sched : List Nat) :
    ∀ (pre : List Nat) (st : Region α), WInv f n T pre st →
      ∃ st', sched.foldlM (parallel_step pass) st = some st' ∧
        WInv f n T (pre ++ sched) st' := by
  induction sched with
  | nil => intro pre st h; exact ⟨st, rfl, by simpa using h⟩
  | cons t rest ih =>
    intro pre st h
    obtain ⟨st1, h1, hinv1⟩ := winv_step pass f K n T hK hK' hn hpass pre st h t
    obtain ⟨st2, h2, hinv2⟩ := ih (pre ++ [t]) st1 hinv1
    refine ⟨st2, ?_, by simpa using hinv2⟩
    rw [List.foldlM_cons, h1]
    exact h2

theorem winv_region (pass : Int → α → Option (Pass α)) (f : Nat → α) (K n T : Nat)
    (hK : 1 ≤ K) (hK' : K < 2 ^ 31) (hn : n < 2 ^ 63)
    (hpass : PassSafe pass f (K : Int) n) (sched : List Nat) :
    ∃ st, parallel_region pass T sched = some st ∧ WInv f n T sched st := by
  obtain ⟨st, h1, h2⟩ := winv_run pass f K n T hK hK' hn hpass sched [] _ (winv_start f n T)
  exact ⟨st, h1, by simpa using h2⟩

theorem winv_fair_done (f : Nat → α) (n T : Nat) (pre : List Nat) (st : Region α)
    (hinv : WInv f n T pre st)
    (hfair : ∀ t, t < T → 2 ^ 31 + (2 ^ 31 + 1) * T < pre.count t) : st.done = true := by
  rw [done_iff]
  intro w hw
  by_contra hpc
  obtain ⟨t, ht⟩ := List.getElem?_of_mem hw
  have htT : t < T := by
    rw [← hinv.len]; exact (List.getElem?_eq_some.1 ht).1
  have h1 := hinv.live t w ht hpc
  have h2 : w.claimed.length ≤ st.claims :=
    List.single_le_sum (fun _ _ => Nat.zero_le _) _
      (List.mem_map_of_mem (fun w : Worker α => w.claimed.length) hw)
  have h3 : st.exited ≤ T := by
    have := exited_list_le st.workers
    rw [hinv.len] at this
    exact this
  have h4 : (2 ^ 31 + 1) * st.exited ≤ (2 ^ 31 + 1) * T := Nat.mul_le_mul_left _ h3
  have h5 := hinv.meas
  have := hfair t htT
  omega

theorem winv_answer_zero (f : Nat → α) (n T : Nat) (pre : List Nat) (st : Region α)
    (hinv : WInv f n T pre st) (hf : ∀ i, i < n → f i = 0) : st.answer = 0 := by
  rw [hinv.ans]
  apply List.sum_eq_zero
  intro x hx
  obtain ⟨w, hw, rfl⟩ := List.mem_map.1 hx
  have hl := hinv.loc w hw
  have hz : w.local_sum = 0 := by
    rw [hl.1]
    apply List.sum_eq_zero
    intro y hy
    obtain ⟨i, hi, rfl⟩ := List.mem_map.1 hy
    exact hf i (hl.2 i hi)
  show (if w.pc = .finished then w.local_sum else 0) = 0
  split
  · exact hz
  · rfl

theorem toSizeT_lt (i : Int) (n : Nat) (hn : n < 2 ^ 63) (hlo : -2 ^ 31 ≤ i)
    (hhi : i < 2 ^ 31) (h : toSizeT i < n) : 0 ≤ i ∧ i.toNat < n := by
  unfold toSizeT at h
  omega

theorem task_queue_pass_safe (log : α → α) (s : List Byte) (n : Nat) (hs : s.length = n)
    (hn : n < 2 ^ 63) :
    PassSafe (task_queue_pass log s n) (term log s n) ((1 : Nat) : Int) n := by
  intro index hlo hhi l
  unfold task_queue_pass
  dsimp only
  by_cases hb : n ≤ toSizeT index
  · exact ⟨_, by rw [if_pos hb], rfl, fun _ => rfl, fun h => absurd hb (by omega)⟩
  · obtain ⟨h0, hlt⟩ := toSizeT_lt index n hn hlo hhi (by omega)
    have hneg : ¬ index < 0 := by omega
    rw [if_neg hb, if_neg hneg, loop_body_eq log s n l index.toNat (by omega)]
    refine ⟨_, rfl, rfl, fun h => absurd h hb, fun _ => ⟨[index.toNat], ?_, ?_⟩⟩
    · simp
    · intro i hi
      rw [List.mem_singleton.1 hi]
      exact hlt

theorem chunk_loop_safe (log : α → α) (s : List Byte) (n : Nat) (hs : s.length = n)
    (hn : n < 2 ^ 63) (start : Int) (hstart : start < 2 ^ 31) (left : Nat) :
    ∀ (i : Int) (acc : α) (seen : List Nat), -2 ^ 31 ≤ i →
      ∃ blk : List Nat, chunk_loop log s n start left i acc seen =
          some (acc + (blk.map (term log s n)).sum, seen ++ blk) ∧ ∀ j ∈ blk, j < n := by
  induction left with
  | zero =>
    intro i acc seen _
    exact ⟨[], by simp [chunk_loop], fun j hj => by cases hj⟩
  | succ left ih =>
    intro i acc seen hi
    unfold chunk_loop
    by_cases hc : i < start ∧ toSizeT i < n
    · obtain ⟨h0, hlt⟩ := toSizeT_lt i n hn hi (by omega) hc.2
      have hneg : ¬ i < 0 := by omega
      obtain ⟨blk, hblk, hmem⟩ :=
        ih (i + 1) (acc + term log s n i.toNat) (seen ++ [i.toNat]) (by omega)
      rw [if_pos hc, if_neg hneg]
      simp only [loop_body_eq log s n acc i.toNat (by omega), hblk]
      refine ⟨i.toNat :: blk, by simp [add_assoc], fun j hj => ?_⟩
      rcases List.mem_cons.1 hj with h | h
      · rw [h]; exact hlt
      · exact hmem j h
    · rw [if_neg hc]
      exact ⟨[], by simp, fun j hj => by cases hj⟩

theorem task_queue_large_pass_safe (log : α → α) (s : List Byte) (n : Nat)
    (hs : s.length = n) (hn : n < 2 ^ 63) (K : Nat) :
    PassSafe (task_queue_large_pass log s n (K : Int)) (term log s n) (K : Int) n := by
  intro index hlo hhi l
  unfold task_queue_large_pass
  dsimp only
  have hr := wrap32_range (index + (K : Int))
  have hback : wrap32 (wrap32 (index + (K : Int)) - (K : Int)) = index := by
    unfold wrap32
    omega
  rw [hback]
  by_cases hb : n ≤ toSizeT index
  · exact ⟨_, by rw [if_pos hb], rfl, fun _ => rfl, fun h => absurd hb (by omega)⟩
  · obtain ⟨blk, hblk, hmem⟩ := chunk_loop_safe log s n hs hn _ hr.2
      (wrap32 (index + (K : Int)) - index).toNat index l [] hlo
    rw [if_neg hb, hblk]
    exact ⟨_, rfl, rfl, fun h => absurd h hb, fun _ => ⟨blk, by simp, hmem⟩⟩

end Queue

/-! ## The reference value over the reals -/

section Reference

theorem ref_nonneg (s : List Byte) (n : Nat) :
    0 ≤ ∑ i ∈ (Finset.range n).filter (fun i => 0 < (s.getD i 0).val),
      Real.log ((s.getD i 0).val : ℝ) / (n : ℝ) := by
  apply Finset.sum_nonneg
  intro i hi
  have hpos : 0 < (s.getD i 0).val := (Finset.mem_filter.1 hi).2
  apply div_nonneg
  · apply Real.log_nonneg
    exact_mod_cast hpos
  · exact Nat.cast_nonneg n

theorem term_le (b : Byte) (n : Nat) (hb : 0 < b.val) :
    Real.log (b.val : ℝ) / (n : ℝ) ≤ Real.log 255 / (n : ℝ) := by
  apply div_le_div_of_nonneg_right _ (Nat.cast_nonneg n)
  apply Real.log_le_log
  · exact_mod_cast hb
  · have : b.val ≤ 255 := by have := b.isLt; omega
    exact_mod_cast this

theorem ref_le (s : List Byte) (n : Nat) :
    ∑ i ∈ (Finset.range n).filter (fun i => 0 < (s.getD i 0).val),
      Real.log ((s.getD i 0).val : ℝ) / (n : ℝ) ≤ Real.log 255 := by
  have hlog : 0 ≤ Real.log 255 := Real.log_nonneg (by norm_num)
  rcases Nat.eq_zero_or_pos n with h0 | hpos
  · subst h0; simpa using hlog
  · have h1 : ∑ i ∈ (Finset.range n).filter (fun i => 0 < (s.getD i 0).val),
        Real.log ((s.getD i 0).val : ℝ) / (n : ℝ) ≤
        ((Finset.range n).filter (fun i => 0 < (s.getD i 0).val)).card • (Real.log 255 / (n : ℝ)) :=
      Finset.sum_le_card_nsmul _ _ _ (fun i hi => term_le _ n (Finset.mem_filter.1 hi).2)
    have h2 : ((Finset.range n).filter (fun i => 0 < (s.getD i 0).val)).card ≤ n := by
      calc _ ≤ (Finset.range n).card := Finset.card_filter_le _ _
        _ = n := Finset.card_range n
    have hn : (0 : ℝ) < n := by exact_mod_cast hpos
    have h3 : 0 ≤ Real.log 255 / (n : ℝ) := div_nonneg hlog hn.le
    calc _ ≤ ((Finset.range n).filter (fun i => 0 < (s.getD i 0).val)).card •
          (Real.log 255 / (n : ℝ)) := h1
      _ ≤ n • (Real.log 255 / (n : ℝ)) := nsmul_le_nsmul_left h3 h2
      _ = Real.log 255 := by rw [nsmul_eq_mul]; field_simp

theorem ref_uniform (v : Byte) (n : Nat) (hv : 0 < v.val) (hn : 1 ≤ n) :
    Real.exp (∑ i ∈ (Finset.range n).filter (fun i => 0 < ((List.replicate n v).getD i 0).val),
      Real.log (((List.replicate n v).getD i 0).val : ℝ) / (n : ℝ)) = (v.val : ℝ) := by
  have hget : ∀ i ∈ Finset.range n, (List.replicate n v).getD i 0 = v := by
    intro i hi
    have := Finset.mem_range.1 hi
    simp [List.getD, List.getElem?_replicate, this]
  have hfil : (Finset.range n).filter (fun i => 0 < ((List.replicate n v).getD i 0).val) =
      Finset.range n := by
    apply Finset.filter_true_of_mem
    intro i hi
    rw [hget i hi]; exact hv
  rw [hfil, Finset.sum_congr rfl (fun i hi => by rw [hget i hi]), Finset.sum_const,
    Finset.card_range, nsmul_eq_mul]
  have hn' : (n : ℝ) ≠ 0 := by exact_mod_cast (by omega : n ≠ 0)
  rw [mul_div_cancel₀ _ hn', Real.exp_log (by exact_mod_cast hv)]

theorem ref_248 :
    Real.exp (∑ i ∈ (Finset.range 3).filter
        (fun i => 0 < (([2, 4, 8] : List Byte).getD i 0).val),
      Real.log ((([2, 4, 8] : List Byte).getD i 0).val : ℝ) / ((3 : Nat) : ℝ)) = 4 := by
  have hf : (Finset.range 3).filter (fun i => 0 < (([2, 4, 8] : List Byte).getD i 0).val) =
      Finset.range 3 := by decide
  have h2 : (2 : Byte).val = 2 := rfl
  have h4 : (4 : Byte).val = 4 := rfl
  have h8 : (8 : Byte).val = 8 := rfl
  have l4 : Real.log 4 = 2 * Real.log 2 := by
    rw [show (4 : ℝ) = 2 ^ 2 by norm_num, Real.log_pow]; norm_num
  have l8 : Real.log 8 = 3 * Real.log 2 := by
    rw [show (8 : ℝ) = 2 ^ 3 by norm_num, Real.log_pow]; norm_num
  rw [hf]
  simp only [Finset.sum_range_succ, Finset.sum_range_zero, zero_add, List.getD_cons_zero,
    List.getD_cons_succ, h2, h4, h8, Nat.cast_ofNat]
  rw [show Real.log 2 / 3 + Real.log 4 / 3 + Real.log 8 / 3 = Real.log 4 by rw [l4, l8]; ring]
  exact Real.exp_log (by norm_num)

theorem term_bounds (s : List Byte) (n i : Nat) :
    0 ≤ term Real.log s n i ∧ term Real.log s n i ≤ Real.log 255 / (n : ℝ) := by
  unfold term
  by_cases hb : 0 < (s.getD i 0).val
  · rw [if_pos hb]
    refine ⟨div_nonneg (Real.log_nonneg ?_) (Nat.cast_nonneg n), term_le _ n hb⟩
    exact_mod_cast hb
  · rw [if_neg hb]
    exact ⟨le_refl 0, div_nonneg (Real.log_nonneg (by norm_num)) (Nat.cast_nonneg n)⟩

theorem nodup_sum_bounds (s : List Byte) (n : Nat) (l : List Nat) (hnd : l.Nodup)
    (hlt : ∀ i ∈ l, i < n) :
    0 ≤ (l.map (term Real.log s n)).sum ∧ (l.map (term Real.log s n)).sum ≤ Real.log 255 := by
  have hlog : 0 ≤ Real.log 255 := Real.log_nonneg (by norm_num)
  refine ⟨List.sum_nonneg (fun x hx => ?_), ?_⟩
  · obtain ⟨i, -, rfl⟩ := List.mem_map.1 hx
    exact (term_bounds s n i).1
  · rcases Nat.eq_zero_or_pos n with h0 | hpos
    · have : l = [] := by
        cases l with
        | nil => rfl
        | cons a rest => have := hlt a (List.mem_cons_self _ _); omega
      rw [this]; simpa using hlog
    · have h1 : (l.map (term Real.log s n)).sum ≤
          (l.map (term Real.log s n)).length • (Real.log 255 / (n : ℝ)) :=
        List.sum_le_card_nsmul _ _ (fun x hx => by
          obtain ⟨i, -, rfl⟩ := List.mem_map.1 hx
          exact (term_bounds s n i).2)
      have h2 : l.length ≤ n := by
        have := (List.subperm_of_subset hnd
          (fun i hi => List.mem_range.2 (hlt i hi))).length_le
        simpa using this
      have hn : (0 : ℝ) < n := by exact_mod_cast hpos
      have h3 : 0 ≤ Real.log 255 / (n : ℝ) := div_nonneg hlog hn.le
      rw [List.length_map] at h1
      calc _ ≤ l.length • (Real.log 255 / (n : ℝ)) := h1
        _ ≤ n • (Real.log 255 / (n : ℝ)) := nsmul_le_nsmul_left h3 h2
        _ = Real.log 255 := by rw [nsmul_eq_mul]; field_simp

theorem exp_bounds (a : ℝ) (h0 : 0 ≤ a) (h1 : a ≤ Real.log 255) :
    1 ≤ Real.exp a ∧ Real.exp a ≤ 255 := by
  refine ⟨?_, ?_⟩
  · rw [← Real.exp_zero]; exact Real.exp_le_exp.2 h0
  · rw [← Real.exp_log (show (0 : ℝ) < 255 by norm_num)]; exact Real.exp_le_exp.2 h1

theorem getD_replicate_zero (n i : Nat) : (List.replicate n (0 : Byte)).getD i 0 = 0 := by
  rw [List.getD_eq_getElem?_getD, List.getElem?_replicate]
  split <;> rfl

theorem ref_zero (n : Nat) :
    (∑ i ∈ (Finset.range n).filter
        (fun i => 0 < ((List.replicate n (0 : Byte)).getD i 0).val),
      Real.log (((List.replicate n (0 : Byte)).getD i 0).val : ℝ) / (n : ℝ)) = 0 := by
  apply Finset.sum_eq_zero
  intro i hi
  have := (Finset.mem_filter.1 hi).2
  rw [getD_replicate_zero] at this
  exact absurd this (by decide)

end Reference

/-! ## All six strategies at once -/

section Six

variable {α : Type} [Field α]

theorem six_strategies_eq (log exp : α → α) (s : List Byte) (n : Nat) (hs : s.length = n)
    (chunks guided_chunks many_chunks : List (List Nat)) (order : List Nat)
    (hc : chunks.flatten.Perm (List.range n))
    (hg : guided_chunks.flatten.Perm (List.range n))
    (hm : many_chunks.flatten.Perm (List.range n))
    (ho : order.Perm (List.range many_chunks.length))
    (T : Nat) (sched : List Nat) (hT : 1 ≤ T) (hfit : n + T < 2 ^ 31)
    (hfair : ∀ t, t < T → n + T < sched.count t)
    (T' K : Nat) (sched' : List Nat) (hT' : 1 ≤ T') (hK : 1 ≤ K)
    (hfit' : ((n + K - 1) / K + T') * K < 2 ^ 31)
    (hfair' : ∀ t, t < T' → (n + K - 1) / K + T' < sched'.count t) (v : α)
    (hv : exp (∑ i ∈ (Finset.range n).filter (fun i => 0 < (s.getD i 0).val),
      log ((s.getD i 0).val : α) / (n : α)) = v) :
    geomean log exp chunks s n = some v ∧
    geomean_even_split log exp chunks s n = some v ∧
    geomean_task_queue log exp T sched s n = some v ∧
    geomean_guided log exp guided_chunks s n = some v ∧
    geomean_task_queue_large log exp T' sched' s n (K : Int) = some v ∧
    geomean_atomic_non_parallel log exp s n = some v ∧
    geomean_many_to_few_atomic log exp many_chunks order s n = some v := by
  subst hv
  exact ⟨geomean_even_split_eq log exp chunks s n hs hc,
    geomean_even_split_eq log exp chunks s n hs hc,
    geomean_task_queue_total log exp s n T hs hT hfit sched hfair,
    geomean_guided_eq log exp guided_chunks s n hs hg,
    geomean_task_queue_large_total log exp s n T' K hs hT' hK hfit' sched' hfair',
    geomean_atomic_non_parallel_eq log exp s n hs,
    geomean_many_to_few_atomic_eq log exp many_chunks order s n hs hm ho⟩

end Six

/-! ## Zero bytes and one bytes -/

section ZeroOne

theorem loop_body_zero_one (s : List Byte) (n : Nat) :
    loop_body Real.log (s.map fun b => if b = 0 then 1 else b) n = loop_body Real.log s n := by
  funext acc i
  unfold loop_body
  rw [List.getElem?_map]
  cases s[i]? with
  | none => rfl
  | some b =>
    by_cases hb : b = 0
    · have h1 : (1 : Byte).val = 1 := rfl
      have h0 : (0 : Byte).val = 0 := rfl
      simp [hb, h1, h0]
    · simp [hb]

theorem chunk_loop_zero_one (s : List Byte) (n : Nat) (start : Int) (left : Nat) :
    ∀ (i : Int) (acc : ℝ) (seen : List Nat),
      chunk_loop Real.log (s.map fun b => if b = 0 then 1 else b) n start left i acc seen =
        chunk_loop Real.log s n start left i acc seen := by
  induction left with
  | zero => intro i acc seen; rfl
  | succ left ih =>
    intro i acc seen
    unfold chunk_loop
    rw [loop_body_zero_one]
    split
    · split
      · rfl
      · cases loop_body Real.log s n acc i.toNat with
        | none => rfl
        | some acc' => exact ih _ _ _
    · rfl

theorem task_queue_pass_zero_one (s : List Byte) (n : Nat) :
    task_queue_pass Real.log (s.map fun b => if b = 0 then 1 else b) n =
      task_queue_pass Real.log s n := by
  funext index l
  unfold task_queue_pass
  rw [loop_body_zero_one]

theorem task_queue_large_pass_zero_one (s : List Byte) (n : Nat) (K : Int) :
    task_queue_large_pass Real.log (s.map fun b => if b = 0 then 1 else b) n K =
      task_queue_large_pass Real.log s n K := by
  funext index l
  unfold task_queue_large_pass
  simp only [chunk_loop_zero_one]

end ZeroOne

/-! ## Reordering the input, and the loader -/

section Reorder

variable {α : Type} [Field α]

theorem sum_filter_eq_map_sum (log : α → α) (s : List Byte) (n : Nat) (hs : s.length = n) :
    ∑ i ∈ (Finset.range n).filter (fun i => 0 < (s.getD i 0).val),
        log ((s.getD i 0).val : α) / (n : α) =
      (s.map fun b : Byte => if 0 < b.val then log (b.val : α) / (n : α) else 0).sum := by
  rw [← sum_range_eq_filter]
  congr 1
  subst hs
  apply List.ext_getElem
  · simp
  · intro i h1 h2
    have hi : i < s.length := by simpa using h2
    simp [term, List.getD, List.getElem?_eq_getElem hi]

theorem sum_filter_perm (log : α → α) (s s' : List Byte) (n : Nat) (hs : s.length = n)
    (hp : s'.Perm s) :
    ∑ i ∈ (Finset.range n).filter (fun i => 0 < (s'.getD i 0).val),
        log ((s'.getD i 0).val : α) / (n : α) =
      ∑ i ∈ (Finset.range n).filter (fun i => 0 < (s.getD i 0).val),
        log ((s.getD i 0).val : α) / (n : α) := by
  rw [sum_filter_eq_map_sum log s n hs, sum_filter_eq_map_sum log s' n (hp.length_eq.trans hs)]
  exact (hp.map _).sum_eq

theorem main_load_eq (fs : List Byte → Option (List Byte)) (argv : List (List Byte)) :
    main_load fs argv =
      (((argv.drop 1).filterMap fs).flatten, ((argv.drop 1).filterMap fs).flatten.length) := by
  have h : ∀ (l : List (List Byte)) (b : List Byte),
      l.foldl (fun (sn : List Byte × Nat) arg => match fs arg with
          | some contents => (sn.1 ++ contents, sn.2 + contents.length)
          | none => sn) (b, b.length) =
        (b ++ (l.filterMap fs).flatten, (b ++ (l.filterMap fs).flatten).length) := by
    intro l
    induction l with
    | nil => intro b; simp
    | cons a l ih =>
      intro b
      rw [List.foldl_cons]
      cases ha : fs a with
      | none => simp only [List.filterMap_cons, ha]; exact ih b
      | some c =>
        simp only [List.filterMap_cons, ha, List.flatten_cons]
        rw [← List.length_append, ih (b ++ c), List.append_assoc]
  have := h (argv.drop 1) []
  simpa [main_load] using this

end Reorder

/-! ## Counting the values captured from the cursor -/

section Counting

variable {α : Type} [Field α]

theorem step_claims (pass : Int → α → Option (Pass α)) (st st' : Region α) (t : Nat)
    (w : Worker α) (hw : st.workers[t]? = some w) (hpc : w.pc = .claiming)
    (h : parallel_step pass st t = some st') : st'.claims = st.claims + 1 := by
  unfold parallel_step at h
  rw [hw] at h
  simp only [hpc] at h
  cases hp : pass st.index w.local_sum with
  | none => rw [hp] at h; cases h
  | some p =>
    rw [hp] at h
    cases hr : p.result with
    | none =>
      simp only [hr, Option.some.injEq] at h
      subst h
      have := sum_map_set (fun w : Worker α => w.claimed.length) st.workers t w
        ⟨.merging, w.local_sum, w.claimed ++ [p.captured], w.processed⟩ hw
      simp only [List.length_append, List.length_singleton] at this
      show ((st.workers.set t _).map fun w : Worker α => w.claimed.length).sum =
        (st.workers.map fun w : Worker α => w.claimed.length).sum + 1
      omega
    | some r =>
      simp only [hr, Option.some.injEq] at h
      subst h
      have := sum_map_set (fun w : Worker α => w.claimed.length) st.workers t w
        ⟨.claiming, r.1, w.claimed ++ [p.captured], w.processed ++ r.2⟩ hw
      simp only [List.length_append, List.length_singleton] at this
      show ((st.workers.set t _).map fun w : Worker α => w.claimed.length).sum =
        (st.workers.map fun w : Worker α => w.claimed.length).sum + 1
      omega

theorem claims_le (f : Nat → α) (cap : Nat → Int) (K n T : Nat) (pre : List Nat)
    (st : Region α) (hinv : QInv f cap K n T pre st) : st.claims ≤ (n + K - 1) / K + T := by
  have h3 : st.exited ≤ T := by
    have := exited_list_le st.workers
    rw [hinv.len] at this
    exact this
  rcases Nat.eq_zero_or_pos st.exited with h0 | h1
  · have := hinv.low h0
    omega
  · have := hinv.high h1
    omega

theorem thread_leaves_loop (f : Nat → α) (cap : Nat → Int) (K n T : Nat) (pre : List Nat)
    (st : Region α) (hinv : QInv f cap K n T pre st) (t : Nat) (w : Worker α)
    (hw : st.workers[t]? = some w) (ht : (n + K - 1) / K + T < pre.count t) :
    w.pc = .finished := by
  by_contra hpc
  have h1 := hinv.live t w hw hpc
  have h2 : w.claimed.length ≤ st.claims :=
    List.single_le_sum (fun _ _ => Nat.zero_le _) _
      (List.mem_map_of_mem (fun w : Worker α => w.claimed.length)
        (mem_of_getElem?_eq _ _ _ hw))
  have h4 := claims_le f cap K n T pre st hinv
  omega

theorem region_claims (pass : Int → α → Option (Pass α)) (f : Nat → α) (cap : Nat → Int)
    (K n T : Nat) (hK : 1 ≤ K) (hT : 1 ≤ T) (hov : ((n + K - 1) / K + T) * K < 2 ^ 31)
    (hspec : PassSpec pass f cap K n) (sched : List Nat) :
    ∃ st, parallel_region pass T sched = some st ∧
      st.index = ((st.claims * K : Nat) : Int) ∧
      st.claims ≤ (n + K - 1) / K + T ∧
      (∀ t w, st.workers[t]? = some w → w.pc = .claiming →
        ∃ st', parallel_step pass st t = some st' ∧ st'.claims = st.claims + 1 ∧
          st'.index = st.index + (K : Int) ∧ st.index < st'.index) ∧
      (∀ t w, st.workers[t]? = some w → (n + K - 1) / K + T < sched.count t →
        w.pc = .finished) ∧
      (st.done = true → st.claims = (n + K - 1) / K + T) ∧
      ((∀ t, t < T → (n + K - 1) / K + T < sched.count t) → st.done = true) := by
  obtain ⟨st, hst, hinv⟩ := parallel_region_inv pass f cap K n T hK hov hspec sched
  refine ⟨st, hst, hinv.idx, claims_le f cap K n T sched st hinv, ?_,
    fun t w hw ht => thread_leaves_loop f cap K n T sched st hinv t w hw ht,
    fun hd => (inv_done f cap K n T hK hT sched st hinv hd).1,
    fun hfair => inv_fair_done f cap K n T sched st hinv hfair⟩
  intro t w hw hpc
  obtain ⟨st', h', hinv'⟩ := parallel_step_inv pass f cap K n T hK hov hspec sched st hinv t
  have hc := step_claims pass st st' t w hw hpc h'
  have hi : st'.index = st.index + (K : Int) := by
    rw [hinv'.idx, hinv.idx, hc]
    push_cast
    ring
  refine ⟨st', h', hc, hi, ?_⟩
  rw [hi]
  have : (0 : Int) < (K : Int) := by exact_mod_cast hK
  omega

end Counting

/-! ## Memory safety of the block with a shared cursor, for any chunk size -/

section Safety

variable {α : Type} [Field α]

theorem sinv_start (n T : Nat) : SInv n (Region.start T : Region α) := by
  refine ⟨by simp [Region.start], by simp [Region.start], ?_⟩
  intro w hw
  simp only [Region.start] at hw
  rw [List.eq_of_mem_replicate hw]
  simp

theorem sinv_step (pass : Int → α → Option (Pass α)) (f : Nat → α) (K : Int) (n : Nat)
    (hpass : PassSafe pass f K n) (st : Region α) (hinv : SInv n st) (t : Nat) :
    ∃ st', parallel_step pass st t = some st' ∧ SInv n st' := by
  unfold parallel_step
  cases hw : st.workers[t]? with
  | none => exact ⟨st, rfl, hinv⟩
  | some w =>
    have hmem : w ∈ st.workers := mem_of_getElem?_eq _ _ _ hw
    cases hpc : w.pc with
    | finished => simp only [hpc]; exact ⟨st, rfl, hinv⟩
    | merging =>
      simp only [hpc]
      refine ⟨_, rfl, hinv.lo, hinv.hi, fun v hv => ?_⟩
      rcases List.mem_or_eq_of_mem_set hv with h | h
      · exact hinv.read v h
      · rw [h]; exact hinv.read w hmem
    | claiming =>
      obtain ⟨p, hp, hidx, hbrk, hproc⟩ := hpass st.index hinv.lo hinv.hi w.local_sum
      have hr := wrap32_range (st.index + K)
      simp only [hpc, hp]
      by_cases hb : n ≤ toSizeT st.index
      · rw [hbrk hb]
        simp only
        refine ⟨_, rfl, by rw [hidx]; exact hr.1, by rw [hidx]; exact hr.2, fun v hv => ?_⟩
        rcases List.mem_or_eq_of_mem_set hv with h | h
        · exact hinv.read v h
        · rw [h]; exact hinv.read w hmem
      · obtain ⟨blk, hres, hblk⟩ := hproc (by omega)
        rw [hres]
        simp only
        refine ⟨_, rfl, by rw [hidx]; exact hr.1, by rw [hidx]; exact hr.2, fun v hv => ?_⟩
        rcases List.mem_or_eq_of_mem_set hv with h | h
        · exact hinv.read v h
        · rw [h]
          intro i hi
          rcases List.mem_append.1 hi with h' | h'
          · exact hinv.read w hmem i h'
          · exact hblk i h'

theorem sinv_run (pass : Int → α → Option (Pass α)) (f : Nat → α) (K : Int) (n : Nat)
    (hpass : PassSafe pass f K n) (sched : List Nat) :
    ∀ st : Region α, SInv n st →
      ∃ st', sched.foldlM (parallel_step pass) st = some st' ∧ SInv n st' := by
  induction sched with
  | nil => intro st h; exact ⟨st, rfl, h⟩
  | cons t rest ih =>
    intro st h
    obtain ⟨st1, h1, hinv1⟩ := sinv_step pass f K n hpass st h t
    obtain ⟨st2, h2, hinv2⟩ := ih st1 hinv1
    refine ⟨st2, ?_, hinv2⟩
    rw [List.foldlM_cons, h1]
    exact h2

theorem sinv_region (pass : Int → α → Option (Pass α)) (f : Nat → α) (K : Int) (n T : Nat)
    (hpass : PassSafe pass f K n) (sched : List Nat) :
    ∃ st, parallel_region pass T sched = some st ∧
      ∀ w ∈ st.workers, ∀ i ∈ w.processed, i < n := by
  obtain ⟨st, h1, h2⟩ := sinv_run pass f K n hpass sched _ (sinv_start n T)
  exact ⟨st, h1, h2.read⟩

theorem task_queue_large_pass_safe_any (log : α → α) (s : List Byte) (n : Nat)
    (hs : s.length = n) (hn : n < 2 ^ 63) (K : Int) :
    PassSafe (task_queue_large_pass log s n K) (term log s n) K n := by
  intro index hlo hhi l
  unfold task_queue_large_pass
  dsimp only
  have hr := wrap32_range (index + K)
  have hback : wrap32 (wrap32 (index + K) - K) = index := by
    unfold wrap32
    omega
  rw [hback]
  by_cases hb : n ≤ toSizeT index
  · exact ⟨_, by rw [if_pos hb], rfl, fun _ => rfl, fun h => absurd hb (by omega)⟩
  · obtain ⟨blk, hblk, hmem⟩ := chunk_loop_safe log s n hs hn _ hr.2
      (wrap32 (index + K) - index).toNat index l [] hlo
    rw [if_neg hb, hblk]
    exact ⟨_, rfl, rfl, fun h => absurd h hb, fun _ => ⟨blk, by simp, hmem⟩⟩

theorem loop_body_isSome (log : α → α) (s : List Byte) (n : Nat) (acc : α) (i : Nat) :
    (loop_body log s n acc i).isSome = true ↔ i < s.length := by
  unfold loop_body
  constructor
  · intro h
    by_contra hi
    rw [List.getElem?_eq_none (by omega)] at h
    cases h
  · intro hi
    rw [List.getElem?_eq_getElem hi]
    dsimp only
    split <;> rfl

end Safety

/-! ## One thread running alone, and the cursor at the end of the range of `int` -/

section Solo

variable {α : Type} [Field α]

theorem foldlM_cons_some {β : Type} (f : β → Nat → Option β) (b b' : β) (t : Nat)
    (rest : List Nat) (h : f b t = some b') :
    (t :: rest).foldlM f b = rest.foldlM f b' := by
  rw [List.foldlM_cons, h]
  rfl

theorem foldlM_append_some {β : Type} (f : β → Nat → Option β) (b b' : β)
    (l rest : List Nat) (h : l.foldlM f b = some b') :
    (l ++ rest).foldlM f b = rest.foldlM f b' := by
  rw [List.foldlM_append, h]
  rfl

theorem step_solo_process (pass : Int → α → Option (Pass α)) (index index' captured : Int)
    (answer l l' : α) (c : List Int) (p blk : List Nat)
    (h : pass index l = some ⟨index', captured, some (l', blk)⟩) :
    parallel_step pass ⟨index, answer, [⟨.claiming, l, c, p⟩]⟩ 0 =
      some ⟨index', answer, [⟨.claiming, l', c ++ [captured], p ++ blk⟩]⟩ := by
  simp only [parallel_step, List.getElem?_cons_zero, h, List.set_cons_zero]

theorem step_solo_break (pass : Int → α → Option (Pass α)) (index index' captured : Int)
    (answer l : α) (c : List Int) (p : List Nat)
    (h : pass index l = some ⟨index', captured, none⟩) :
    parallel_step pass ⟨index, answer, [⟨.claiming, l, c, p⟩]⟩ 0 =
      some ⟨index', answer, [⟨.merging, l, c ++ [captured], p⟩]⟩ := by
  simp only [parallel_step, List.getElem?_cons_zero, h, List.set_cons_zero]

theorem step_solo_merge (pass : Int → α → Option (Pass α)) (index : Int)
    (answer l : α) (c : List Int) (p : List Nat) :
    parallel_step pass ⟨index, answer, [⟨.merging, l, c, p⟩]⟩ 0 =
      some ⟨index, answer + l, [⟨.finished, l, c, p⟩]⟩ := by
  simp only [parallel_step, List.getElem?_cons_zero, List.set_cons_zero]

theorem solo_run (pass : Int → α → Option (Pass α)) (f : Nat → α) (cap : Nat → Int) (m : Nat)
    (h : ∀ k, k < m → ∀ l : α,
      pass (k : Int) l = some ⟨((k + 1 : Nat) : Int), cap k, some (l + f k, [k])⟩) :
    (List.replicate m 0).foldlM (parallel_step pass) (Region.start 1) =
      some ⟨(m : Int), 0,
        [⟨.claiming, ((List.range m).map f).sum, (List.range m).map cap, List.range m⟩]⟩ := by
  induction m with
  | zero => rfl
  | succ m ih =>
    rw [List.replicate_succ', foldlM_append_some _ _ _ _ _ (ih fun k hk => h k (by omega)),
      foldlM_cons_some _ _ _ _ _ (step_solo_process pass _ _ _ _ _ _ _ _ _ (h m (by omega) _))]
    simp only [List.foldlM_nil, List.range_succ, List.map_append, List.map_cons, List.map_nil,
      List.sum_append, List.sum_cons, List.sum_nil, add_zero]
    rfl

theorem solo_of_spec (pass : Int → α → Option (Pass α)) (f : Nat → α) (cap : Nat → Int)
    (n m : Nat) (hspec : PassSpec pass f cap 1 n) (hm : m < 2 ^ 31) (hmn : m ≤ n) :
    ∀ k, k < m → ∀ l : α,
      pass (k : Int) l = some ⟨((k + 1 : Nat) : Int), cap k, some (l + f k, [k])⟩ := by
  intro k hk l
  have h := hspec k (by omega) l
  have hn : ¬ n ≤ k := by omega
  have hmin : min 1 (n - k) = 1 := by omega
  simp only [Nat.mul_one, hn, if_false, hmin] at h
  simpa [List.range'] using h

end Solo

/-! ## Inputs of `2 ^ 31` bytes and more -/

section Wrap

variable {α : Type} [Field α]

theorem task_queue_pass_capped (log : α → α) (s : List Byte) (n : Nat) (hs : s.length = n)
    (hlo : 2 ^ 31 ≤ n) (hhi : n < 2 ^ 63) :
    PassSafe (task_queue_pass log s n) (term log s n) ((1 : Nat) : Int) (2 ^ 31) := by
  intro index hl hh l
  unfold task_queue_pass
  dsimp only
  by_cases hb : n ≤ toSizeT index
  · exact ⟨_, by rw [if_pos hb], rfl, fun _ => rfl, fun h => absurd hb (by omega)⟩
  · obtain ⟨h0, hlt⟩ := toSizeT_lt index n hhi hl hh (by omega)
    have hneg : ¬ index < 0 := by omega
    rw [if_neg hb, if_neg hneg, loop_body_eq log s n l index.toNat (by omega)]
    refine ⟨_, rfl, rfl, fun h => ?_, fun _ => ⟨[index.toNat], ?_, ?_⟩⟩
    · unfold toSizeT at h
      omega
    · simp
    · intro i hi
      rw [List.mem_singleton.1 hi]
      omega

theorem sinv_region_cursor (pass : Int → α → Option (Pass α)) (f : Nat → α) (K : Int)
    (n T : Nat) (hpass : PassSafe pass f K n) (sched : List Nat) :
    ∃ st, parallel_region pass T sched = some st ∧ st.index < 2 ^ 31 ∧
      ∀ w ∈ st.workers, ∀ i ∈ w.processed, i < n := by
  obtain ⟨st, h1, h2⟩ := sinv_run pass f K n hpass sched _ (sinv_start n T)
  exact ⟨st, h1, h2.hi, h2.read⟩

theorem task_queue_pass_last (log : α → α) (s : List Byte) (n : Nat) (hs : s.length = n)
    (hlo : 2 ^ 31 ≤ n) (hhi : n < 2 ^ 63) (m : Nat) (hm : m + 1 = 2 ^ 31) (l : α) :
    task_queue_pass log s n (m : Int) l =
      some ⟨-2 ^ 31, (m : Int), some (l + term log s n m, [m])⟩ := by
  unfold task_queue_pass
  dsimp only
  have hw : wrap32 ((m : Int) + 1) = -2 ^ 31 := by
    unfold wrap32
    omega
  have hb : ¬ n ≤ toSizeT (m : Int) := by
    rw [toSizeT_natCast m (by omega)]
    omega
  have hneg : ¬ (m : Int) < 0 := by omega
  rw [if_neg hb, if_neg hneg, hw, Int.toNat_ofNat, loop_body_eq log s n l m (by omega)]
  rfl

theorem task_queue_pass_wrapped (log : α → α) (s : List Byte) (n : Nat) (hhi : n < 2 ^ 63)
    (l : α) :
    task_queue_pass log s n (-2 ^ 31) l = some ⟨-2 ^ 31 + 1, -2 ^ 31, none⟩ := by
  unfold task_queue_pass
  dsimp only
  have hw : wrap32 (-2 ^ 31 + 1) = -2 ^ 31 + 1 := by
    unfold wrap32
    omega
  have hb : n ≤ toSizeT (-2 ^ 31) := by
    unfold toSizeT
    omega
  rw [if_pos hb, hw]

theorem task_queue_large_pass_last (log : α → α) (s : List Byte) (n : Nat)
    (hlo : 2 ^ 31 ≤ n) (m : Nat) (hm : m + 1 = 2 ^ 31) (l : α) :
    task_queue_large_pass log s n 1 (m : Int) l =
      some ⟨-2 ^ 31, -2 ^ 31, some (l, [])⟩ := by
  unfold task_queue_large_pass
  dsimp only
  have hw : wrap32 ((m : Int) + 1) = -2 ^ 31 := by
    unfold wrap32
    omega
  have hw2 : wrap32 (-2 ^ 31 - 1) = (m : Int) := by
    unfold wrap32
    omega
  have hb : ¬ n ≤ toSizeT (m : Int) := by
    rw [toSizeT_natCast m (by omega)]
    omega
  have hfuel : ((-2 ^ 31 : Int) - (m : Int)).toNat = 0 := by omega
  rw [hw, hw2, if_neg hb, hfuel]
  rfl

theorem task_queue_large_pass_wrapped (log : α → α) (s : List Byte) (n : Nat)
    (hhi : n < 2 ^ 63) (l : α) :
    task_queue_large_pass log s n 1 (-2 ^ 31) l =
      some ⟨-2 ^ 31 + 1, -2 ^ 31 + 1, none⟩ := by
  unfold task_queue_large_pass
  dsimp only
  have hw : wrap32 (-2 ^ 31 + 1) = -2 ^ 31 + 1 := by
    unfold wrap32
    omega
  have hw2 : wrap32 (-2 ^ 31 + 1 - 1) = -2 ^ 31 := by
    unfold wrap32
    omega
  have hb : n ≤ toSizeT (-2 ^ 31) := by
    unfold toSizeT
    omega
  rw [hw, hw2, if_pos hb]

theorem task_queue_solo_wrap (log exp : α → α) (s : List Byte) (n : Nat) (hs : s.length = n)
    (hlo : 2 ^ 31 ≤ n) (hhi : n < 2 ^ 63) (m : Nat) (hm : m + 1 = 2 ^ 31) :
    geomean_task_queue log exp 1 (List.replicate m 0 ++ [0, 0, 0]) s n =
      some (exp (0 + ((List.range (m + 1)).map (term log s n)).sum)) := by
  have hsolo := solo_run (task_queue_pass log s n) (term log s n) (fun k : Nat => (k : Int)) m
    (solo_of_spec _ _ _ n m (task_queue_pass_spec log s n hs) (by omega) (by omega))
  unfold geomean_task_queue parallel_region
  rw [foldlM_append_some _ _ _ _ _ hsolo,
    foldlM_cons_some _ _ _ _ _ (step_solo_process _ _ _ _ _ _ _ _ _ _
      (task_queue_pass_last log s n hs hlo hhi m hm _)),
    foldlM_cons_some _ _ _ _ _ (step_solo_break _ _ _ _ _ _ _ _
      (task_queue_pass_wrapped log s n hhi _)),
    foldlM_cons_some _ _ _ _ _ (step_solo_merge _ _ _ _ _ _)]
  simp [Region.done, List.range_succ]

theorem task_queue_large_solo_wrap (log exp : α → α) (s : List Byte) (n : Nat)
    (hs : s.length = n) (hlo : 2 ^ 31 ≤ n) (hhi : n < 2 ^ 63) (m : Nat)
    (hm : m + 1 = 2 ^ 31) :
    geomean_task_queue_large log exp 1 (List.replicate m 0 ++ [0, 0, 0]) s n 1 =
      some (exp (0 + ((List.range m).map (term log s n)).sum)) := by
  have hspec := task_queue_large_pass_spec log s n hs 1
  simp only [Nat.cast_one] at hspec
  have hsolo := solo_run (task_queue_large_pass log s n 1) (term log s n) _ m
    (solo_of_spec _ _ _ n m hspec (by omega) (by omega))
  unfold geomean_task_queue_large parallel_region
  rw [foldlM_append_some _ _ _ _ _ hsolo,
    foldlM_cons_some _ _ _ _ _ (step_solo_process _ _ _ _ _ _ _ _ _ _
      (task_queue_large_pass_last log s n hlo m hm _)),
    foldlM_cons_some _ _ _ _ _ (step_solo_break _ _ _ _ _ _ _ _
      (task_queue_large_pass_wrapped log s n hhi _)),
    foldlM_cons_some _ _ _ _ _ (step_solo_merge _ _ _ _ _ _)]
  simp [Region.done]

theorem sum_term_replicate (log : α → α) (v : Byte) (hv : 0 < v.val) (n M : Nat)
    (hM : M ≤ n) :
    ((List.range M).map (term log (List.replicate n v) n)).sum =
      (M : α) * (log (v.val : α) / (n : α)) := by
  induction M with
  | zero => simp
  | succ M ih =>
    have hget : (List.replicate n v).getD M 0 = v := by
      simp [List.getD, List.getElem?_replicate, (by omega : M < n)]
    rw [List.range_succ, List.map_append, List.sum_append, ih (by omega)]
    simp only [List.map_cons, List.map_nil, List.sum_cons, List.sum_nil, add_zero, term, hget,
      hv, if_true]
    push_cast
    ring

theorem solo_sum_lt (v : Byte) (hv : 1 < v.val) (n M : Nat) (hM : M < n) :
    Real.exp (0 + ((List.range M).map (term Real.log (List.replicate n v) n)).sum) <
      (v.val : ℝ) := by
  have hv1 : (1 : ℝ) < (v.val : ℝ) := by exact_mod_cast hv
  have hlog : 0 < Real.log (v.val : ℝ) := Real.log_pos hv1
  have hn : (0 : ℝ) < (n : ℝ) := by exact_mod_cast (by omega : 0 < n)
  have hMn : (M : ℝ) < (n : ℝ) := by exact_mod_cast hM
  rw [sum_term_replicate Real.log v (by omega) n M (by omega), zero_add]
  calc Real.exp ((M : ℝ) * (Real.log (v.val : ℝ) / (n : ℝ)))
      < Real.exp (Real.log (v.val : ℝ)) := by
        apply Real.exp_lt_exp.2
        rw [mul_div_assoc', div_lt_iff₀ hn]
        nlinarith
    _ = (v.val : ℝ) := Real.exp_log (by linarith)

theorem solo_sum_eq (v : Byte) (hv : 0 < v.val) (n : Nat) (hn : 1 ≤ n) :
    Real.exp (0 + ((List.range n).map (term Real.log (List.replicate n v) n)).sum) =
      (v.val : ℝ) := by
  have hv1 : (0 : ℝ) < (v.val : ℝ) := by exact_mod_cast hv
  have hn' : (n : ℝ) ≠ 0 := by exact_mod_cast (by omega : n ≠ 0)
  rw [sum_term_replicate Real.log v hv n n (le_refl n), zero_add, mul_div_assoc',
    mul_div_cancel_left₀ _ hn', Real.exp_log hv1]

theorem even_split_uniform (n : Nat) (hn : 1 ≤ n) (v : Byte) (hv : 0 < v.val) (r : ℝ)
    (hr : (v.val : ℝ) = r) :
    geomean_even_split Real.log Real.exp [List.range n] (List.replicate n v) n = some r := by
  rw [geomean_even_split_eq Real.log Real.exp [List.range n] (List.replicate n v) n
    (List.length_replicate _ _) (by simp), ref_uniform v n hv hn, hr]

theorem task_queue_solo_exact (n : Nat) (hn : n = 2 ^ 31) (m : Nat) (hm : m + 1 = 2 ^ 31)
    (v : Byte) (hv : 0 < v.val) (r : ℝ) (hr : (v.val : ℝ) = r) :
    geomean_task_queue Real.log Real.exp 1 (List.replicate m 0 ++ [0, 0, 0])
      (List.replicate n v) n = some r := by
  have hmn : m + 1 = n := by omega
  rw [task_queue_solo_wrap Real.log Real.exp (List.replicate n v) n (List.length_replicate _ _)
    (by omega) (by omega) m hm, hmn, solo_sum_eq v hv n (by omega), hr]

theorem task_queue_solo_short (n : Nat) (hlo : 2 ^ 31 < n) (hhi : n < 2 ^ 63) (m : Nat)
    (hm : m + 1 = 2 ^ 31) (v : Byte) (hv : 1 < v.val) (r : ℝ) (hr : (v.val : ℝ) = r) :
    ∃ x, geomean_task_queue Real.log Real.exp 1 (List.replicate m 0 ++ [0, 0, 0])
      (List.replicate n v) n = some x ∧ x < r := by
  refine ⟨_, task_queue_solo_wrap Real.log Real.exp (List.replicate n v) n
    (List.length_replicate _ _) (by omega) hhi m hm, ?_⟩
  rw [← hr]
  exact solo_sum_lt v hv n (m + 1) (by omega)

theorem task_queue_large_solo_short (n : Nat) (hlo : 2 ^ 31 ≤ n) (hhi : n < 2 ^ 63) (m : Nat)
    (hm : m + 1 = 2 ^ 31) (v : Byte) (hv : 1 < v.val) (r : ℝ) (hr : (v.val : ℝ) = r) :
    ∃ x, geomean_task_queue_large Real.log Real.exp 1 (List.replicate m 0 ++ [0, 0, 0])
      (List.replicate n v) n 1 = some x ∧ x < r := by
  refine ⟨_, task_queue_large_solo_wrap Real.log Real.exp (List.replicate n v) n
    (List.length_replicate _ _) hlo hhi m hm, ?_⟩
  rw [← hr]
  exact solo_sum_lt v hv n m (by omega)

end Wrap

/-! ## Two passes that differ only in the value they capture -/

section Simulation

variable {α : Type} [Field α]

theorem relabel_step (pass1 pass2 : Int → α → Option (Pass α)) (g : Int → Int)
    (st : Region α)
    (h : ∀ l : α, pass1 st.index l =
      (pass2 st.index l).map fun p => ⟨p.index, g p.captured, p.result⟩) (t : Nat) :
    parallel_step pass1 (st.relabel g) t =
      (parallel_step pass2 st t).map (Region.relabel g) := by
  unfold parallel_step
  simp only [Region.relabel, List.getElem?_map]
  cases hw : st.workers[t]? with
  | none => rfl
  | some w =>
    simp only [Option.map_some']
    cases hpc : w.pc with
    | finished => rfl
    | merging => simp only [Option.map_some', List.map_set, Region.relabel]
    | claiming =>
      simp only [h w.local_sum]
      cases hp : pass2 st.index w.local_sum with
      | none => rfl
      | some p =>
        simp only [Option.map_some']
        cases hr : p.result with
        | none => simp only [Option.map_some', List.map_set, List.map_append, List.map_cons,
            List.map_nil, Region.relabel]
        | some r => simp only [Option.map_some', List.map_set, List.map_append, List.map_cons,
            List.map_nil, Region.relabel]

theorem step_index_range (pass : Int → α → Option (Pass α))
    (hr : ∀ index l p, pass index l = some p → -2 ^ 31 ≤ p.index ∧ p.index < 2 ^ 31)
    (st st' : Region α) (t : Nat) (hlo : -2 ^ 31 ≤ st.index) (hhi : st.index < 2 ^ 31)
    (h : parallel_step pass st t = some st') : -2 ^ 31 ≤ st'.index ∧ st'.index < 2 ^ 31 := by
  unfold parallel_step at h
  cases hw : st.workers[t]? with
  | none =>
    rw [hw] at h
    cases h
    exact ⟨hlo, hhi⟩
  | some w =>
    rw [hw] at h
    cases hpc : w.pc with
    | finished =>
      simp only [hpc] at h
      cases h
      exact ⟨hlo, hhi⟩
    | merging =>
      simp only [hpc, Option.some.injEq] at h
      subst h
      exact ⟨hlo, hhi⟩
    | claiming =>
      simp only [hpc] at h
      cases hp : pass st.index w.local_sum with
      | none => rw [hp] at h; cases h
      | some p =>
        rw [hp] at h
        have := hr _ _ _ hp
        cases hres : p.result with
        | none =>
          simp only [hres, Option.some.injEq] at h
          subst h
          exact this
        | some r =>
          simp only [hres, Option.some.injEq] at h
          subst h
          exact this

theorem relabel_run (pass1 pass2 : Int → α → Option (Pass α)) (g : Int → Int)
    (h : ∀ index : Int, -2 ^ 31 ≤ index → index < 2 ^ 31 → ∀ l : α, pass1 index l =
      (pass2 index l).map fun p => ⟨p.index, g p.captured, p.result⟩)
    (hr : ∀ index l p, pass2 index l = some p → -2 ^ 31 ≤ p.index ∧ p.index < 2 ^ 31)
    (sched : List Nat) :
    ∀ st : Region α, -2 ^ 31 ≤ st.index → st.index < 2 ^ 31 →
      sched.foldlM (parallel_step pass1) (st.relabel g) =
        (sched.foldlM (parallel_step pass2) st).map (Region.relabel g) := by
  induction sched with
  | nil => intro st _ _; rfl
  | cons t rest ih =>
    intro st hlo hhi
    rw [List.foldlM_cons, List.foldlM_cons, relabel_step pass1 pass2 g st (h st.index hlo hhi) t]
    cases hs : parallel_step pass2 st t with
    | none => rfl
    | some st' =>
      obtain ⟨h1, h2⟩ := step_index_range pass2 hr st st' t hlo hhi hs
      exact ih st' h1 h2

theorem relabel_region (pass1 pass2 : Int → α → Option (Pass α)) (g : Int → Int)
    (h : ∀ index : Int, -2 ^ 31 ≤ index → index < 2 ^ 31 → ∀ l : α, pass1 index l =
      (pass2 index l).map fun p => ⟨p.index, g p.captured, p.result⟩)
    (hr : ∀ index l p, pass2 index l = some p → -2 ^ 31 ≤ p.index ∧ p.index < 2 ^ 31)
    (T : Nat) (sched : List Nat) :
    parallel_region pass1 T sched = (parallel_region pass2 T sched).map (Region.relabel g) := by
  have hstart : (Region.start T : Region α).relabel g = Region.start T := by
    simp [Region.relabel, Region.start]
  unfold parallel_region
  rw [← relabel_run pass1 pass2 g h hr sched _ (by simp [Region.start])
    (by simp [Region.start]), hstart]

theorem relabel_done {β : Type} (g : Int → Int) (st : Region β) :
    (st.relabel g).done = st.done := by
  simp only [Region.relabel, Region.done, List.all_map]
  rfl

theorem task_queue_pass_range (log : α → α) (s : List Byte) (n : Nat) (index : Int) (l : α)
    (p : Pass α) (h : task_queue_pass log s n index l = some p) :
    -2 ^ 31 ≤ p.index ∧ p.index < 2 ^ 31 := by
  have hr := wrap32_range (index + 1)
  unfold task_queue_pass at h
  dsimp only at h
  split at h
  · cases h
    exact hr
  · split at h
    · cases h
    · cases hb : loop_body log s n l index.toNat with
      | none => rw [hb] at h; cases h
      | some x =>
        rw [hb] at h
        cases h
        exact hr

theorem chunk_one_pass (log : α → α) (s : List Byte) (n : Nat) (hn : n < 2 ^ 31)
    (index : Int) (hlo : -2 ^ 31 ≤ index) (hhi : index < 2 ^ 31) (l : α) :
    task_queue_large_pass log s n 1 index l =
      (task_queue_pass log s n index l).map fun p =>
        ⟨p.index, wrap32 (p.captured + 1), p.result⟩ := by
  unfold task_queue_large_pass task_queue_pass
  dsimp only
  have hback : wrap32 (wrap32 (index + 1) - 1) = index := by
    unfold wrap32
    omega
  rw [hback]
  by_cases hb : n ≤ toSizeT index
  · rw [if_pos hb, if_pos hb]
    rfl
  · obtain ⟨h0, hlt⟩ := toSizeT_lt index n (by omega) hlo hhi (by omega)
    have hneg : ¬ index < 0 := by omega
    have hw : wrap32 (index + 1) = index + 1 := by
      unfold wrap32
      omega
    have hfuel : (index + 1 - index).toNat = 1 := by omega
    have hc : index < index + 1 ∧ toSizeT index < n := ⟨by omega, by omega⟩
    rw [if_neg hb, if_neg hb, if_neg hneg, hw, hfuel]
    unfold chunk_loop
    rw [if_pos hc, if_neg hneg]
    cases loop_body log s n l index.toNat with
    | none => rfl
    | some x => simp only [Option.map_some', chunk_loop, hw, List.nil_append]

theorem chunk_one_region (log : α → α) (s : List Byte) (n : Nat) (hn : n < 2 ^ 31)
    (T : Nat) (sched : List Nat) :
    parallel_region (task_queue_large_pass log s n 1) T sched =
      (parallel_region (task_queue_pass log s n) T sched).map
        (Region.relabel fun i => wrap32 (i + 1)) :=
  relabel_region _ _ _ (fun index hlo hhi l => chunk_one_pass log s n hn index hlo hhi l)
    (fun index l p h => task_queue_pass_range log s n index l p h) T sched

theorem chunk_one_result (log exp : α → α) (s : List Byte) (n : Nat) (hn : n < 2 ^ 31)
    (T : Nat) (sched : List Nat) :
    geomean_task_queue_large log exp T sched s n 1 = geomean_task_queue log exp T sched s n := by
  unfold geomean_task_queue_large geomean_task_queue
  rw [chunk_one_region log s n hn T sched]
  cases parallel_region (task_queue_pass log s n) T sched with
  | none => rfl
  | some st =>
    simp only [Option.map_some', relabel_done]
    rfl

end Simulation

/-! ## The claims -/

section Claims

/-- C1: for every byte sequence `s` of length `n`, and however the runtime hands the
iterations out to its threads, the entry point `geomean` runs `geomean_even_split` and
returns `exp` of the sum, over exactly the indices `i < n` with `s[i] > 0`, of
`ln (s[i]) / n`: zero bytes add nothing to the sum, and the divisor is the original
length `n`. -/
theorem geomean_eq_exp_sum_log (s : List Byte) (n : Nat) (chunks : List (List Nat))
    (hs : s.length = n) (hc : chunks.flatten.Perm (List.range n)) :
    geomean Real.log Real.exp chunks s n = geomean_even_split Real.log Real.exp chunks s n ∧
    geomean Real.log Real.exp chunks s n =
      some (Real.exp (∑ i ∈ (Finset.range n).filter (fun i => 0 < (s.getD i 0).val),
        Real.log ((s.getD i 0).val : ℝ) / (n : ℝ))) := by
  refine ⟨rfl, ?_⟩
  unfold geomean geomean_even_split
  rw [omp_for_reduction_eq Real.log chunks s n hs hc]
  rfl

theorem geomean_eq_exp_sum_log_witness :
    ([2, 0, 8] : List Byte).length = 3 ∧
    ([[0, 2], [1]] : List (List Nat)).flatten.Perm (List.range 3) ∧
    geomean Real.log Real.exp [[0, 2], [1]] [2, 0, 8] 3 =
      geomean_even_split Real.log Real.exp [[0, 2], [1]] [2, 0, 8] 3 ∧
    geomean Real.log Real.exp [[0, 2], [1]] [2, 0, 8] 3 =
      some (Real.exp (∑ i ∈ (Finset.range 3).filter
          (fun i => 0 < (([2, 0, 8] : List Byte).getD i 0).val),
        Real.log ((([2, 0, 8] : List Byte).getD i 0).val : ℝ) / ((3 : Nat) : ℝ))) :=
  ⟨rfl, by decide, geomean_eq_exp_sum_log [2, 0, 8] 3 [[0, 2], [1]] rfl (by decide)⟩

/-- C10: the single-item queue as a transition system over the cursor, the per-thread local
sums and the shared accumulator, one step per atomic operation.  For every number of threads
`T ≥ 1` with `n + T` inside the range of the `int` cursor and every interleaving `sched`:
the run never leaves the buffer and reads only indices below `n`; once every thread is done,
each index of `[0, n)` has been claimed by exactly one thread, the claimed values are
`0, …, n + T - 1` each once, the indices processed are those of `[0, n)` each once, the
accumulator is the sum of the local sums, each added once, and equals the sum over the
nonzero `s[i]` of `ln (s[i]) / n`; and every thread is done as soon as each thread has been
scheduled more than `n + T` times. -/
theorem task_queue_invariant (s : List Byte) (n T : Nat) (hs : s.length = n) (hT : 1 ≤ T)
    (hfit : n + T < 2 ^ 31) (sched : List Nat) :
    ∃ st, parallel_region (task_queue_pass Real.log s n) T sched = some st ∧
      (∀ w ∈ st.workers, ∀ i ∈ w.processed, i < n) ∧
      (st.done = true →
        (∀ i : Nat, i < n →
          ∃! t : Nat, ∃ w : Worker ℝ, st.workers[t]? = some w ∧ (i : Int) ∈ w.claimed) ∧
        (st.workers.map fun w => w.claimed).flatten.Perm
          ((List.range (n + T)).map fun k : Nat => (k : Int)) ∧
        (st.workers.map fun w => w.processed).flatten.Perm (List.range n) ∧
        st.answer = (st.workers.map fun w => w.local_sum).sum ∧
        st.answer = ∑ i ∈ (Finset.range n).filter (fun i => 0 < (s.getD i 0).val),
          Real.log ((s.getD i 0).val : ℝ) / (n : ℝ)) ∧
      ((∀ t, t < T → n + T < sched.count t) → st.done = true) := by
  obtain ⟨st, hst, hinv⟩ := task_queue_region Real.log s n T hs hfit sched
  refine ⟨st, hst, processed_lt _ _ 1 n T sched st hinv, fun hd => ?_, fun hfair => ?_⟩
  · obtain ⟨-, hproc, hclm, hans, hsum⟩ := inv_done _ _ 1 n T (le_refl 1) hT sched st hinv hd
    have hclm' : (st.workers.map fun w => w.claimed).flatten.Perm
        ((List.range (n + T)).map fun k : Nat => (k : Int)) := by simpa using hclm
    refine ⟨fun i hi => ?_, hclm', hproc, hans, by rw [hsum, sum_range_eq_filter]⟩
    exact claimed_by_one_thread (fun k : Nat => (k : Int)) (fun a b h => by simpa using h) (n + T)
      st.workers hclm' i (by omega)
  · exact inv_fair_done _ _ 1 n T sched st hinv (by simpa using hfair)

theorem task_queue_invariant_witness :
    ([2, 4, 8] : List Byte).length = 3 ∧ 1 ≤ 2 ∧ 3 + 2 < 2 ^ 31 ∧
    ∃ st, parallel_region (task_queue_pass Real.log [2, 4, 8] 3) 2
        [0, 1, 0, 1, 0, 1, 0, 1, 0, 1, 0, 1] = some st ∧
      (∀ w ∈ st.workers, ∀ i ∈ w.processed, i < 3) ∧
      (st.done = true →
        (∀ i : Nat, i < 3 →
          ∃! t : Nat, ∃ w : Worker ℝ, st.workers[t]? = some w ∧ (i : Int) ∈ w.claimed) ∧
        (st.workers.map fun w => w.claimed).flatten.Perm
          ((List.range (3 + 2)).map fun k : Nat => (k : Int)) ∧
        (st.workers.map fun w => w.processed).flatten.Perm (List.range 3) ∧
        st.answer = (st.workers.map fun w => w.local_sum).sum ∧
        st.answer = ∑ i ∈ (Finset.range 3).filter
            (fun i => 0 < (([2, 4, 8] : List Byte).getD i 0).val),
          Real.log ((([2, 4, 8] : List Byte).getD i 0).val : ℝ) / ((3 : Nat) : ℝ)) ∧
      ((∀ t : Nat, t < 2 → 3 + 2 < ([0, 1, 0, 1, 0, 1, 0, 1, 0, 1, 0, 1] : List Nat).count t) →
        st.done = true) :=
  ⟨rfl, by decide, by decide,
    task_queue_invariant [2, 4, 8] 3 2 rfl (by decide) (by decide)
      [0, 1, 0, 1, 0, 1, 0, 1, 0, 1, 0, 1]⟩

/-- C5: for `n = 0` (whatever the buffer, the number of threads, the interleaving, the merge
order and the chunk size `K`), no iteration of the loop body runs (no element is read, no
division by `n` takes place), the accumulator stays at zero, and `geomean` and each of the six
strategies return exactly `1`; the two cursor strategies do so as soon as every thread has
been scheduled twice. -/
theorem empty_input_returns_one (s : List Byte) (chunks : List (List Nat))
    (hc : chunks.flatten.Perm (List.range 0)) (order : List Nat) (T : Nat) (sched : List Nat)
    (K : Int) :
    chunks.flatten = [] ∧
    omp_for_reduction Real.log chunks s 0 0 = some 0 ∧
    geomean Real.log Real.exp chunks s 0 = some 1 ∧
    geomean_even_split Real.log Real.exp chunks s 0 = some 1 ∧
    geomean_guided Real.log Real.exp chunks s 0 = some 1 ∧
    geomean_atomic_non_parallel Real.log Real.exp s 0 = some 1 ∧
    geomean_many_to_few_atomic Real.log Real.exp chunks order s 0 = some 1 ∧
    (∃ st, parallel_region (task_queue_pass Real.log s 0) T sched = some st ∧
      st.answer = 0 ∧ (∀ w ∈ st.workers, w.processed = []) ∧
      ((∀ t, t < T → 2 ≤ sched.count t) →
        geomean_task_queue Real.log Real.exp T sched s 0 = some 1)) ∧
    (∃ st, parallel_region (task_queue_large_pass Real.log s 0 K) T sched = some st ∧
      st.answer = 0 ∧ (∀ w ∈ st.workers, w.processed = []) ∧
      ((∀ t, t < T → 2 ≤ sched.count t) →
        geomean_task_queue_large Real.log Real.exp T sched s 0 K = some 1)) := by
  have hnil : chunks.flatten = [] := by simpa using hc
  obtain ⟨h0, h1, h2, h3⟩ := static_empty Real.log Real.exp s chunks hnil order
  rw [Real.exp_zero] at h1 h2 h3
  refine ⟨hnil, h0, h1, h1, h2, ?_, h3, ?_, ?_⟩
  · simp [geomean_atomic_non_parallel]
  · obtain ⟨st, hst, hans, hproc, hdone⟩ :=
      queue_empty _ (task_queue_pass_zero Real.log s) T sched
    refine ⟨st, hst, hans, hproc, fun hfair => ?_⟩
    unfold geomean_task_queue
    rw [hst]
    simp only [hdone hfair, if_true, hans, Real.exp_zero]
  · obtain ⟨st, hst, hans, hproc, hdone⟩ :=
      queue_empty _ (task_queue_large_pass_zero Real.log s K) T sched
    refine ⟨st, hst, hans, hproc, fun hfair => ?_⟩
    unfold geomean_task_queue_large
    rw [hst]
    simp only [hdone hfair, if_true, hans, Real.exp_zero]

theorem empty_input_returns_one_witness :
    ([[], []] : List (List Nat)).flatten.Perm (List.range 0) ∧
    (([[], []] : List (List Nat)).flatten = [] ∧
    omp_for_reduction Real.log [[], []] [] 0 0 = some 0 ∧
    geomean Real.log Real.exp [[], []] [] 0 = some 1 ∧
    geomean_even_split Real.log Real.exp [[], []] [] 0 = some 1 ∧
    geomean_guided Real.log Real.exp [[], []] [] 0 = some 1 ∧
    geomean_atomic_non_parallel Real.log Real.exp [] 0 = some 1 ∧
    geomean_many_to_few_atomic Real.log Real.exp [[], []] [1, 0] [] 0 = some 1 ∧
    (∃ st, parallel_region (task_queue_pass Real.log [] 0) 2 [0, 1, 1, 0] = some st ∧
      st.answer = 0 ∧ (∀ w ∈ st.workers, w.processed = []) ∧
      ((∀ t : Nat, t < 2 → 2 ≤ ([0, 1, 1, 0] : List Nat).count t) →
        geomean_task_queue Real.log Real.exp 2 [0, 1, 1, 0] [] 0 = some 1)) ∧
    (∃ st, parallel_region (task_queue_large_pass Real.log [] 0 100) 2 [0, 1, 1, 0] = some st ∧
      st.answer = 0 ∧ (∀ w ∈ st.workers, w.processed = []) ∧
      ((∀ t : Nat, t < 2 → 2 ≤ ([0, 1, 1, 0] : List Nat).count t) →
        geomean_task_queue_large Real.log Real.exp 2 [0, 1, 1, 0] [] 0 100 = some 1))) :=
  ⟨by decide, empty_input_returns_one [] [[], []] (by decide) [1, 0] 2 [0, 1, 1, 0] 100⟩

/-- C4, as the code has it: for every chunk size `K ≥ 1` (larger than `n` or not, dividing
`n` or not), every `T ≥ 1` and every interleaving, provided the `int` cursor does not
overflow (`(⌈n / K⌉ + T) * K < 2 ^ 31`): no read leaves the buffer and only indices below `n`
are read; once every thread is done the blocks processed cover `[0, n)` with every index
exactly once, the values captured are `K, 2 K, …, (⌈n / K⌉ + T) K`, and the accumulator is
the reference sum; and a run in which each thread is scheduled more than `⌈n / K⌉ + T` times
returns `exp` of the sum over the nonzero `s[i]` of `ln (s[i]) / n`. -/
theorem chunked_queue_covers (s : List Byte) (n T K : Nat) (hs : s.length = n) (hT : 1 ≤ T)
    (hK : 1 ≤ K) (hfit : ((n + K - 1) / K + T) * K < 2 ^ 31) (sched : List Nat) :
    ∃ st, parallel_region (task_queue_large_pass Real.log s n (K : Int)) T sched = some st ∧
      (∀ w ∈ st.workers, ∀ i ∈ w.processed, i < n) ∧
      (st.done = true →
        (st.workers.map fun w => w.processed).flatten.Perm (List.range n) ∧
        (st.workers.map fun w => w.claimed).flatten.Perm
          ((List.range ((n + K - 1) / K + T)).map fun k : Nat => (((k + 1) * K : Nat) : Int)) ∧
        st.answer = ∑ i ∈ (Finset.range n).filter (fun i => 0 < (s.getD i 0).val),
          Real.log ((s.getD i 0).val : ℝ) / (n : ℝ)) ∧
      ((∀ t, t < T → (n + K - 1) / K + T < sched.count t) →
        st.done = true ∧
        geomean_task_queue_large Real.log Real.exp T sched s n (K : Int) =
          some (Real.exp (∑ i ∈ (Finset.range n).filter (fun i => 0 < (s.getD i 0).val),
            Real.log ((s.getD i 0).val : ℝ) / (n : ℝ)))) := by
  obtain ⟨st, hst, hinv⟩ := task_queue_large_region Real.log s n T K hs hK hfit sched
  refine ⟨st, hst, processed_lt _ _ K n T sched st hinv, fun hd => ?_, fun hfair => ?_⟩
  · obtain ⟨-, hproc, hclm, -, hsum⟩ := inv_done _ _ K n T hK hT sched st hinv hd
    exact ⟨hproc, hclm, by rw [hsum, sum_range_eq_filter]⟩
  · exact ⟨inv_fair_done _ _ K n T sched st hinv hfair,
      geomean_task_queue_large_total Real.log Real.exp s n T K hs hT hK hfit sched hfair⟩

theorem chunked_queue_covers_witness :
    ([2, 4, 8, 3, 5] : List Byte).length = 5 ∧ 1 ≤ 2 ∧ 1 ≤ 7 ∧
    ((5 + 7 - 1) / 7 + 2) * 7 < 2 ^ 31 ∧
    ∃ st, parallel_region (task_queue_large_pass Real.log [2, 4, 8, 3, 5] 5 ((7 : Nat) : Int))
        2 [0, 1, 0, 1, 0, 1, 0, 1] = some st ∧
      (∀ w ∈ st.workers, ∀ i ∈ w.processed, i < 5) ∧
      (st.done = true →
        (st.workers.map fun w => w.processed).flatten.Perm (List.range 5) ∧
        (st.workers.map fun w => w.claimed).flatten.Perm
          ((List.range ((5 + 7 - 1) / 7 + 2)).map
            fun k : Nat => (((k + 1) * 7 : Nat) : Int)) ∧
        st.answer = ∑ i ∈ (Finset.range 5).filter
            (fun i => 0 < (([2, 4, 8, 3, 5] : List Byte).getD i 0).val),
          Real.log ((([2, 4, 8, 3, 5] : List Byte).getD i 0).val : ℝ) / ((5 : Nat) : ℝ)) ∧
      ((∀ t : Nat, t < 2 →
          (5 + 7 - 1) / 7 + 2 < ([0, 1, 0, 1, 0, 1, 0, 1] : List Nat).count t) →
        st.done = true ∧
        geomean_task_queue_large Real.log Real.exp 2 [0, 1, 0, 1, 0, 1, 0, 1]
            [2, 4, 8, 3, 5] 5 ((7 : Nat) : Int) =
          some (Real.exp (∑ i ∈ (Finset.range 5).filter
              (fun i => 0 < (([2, 4, 8, 3, 5] : List Byte).getD i 0).val),
            Real.log ((([2, 4, 8, 3, 5] : List Byte).getD i 0).val : ℝ) / ((5 : Nat) : ℝ)))) :=
  ⟨rfl, by decide, by decide, by decide,
    chunked_queue_covers [2, 4, 8, 3, 5] 5 2 7 rfl (by decide) (by decide) (by decide)
      [0, 1, 0, 1, 0, 1, 0, 1]⟩

/-- C4 fails as stated.  With `n = 1`, the chunk size `K = 2 ^ 30 > n` and four threads, the
cursor `index += K` overflows `int` and comes back to `2 ^ 30`: the block `[0, 2 ^ 30)` is
claimed a second time, index `0` is processed twice, and the result for the byte `3` is `9`,
where the reference value is `3`. -/
theorem chunked_queue_overflow_double_counts :
    (1 : Int) < 2 ^ 30 ∧
    (parallel_region (task_queue_large_pass Real.log [3] 1 (2 ^ 30)) 4
        [0, 0, 1, 2, 3, 3, 0, 1, 2, 3]).map
      (fun st => (st.workers.map fun w => w.processed).flatten) = some [0, 0] ∧
    geomean_task_queue_large Real.log Real.exp 4 [0, 0, 1, 2, 3, 3, 0, 1, 2, 3] [3] 1
      (2 ^ 30) = some 9 ∧
    Real.exp (∑ i ∈ (Finset.range 1).filter (fun i => 0 < (([3] : List Byte).getD i 0).val),
      Real.log ((([3] : List Byte).getD i 0).val : ℝ) / ((1 : Nat) : ℝ)) = 3 := by
  refine ⟨by decide, rfl, ?_, ?_⟩
  · have h : geomean_task_queue_large Real.log Real.exp 4 [0, 0, 1, 2, 3, 3, 0, 1, 2, 3] [3] 1
        (2 ^ 30) = some (Real.exp (0 + (0 + Real.log ((3 : Nat) : ℝ) / ((1 : Nat) : ℝ)) + 0 + 0
          + (0 + Real.log ((3 : Nat) : ℝ) / ((1 : Nat) : ℝ)))) := rfl
    rw [h]
    congr 1
    simp only [zero_add, add_zero, Nat.cast_ofNat, Nat.cast_one, div_one]
    rw [Real.exp_add, Real.exp_log (by norm_num)]
    norm_num
  · have h : (Finset.range 1).filter (fun i => 0 < (([3] : List Byte).getD i 0).val) = {0} := by
      decide
    have h3 : (3 : Byte).val = 3 := rfl
    rw [h, Finset.sum_singleton]
    simp only [List.getD_cons_zero, Nat.cast_one, div_one, h3, Nat.cast_ofNat]
    exact Real.exp_log (by norm_num)

/-- C6: for every length `n` and the sequence of `n` zero bytes, no element contributes and
`geomean` and each of the six strategies return `1`, whatever the runtime's choices.  For the
two cursor strategies (any `T ≥ 1`, any chunk size `1 ≤ K < 2 ^ 31`, `n < 2 ^ 63` as for
every C object) this holds whether or not the `int` cursor overflows: under every
interleaving no read leaves the buffer and the accumulator stays `0`, a call that returns
returns `1`, and the call returns once each thread has been scheduled more than
`2 ^ 31 + (2 ^ 31 + 1) * T` times (more than `n + T`, respectively `⌈n / K⌉ + T`, times when
the cursor does not overflow). -/
theorem all_zero_returns_one (n : Nat) (hn : n < 2 ^ 63)
    (chunks guided_chunks many_chunks : List (List Nat)) (order : List Nat)
    (hc : chunks.flatten.Perm (List.range n))
    (hg : guided_chunks.flatten.Perm (List.range n))
    (hm : many_chunks.flatten.Perm (List.range n))
    (ho : order.Perm (List.range many_chunks.length))
    (T : Nat) (sched : List Nat) (hT : 1 ≤ T)
    (hfair : ∀ t, t < T → 2 ^ 31 + (2 ^ 31 + 1) * T < sched.count t)
    (T' K : Nat) (sched' : List Nat) (hT' : 1 ≤ T') (hK : 1 ≤ K) (hK' : K < 2 ^ 31)
    (hfair' : ∀ t, t < T' → 2 ^ 31 + (2 ^ 31 + 1) * T' < sched'.count t) :
    geomean Real.log Real.exp chunks (List.replicate n 0) n = some 1 ∧
    geomean_even_split Real.log Real.exp chunks (List.replicate n 0) n = some 1 ∧
    geomean_guided Real.log Real.exp guided_chunks (List.replicate n 0) n = some 1 ∧
    geomean_atomic_non_parallel Real.log Real.exp (List.replicate n 0) n = some 1 ∧
    geomean_many_to_few_atomic Real.log Real.exp many_chunks order (List.replicate n 0) n =
      some 1 ∧
    (∀ any, ∃ st, parallel_region (task_queue_pass Real.log (List.replicate n 0) n) T any =
      some st ∧ st.answer = 0) ∧
    (∀ any x, geomean_task_queue Real.log Real.exp T any (List.replicate n 0) n = some x →
      x = 1) ∧
    geomean_task_queue Real.log Real.exp T sched (List.replicate n 0) n = some 1 ∧
    (n + T < 2 ^ 31 → ∀ any, (∀ t, t < T → n + T < any.count t) →
      geomean_task_queue Real.log Real.exp T any (List.replicate n 0) n = some 1) ∧
    (∀ any, ∃ st,
      parallel_region (task_queue_large_pass Real.log (List.replicate n 0) n (K : Int)) T'
        any = some st ∧ st.answer = 0) ∧
    (∀ any x,
      geomean_task_queue_large Real.log Real.exp T' any (List.replicate n 0) n (K : Int) =
        some x → x = 1) ∧
    geomean_task_queue_large Real.log Real.exp T' sched' (List.replicate n 0) n (K : Int) =
      some 1 ∧
    (((n + K - 1) / K + T') * K < 2 ^ 31 → ∀ any,
      (∀ t, t < T' → (n + K - 1) / K + T' < any.count t) →
      geomean_task_queue_large Real.log Real.exp T' any (List.replicate n 0) n (K : Int) =
        some 1) := by
  have hs : (List.replicate n (0 : Byte)).length = n := List.length_replicate n 0
  have hv : Real.exp (∑ i ∈ (Finset.range n).filter
        (fun i => 0 < ((List.replicate n (0 : Byte)).getD i 0).val),
      Real.log (((List.replicate n (0 : Byte)).getD i 0).val : ℝ) / (n : ℝ)) = 1 := by
    rw [ref_zero, Real.exp_zero]
  have hf : ∀ i, i < n → term Real.log (List.replicate n 0) n i = 0 := by
    intro i _
    unfold term
    rw [getD_replicate_zero]
    rfl
  have hq : ∀ any, ∃ st,
      parallel_region (task_queue_pass Real.log (List.replicate n 0) n) T any = some st ∧
      st.answer = 0 ∧ WInv (term Real.log (List.replicate n 0) n) n T any st := by
    intro any
    obtain ⟨st, hst, hinv⟩ := winv_region _ _ 1 n T (le_refl 1) (by norm_num) hn
      (task_queue_pass_safe Real.log (List.replicate n 0) n hs hn) any
    exact ⟨st, hst, winv_answer_zero _ n T any st hinv hf, hinv⟩
  have hq' : ∀ any, ∃ st,
      parallel_region (task_queue_large_pass Real.log (List.replicate n 0) n (K : Int)) T'
        any = some st ∧
      st.answer = 0 ∧ WInv (term Real.log (List.replicate n 0) n) n T' any st := by
    intro any
    obtain ⟨st, hst, hinv⟩ := winv_region _ _ K n T' hK hK' hn
      (task_queue_large_pass_safe Real.log (List.replicate n 0) n hs hn K) any
    exact ⟨st, hst, winv_answer_zero _ n T' any st hinv hf, hinv⟩
  refine ⟨?_, ?_, ?_, ?_, ?_, ?_, ?_, ?_, ?_, ?_, ?_, ?_, ?_⟩
  · rw [← hv]; exact geomean_even_split_eq _ _ chunks _ n hs hc
  · rw [← hv]; exact geomean_even_split_eq _ _ chunks _ n hs hc
  · rw [← hv]; exact geomean_guided_eq _ _ guided_chunks _ n hs hg
  · rw [← hv]; exact geomean_atomic_non_parallel_eq _ _ _ n hs
  · rw [← hv]; exact geomean_many_to_few_atomic_eq _ _ many_chunks order _ n hs hm ho
  · intro any
    obtain ⟨st, hst, h0, -⟩ := hq any
    exact ⟨st, hst, h0⟩
  · intro any x hx
    obtain ⟨st, hst, h0, -⟩ := hq any
    unfold geomean_task_queue at hx
    rw [hst] at hx
    by_cases hd : st.done = true
    · simp only [hd, if_true, Option.some.injEq, h0, Real.exp_zero] at hx
      exact hx.symm
    · simp [hd] at hx
  · obtain ⟨st, hst, h0, hinv⟩ := hq sched
    unfold geomean_task_queue
    rw [hst]
    simp only [winv_fair_done _ n T sched st hinv hfair, if_true, h0, Real.exp_zero]
  · intro hfit any hsmall
    rw [← hv]
    exact geomean_task_queue_total _ _ _ n T hs hT hfit any hsmall
  · intro any
    obtain ⟨st, hst, h0, -⟩ := hq' any
    exact ⟨st, hst, h0⟩
  · intro any x hx
    obtain ⟨st, hst, h0, -⟩ := hq' any
    unfold geomean_task_queue_large at hx
    rw [hst] at hx
    by_cases hd : st.done = true
    · simp only [hd, if_true, Option.some.injEq, h0, Real.exp_zero] at hx
      exact hx.symm
    · simp [hd] at hx
  · obtain ⟨st, hst, h0, hinv⟩ := hq' sched'
    unfold geomean_task_queue_large
    rw [hst]
    simp only [winv_fair_done _ n T' sched' st hinv hfair', if_true, h0, Real.exp_zero]
  · intro hfit any hsmall
    rw [← hv]
    exact geomean_task_queue_large_total _ _ _ n T' K hs hT' hK hfit any hsmall

theorem all_zero_returns_one_witness :
    2 < 2 ^ 63 ∧
    ([[0], [1]] : List (List Nat)).flatten.Perm (List.range 2) ∧
    ([[0, 1]] : List (List Nat)).flatten.Perm (List.range 2) ∧
    ([[1], [0]] : List (List Nat)).flatten.Perm (List.range 2) ∧
    ([1, 0] : List Nat).Perm (List.range ([[1], [0]] : List (List Nat)).length) ∧
    1 ≤ 1 ∧
    (∀ t : Nat, t < 1 → 2 ^ 31 + (2 ^ 31 + 1) * 1 < (List.replicate (2 ^ 33) 0).count t) ∧
    1 ≤ 100 ∧ 100 < 2 ^ 31 ∧
    (geomean Real.log Real.exp [[0], [1]] (List.replicate 2 0) 2 = some 1 ∧
    geomean_even_split Real.log Real.exp [[0], [1]] (List.replicate 2 0) 2 = some 1 ∧
    geomean_guided Real.log Real.exp [[0, 1]] (List.replicate 2 0) 2 = some 1 ∧
    geomean_atomic_non_parallel Real.log Real.exp (List.replicate 2 0) 2 = some 1 ∧
    geomean_many_to_few_atomic Real.log Real.exp [[1], [0]] [1, 0] (List.replicate 2 0) 2 =
      some 1 ∧
    (∀ any : List Nat, ∃ st,
      parallel_region (task_queue_pass Real.log (List.replicate 2 0) 2) 1 any = some st ∧
      st.answer = 0) ∧
    (∀ (any : List Nat) (x : ℝ),
      geomean_task_queue Real.log Real.exp 1 any (List.replicate 2 0) 2 = some x → x = 1) ∧
    geomean_task_queue Real.log Real.exp 1 (List.replicate (2 ^ 33) 0) (List.replicate 2 0) 2 =
      some 1 ∧
    (2 + 1 < 2 ^ 31 → ∀ any : List Nat, (∀ t : Nat, t < 1 → 2 + 1 < any.count t) →
      geomean_task_queue Real.log Real.exp 1 any (List.replicate 2 0) 2 = some 1) ∧
    (∀ any : List Nat, ∃ st,
      parallel_region (task_queue_large_pass Real.log (List.replicate 2 0) 2 ((100 : Nat) : Int))
        1 any = some st ∧
      st.answer = 0) ∧
    (∀ (any : List Nat) (x : ℝ),
      geomean_task_queue_large Real.log Real.exp 1 any (List.replicate 2 0) 2
        ((100 : Nat) : Int) = some x → x = 1) ∧
    geomean_task_queue_large Real.log Real.exp 1 (List.replicate (2 ^ 33) 0)
      (List.replicate 2 0) 2 ((100 : Nat) : Int) = some 1 ∧
    (((2 + 100 - 1) / 100 + 1) * 100 < 2 ^ 31 → ∀ any : List Nat,
      (∀ t : Nat, t < 1 → (2 + 100 - 1) / 100 + 1 < any.count t) →
      geomean_task_queue_large Real.log Real.exp 1 any (List.replicate 2 0) 2
        ((100 : Nat) : Int) = some 1)) :=
  have hfair : ∀ t : Nat, t < 1 →
      2 ^ 31 + (2 ^ 31 + 1) * 1 < (List.replicate (2 ^ 33) 0).count t := fun t ht => by
    have h0 : t = 0 := by omega
    rw [h0, List.count_replicate_self]
    norm_num
  ⟨by norm_num, by decide, by decide, by decide, by decide, by decide, hfair, by decide,
    by norm_num,
    all_zero_returns_one 2 (by norm_num) [[0], [1]] [[0, 1]] [[1], [0]] [1, 0]
      (by decide) (by decide) (by decide) (by decide)
      1 (List.replicate (2 ^ 33) 0) (by decide) hfair
      1 100 (List.replicate (2 ^ 33) 0) (by decide) (by decide) (by norm_num) hfair⟩

/-- C7, as the code has it: for every length `n ≥ 1` and every byte value `v` with
`1 ≤ v ≤ 255`, `geomean`, the statically scheduled strategies and the sequential scan return
`v` on the sequence of `n` copies of `v`, whatever the runtime's choices and however large
`n` is; the two cursor strategies return `v` for every number of threads and every
interleaving that lets each thread finish, provided the chunk size is `K ≥ 1` and the
cursor does not overflow `int` (`n + T < 2 ^ 31`, respectively
`(⌈n / K⌉ + T') * K < 2 ^ 31`). -/
theorem uniform_input_returns_value (v : Byte) (n : Nat) (hv : 1 ≤ v.val) (hn : 1 ≤ n)
    (chunks guided_chunks many_chunks : List (List Nat)) (order : List Nat)
    (hc : chunks.flatten.Perm (List.range n))
    (hg : guided_chunks.flatten.Perm (List.range n))
    (hm : many_chunks.flatten.Perm (List.range n))
    (ho : order.Perm (List.range many_chunks.length))
    (T : Nat) (sched : List Nat) (T' K : Nat) (sched' : List Nat) :
    v.val ≤ 255 ∧
    geomean Real.log Real.exp chunks (List.replicate n v) n = some (v.val : ℝ) ∧
    geomean_even_split Real.log Real.exp chunks (List.replicate n v) n = some (v.val : ℝ) ∧
    (1 ≤ T → n + T < 2 ^ 31 → (∀ t, t < T → n + T < sched.count t) →
      geomean_task_queue Real.log Real.exp T sched (List.replicate n v) n =
        some (v.val : ℝ)) ∧
    geomean_guided Real.log Real.exp guided_chunks (List.replicate n v) n =
      some (v.val : ℝ) ∧
    (1 ≤ T' → 1 ≤ K → ((n + K - 1) / K + T') * K < 2 ^ 31 →
      (∀ t, t < T' → (n + K - 1) / K + T' < sched'.count t) →
      geomean_task_queue_large Real.log Real.exp T' sched' (List.replicate n v) n (K : Int) =
        some (v.val : ℝ)) ∧
    geomean_atomic_non_parallel Real.log Real.exp (List.replicate n v) n = some (v.val : ℝ) ∧
    geomean_many_to_few_atomic Real.log Real.exp many_chunks order (List.replicate n v) n =
      some (v.val : ℝ) := by
  have hs : (List.replicate n v).length = n := List.length_replicate n v
  have hr := ref_uniform v n hv hn
  have hsplit : geomean_even_split Real.log Real.exp chunks (List.replicate n v) n =
      some (v.val : ℝ) := by
    rw [geomean_even_split_eq Real.log Real.exp chunks _ n hs hc, hr]
  refine ⟨by have := v.isLt; omega, hsplit, hsplit, fun hT hfit hfair => ?_, ?_,
    fun hT' hK hfit' hfair' => ?_, ?_, ?_⟩
  · rw [geomean_task_queue_total Real.log Real.exp _ n T hs hT hfit sched hfair, hr]
  · rw [geomean_guided_eq Real.log Real.exp guided_chunks _ n hs hg, hr]
  · rw [geomean_task_queue_large_total Real.log Real.exp _ n T' K hs hT' hK hfit' sched'
      hfair', hr]
  · rw [geomean_atomic_non_parallel_eq Real.log Real.exp _ n hs, hr]
  · rw [geomean_many_to_few_atomic_eq Real.log Real.exp many_chunks order _ n hs hm ho, hr]

theorem uniform_input_returns_value_witness :
    1 ≤ (7 : Byte).val ∧ 1 ≤ 3 ∧
    ([[0, 1], [2]] : List (List Nat)).flatten.Perm (List.range 3) ∧
    ([[0], [1], [2]] : List (List Nat)).flatten.Perm (List.range 3) ∧
    ([[2], [0, 1]] : List (List Nat)).flatten.Perm (List.range 3) ∧
    ([1, 0] : List Nat).Perm (List.range ([[2], [0, 1]] : List (List Nat)).length) ∧
    1 ≤ 2 ∧ 3 + 2 < 2 ^ 31 ∧
    (∀ t : Nat, t < 2 → 3 + 2 < ([0, 1, 0, 1, 0, 1, 0, 1, 0, 1, 0, 1] : List Nat).count t) ∧
    1 ≤ 3 ∧ 1 ≤ 2 ∧ ((3 + 2 - 1) / 2 + 3) * 2 < 2 ^ 31 ∧
    (∀ t : Nat, t < 3 → (3 + 2 - 1) / 2 + 3 <
      ([0, 1, 2, 0, 1, 2, 0, 1, 2, 0, 1, 2, 0, 1, 2, 0, 1, 2] : List Nat).count t) ∧
    ((7 : Byte).val ≤ 255 ∧
    geomean Real.log Real.exp [[0, 1], [2]] (List.replicate 3 7) 3 =
      some (((7 : Byte).val : Nat) : ℝ) ∧
    geomean_even_split Real.log Real.exp [[0, 1], [2]] (List.replicate 3 7) 3 =
      some (((7 : Byte).val : Nat) : ℝ) ∧
    geomean_task_queue Real.log Real.exp 2 [0, 1, 0, 1, 0, 1, 0, 1, 0, 1, 0, 1]
      (List.replicate 3 7) 3 = some (((7 : Byte).val : Nat) : ℝ) ∧
    geomean_guided Real.log Real.exp [[0], [1], [2]] (List.replicate 3 7) 3 =
      some (((7 : Byte).val : Nat) : ℝ) ∧
    geomean_task_queue_large Real.log Real.exp 3
      [0, 1, 2, 0, 1, 2, 0, 1, 2, 0, 1, 2, 0, 1, 2, 0, 1, 2] (List.replicate 3 7) 3
      ((2 : Nat) : Int) = some (((7 : Byte).val : Nat) : ℝ) ∧
    geomean_atomic_non_parallel Real.log Real.exp (List.replicate 3 7) 3 =
      some (((7 : Byte).val : Nat) : ℝ) ∧
    geomean_many_to_few_atomic Real.log Real.exp [[2], [0, 1]] [1, 0] (List.replicate 3 7) 3 =
      some (((7 : Byte).val : Nat) : ℝ)) :=
  have h := uniform_input_returns_value 7 3 (by decide) (by decide)
    [[0, 1], [2]] [[0], [1], [2]] [[2], [0, 1]] [1, 0]
    (by decide) (by decide) (by decide) (by decide)
    2 [0, 1, 0, 1, 0, 1, 0, 1, 0, 1, 0, 1]
    3 2 [0, 1, 2, 0, 1, 2, 0, 1, 2, 0, 1, 2, 0, 1, 2, 0, 1, 2]
  ⟨by decide, by decide, by decide, by decide, by decide, by decide, by decide, by decide,
    by decide, by decide, by decide, by decide, by decide,
    h.1, h.2.1, h.2.2.1, h.2.2.2.1 (by decide) (by decide) (by decide), h.2.2.2.2.1,
    h.2.2.2.2.2.1 (by decide) (by decide) (by decide) (by decide), h.2.2.2.2.2.2.1,
    h.2.2.2.2.2.2.2⟩

/-- C7 fails as stated.  On the uniform input of one copy of `5`, `geomean_task_queue_large`
with `K = 2 ^ 30` and four threads returns `25`, not `5`: the cursor overflows `int`, comes
back to `2 ^ 30`, and index `0` is processed twice. -/
theorem uniform_input_overflow :
    geomean_task_queue_large Real.log Real.exp 4 [0, 0, 1, 2, 3, 3, 0, 1, 2, 3]
      (List.replicate 1 5) 1 (2 ^ 30) = some 25 ∧
    geomean_task_queue_large Real.log Real.exp 4 [0, 0, 1, 2, 3, 3, 0, 1, 2, 3]
      (List.replicate 1 5) 1 (2 ^ 30) ≠ some (((5 : Byte).val : Nat) : ℝ) := by
  have h1 : geomean_task_queue_large Real.log Real.exp 4 [0, 0, 1, 2, 3, 3, 0, 1, 2, 3]
      (List.replicate 1 5) 1 (2 ^ 30) = some 25 := by
    have h : geomean_task_queue_large Real.log Real.exp 4 [0, 0, 1, 2, 3, 3, 0, 1, 2, 3]
        (List.replicate 1 5) 1 (2 ^ 30) =
        some (Real.exp (0 + (0 + Real.log ((5 : Nat) : ℝ) / ((1 : Nat) : ℝ)) + 0 + 0
          + (0 + Real.log ((5 : Nat) : ℝ) / ((1 : Nat) : ℝ)))) := rfl
    rw [h]
    congr 1
    simp only [zero_add, add_zero, Nat.cast_ofNat, Nat.cast_one, div_one]
    rw [Real.exp_add, Real.exp_log (by norm_num)]
    norm_num
  refine ⟨h1, ?_⟩
  rw [h1]
  intro h
  have h5 : (5 : Byte).val = 5 := rfl
  have := Option.some.inj h
  rw [h5] at this
  norm_num at this

/-- C8, as the code has it: on the bytes `[2, 4, 8]` with `n = 3` the loop body adds
`ln 2 / 3`, `ln 4 / 3` and `ln 8 / 3`, and `geomean` and each of the six strategies return
`4`, whatever the runtime's choices; for the two cursor strategies this needs a chunk size
`K ≥ 1` and cursors that do not overflow `int` (`3 + T < 2 ^ 31`, respectively
`(⌈3 / K⌉ + T') * K < 2 ^ 31`). -/
theorem concrete_scenario_returns_four
    (chunks guided_chunks many_chunks : List (List Nat)) (order : List Nat)
    (hc : chunks.flatten.Perm (List.range 3))
    (hg : guided_chunks.flatten.Perm (List.range 3))
    (hm : many_chunks.flatten.Perm (List.range 3))
    (ho : order.Perm (List.range many_chunks.length))
    (T : Nat) (sched : List Nat) (hT : 1 ≤ T) (hfit : 3 + T < 2 ^ 31)
    (hfair : ∀ t, t < T → 3 + T < sched.count t)
    (T' K : Nat) (sched' : List Nat) (hT' : 1 ≤ T') (hK : 1 ≤ K)
    (hfit' : ((3 + K - 1) / K + T') * K < 2 ^ 31)
    (hfair' : ∀ t, t < T' → (3 + K - 1) / K + T' < sched'.count t) :
    (∀ acc : ℝ,
      loop_body Real.log [2, 4, 8] 3 acc 0 = some (acc + Real.log 2 / 3) ∧
      loop_body Real.log [2, 4, 8] 3 acc 1 = some (acc + Real.log 4 / 3) ∧
      loop_body Real.log [2, 4, 8] 3 acc 2 = some (acc + Real.log 8 / 3)) ∧
    geomean Real.log Real.exp chunks [2, 4, 8] 3 = some 4 ∧
    geomean_even_split Real.log Real.exp chunks [2, 4, 8] 3 = some 4 ∧
    geomean_task_queue Real.log Real.exp T sched [2, 4, 8] 3 = some 4 ∧
    geomean_guided Real.log Real.exp guided_chunks [2, 4, 8] 3 = some 4 ∧
    geomean_task_queue_large Real.log Real.exp T' sched' [2, 4, 8] 3 (K : Int) = some 4 ∧
    geomean_atomic_non_parallel Real.log Real.exp [2, 4, 8] 3 = some 4 ∧
    geomean_many_to_few_atomic Real.log Real.exp many_chunks order [2, 4, 8] 3 = some 4 := by
  refine ⟨fun acc => ?_,
    six_strategies_eq Real.log Real.exp [2, 4, 8] 3 rfl chunks guided_chunks many_chunks order
      hc hg hm ho T sched hT hfit hfair T' K sched' hT' hK hfit' hfair' 4 ref_248⟩
  have h2 : (2 : Byte).val = 2 := rfl
  have h4 : (4 : Byte).val = 4 := rfl
  have h8 : (8 : Byte).val = 8 := rfl
  refine ⟨?_, ?_, ?_⟩
  · simp [loop_body, h2]
  · simp [loop_body, h4]
  · simp [loop_body, h8]

theorem concrete_scenario_returns_four_witness :
    ([[0, 1], [2]] : List (List Nat)).flatten.Perm (List.range 3) ∧
    ([[0], [1], [2]] : List (List Nat)).flatten.Perm (List.range 3) ∧
    ([[2], [0, 1]] : List (List Nat)).flatten.Perm (List.range 3) ∧
    ([1, 0] : List Nat).Perm (List.range ([[2], [0, 1]] : List (List Nat)).length) ∧
    1 ≤ 4 ∧ 3 + 4 < 2 ^ 31 ∧
    (∀ t : Nat, t < 4 → 3 + 4 < (List.replicate 8 [0, 1, 2, 3]).flatten.count t) ∧
    1 ≤ 2 ∧ 1 ≤ 100 ∧ ((3 + 100 - 1) / 100 + 2) * 100 < 2 ^ 31 ∧
    (∀ t : Nat, t < 2 → (3 + 100 - 1) / 100 + 2 <
      ([1, 0, 1, 0, 1, 0, 1, 0] : List Nat).count t) ∧
    ((∀ acc : ℝ,
      loop_body Real.log [2, 4, 8] 3 acc 0 = some (acc + Real.log 2 / 3) ∧
      loop_body Real.log [2, 4, 8] 3 acc 1 = some (acc + Real.log 4 / 3) ∧
      loop_body Real.log [2, 4, 8] 3 acc 2 = some (acc + Real.log 8 / 3)) ∧
    geomean Real.log Real.exp [[0, 1], [2]] [2, 4, 8] 3 = some 4 ∧
    geomean_even_split Real.log Real.exp [[0, 1], [2]] [2, 4, 8] 3 = some 4 ∧
    geomean_task_queue Real.log Real.exp 4 (List.replicate 8 [0, 1, 2, 3]).flatten
      [2, 4, 8] 3 = some 4 ∧
    geomean_guided Real.log Real.exp [[0], [1], [2]] [2, 4, 8] 3 = some 4 ∧
    geomean_task_queue_large Real.log Real.exp 2 [1, 0, 1, 0, 1, 0, 1, 0] [2, 4, 8] 3
      ((100 : Nat) : Int) = some 4 ∧
    geomean_atomic_non_parallel Real.log Real.exp [2, 4, 8] 3 = some 4 ∧
    geomean_many_to_few_atomic Real.log Real.exp [[2], [0, 1]] [1, 0] [2, 4, 8] 3 = some 4) :=
  ⟨by decide, by decide, by decide, by decide, by decide, by decide, by decide, by decide,
    by decide, by decide, by decide,
    concrete_scenario_returns_four [[0, 1], [2]] [[0], [1], [2]] [[2], [0, 1]] [1, 0]
      (by decide) (by decide) (by decide) (by decide)
      4 (List.replicate 8 [0, 1, 2, 3]).flatten (by decide) (by decide) (by decide)
      2 100 [1, 0, 1, 0, 1, 0, 1, 0] (by decide) (by decide) (by decide) (by decide)⟩

/-- C8 fails as stated.  On `[2, 4, 8]`, `geomean_task_queue_large` with `K = 2 ^ 30` and
four threads returns `16`, not `4`: the cursor overflows `int`, comes back to `2 ^ 30`, and
the block `[0, 3)` is processed twice. -/
theorem concrete_scenario_overflow :
    geomean_task_queue_large Real.log Real.exp 4 [0, 0, 1, 2, 3, 3, 0, 1, 2, 3] [2, 4, 8] 3
      (2 ^ 30) = some 16 ∧
    geomean_task_queue_large Real.log Real.exp 4 [0, 0, 1, 2, 3, 3, 0, 1, 2, 3] [2, 4, 8] 3
      (2 ^ 30) ≠ some 4 := by
  have h1 : geomean_task_queue_large Real.log Real.exp 4 [0, 0, 1, 2, 3, 3, 0, 1, 2, 3]
      [2, 4, 8] 3 (2 ^ 30) = some 16 := by
    have h : geomean_task_queue_large Real.log Real.exp 4 [0, 0, 1, 2, 3, 3, 0, 1, 2, 3]
        [2, 4, 8] 3 (2 ^ 30) =
        some (Real.exp (0 + (0 + Real.log ((2 : Nat) : ℝ) / ((3 : Nat) : ℝ)
            + Real.log ((4 : Nat) : ℝ) / ((3 : Nat) : ℝ)
            + Real.log ((8 : Nat) : ℝ) / ((3 : Nat) : ℝ)) + 0 + 0
          + (0 + Real.log ((2 : Nat) : ℝ) / ((3 : Nat) : ℝ)
            + Real.log ((4 : Nat) : ℝ) / ((3 : Nat) : ℝ)
            + Real.log ((8 : Nat) : ℝ) / ((3 : Nat) : ℝ)))) := rfl
    have l4 : Real.log 4 = 2 * Real.log 2 := by
      rw [show (4 : ℝ) = 2 ^ 2 by norm_num, Real.log_pow]; norm_num
    have l8 : Real.log 8 = 3 * Real.log 2 := by
      rw [show (8 : ℝ) = 2 ^ 3 by norm_num, Real.log_pow]; norm_num
    have l16 : Real.log 16 = 4 * Real.log 2 := by
      rw [show (16 : ℝ) = 2 ^ 4 by norm_num, Real.log_pow]; norm_num
    rw [h]
    congr 1
    simp only [zero_add, add_zero, Nat.cast_ofNat]
    rw [show Real.log 2 / 3 + Real.log 4 / 3 + Real.log 8 / 3
        + (Real.log 2 / 3 + Real.log 4 / 3 + Real.log 8 / 3) = Real.log 16 by
      rw [l4, l8, l16]; ring]
    exact Real.exp_log (by norm_num)
  refine ⟨h1, ?_⟩
  rw [h1]
  intro h
  have := Option.some.inj h
  norm_num at this

/-- C9, as the code has it: for every input, however long, the loop body takes the logarithm
only of a byte in `[1, 255]`, and what it adds lies in `[0, ln 255 / n]`; the running sum of
every thread of a statically scheduled loop and the final accumulator of the statically
scheduled strategies and of the sequential scan lie in `[0, ln 255]`, and the result of
`geomean`, of the statically scheduled strategies and of the sequential scan lies in
`[1, 255]`.  The same bounds hold for the accumulator and the result of the two cursor
strategies, for every number of threads and every interleaving that lets each thread
finish, provided the chunk size is `K ≥ 1` and the cursor does not overflow `int`
(`n + T < 2 ^ 31`, respectively `(⌈n / K⌉ + T') * K < 2 ^ 31`). -/
theorem results_within_byte_range (s : List Byte) (n : Nat) (hs : s.length = n)
    (chunks guided_chunks many_chunks : List (List Nat)) (order : List Nat)
    (hc : chunks.flatten.Perm (List.range n))
    (hg : guided_chunks.flatten.Perm (List.range n))
    (hm : many_chunks.flatten.Perm (List.range n))
    (ho : order.Perm (List.range many_chunks.length))
    (T : Nat) (sched : List Nat) (T' K : Nat) (sched' : List Nat) :
    (∀ i, i < n → ∀ acc : ℝ, ∃ b : Byte, s[i]? = some b ∧
      ((b.val = 0 ∧ loop_body Real.log s n acc i = some acc) ∨
        (1 ≤ b.val ∧ b.val ≤ 255 ∧
          loop_body Real.log s n acc i = some (acc + Real.log (b.val : ℝ) / (n : ℝ)) ∧
          0 ≤ Real.log (b.val : ℝ) / (n : ℝ) ∧
          Real.log (b.val : ℝ) / (n : ℝ) ≤ Real.log 255 / (n : ℝ)))) ∧
    (∀ c ∈ chunks ++ guided_chunks ++ many_chunks,
      ∃ a, run_chunk Real.log s n 0 c = some a ∧ 0 ≤ a ∧ a ≤ Real.log 255) ∧
    (∃ a, omp_for_reduction Real.log chunks s n 0 = some a ∧ 0 ≤ a ∧ a ≤ Real.log 255) ∧
    (∃ a, omp_for_reduction Real.log guided_chunks s n 0 = some a ∧
      0 ≤ a ∧ a ≤ Real.log 255) ∧
    (∃ a, (List.range n).foldlM (loop_body Real.log s n) 0 = some a ∧
      0 ≤ a ∧ a ≤ Real.log 255) ∧
    (1 ≤ T → n + T < 2 ^ 31 → (∀ t, t < T → n + T < sched.count t) →
      ∃ st, parallel_region (task_queue_pass Real.log s n) T sched = some st ∧
        0 ≤ st.answer ∧ st.answer ≤ Real.log 255) ∧
    (1 ≤ T' → 1 ≤ K → ((n + K - 1) / K + T') * K < 2 ^ 31 →
      (∀ t, t < T' → (n + K - 1) / K + T' < sched'.count t) →
      ∃ st, parallel_region (task_queue_large_pass Real.log s n (K : Int)) T' sched' =
          some st ∧
        0 ≤ st.answer ∧ st.answer ≤ Real.log 255) ∧
    (∃ r, geomean Real.log Real.exp chunks s n = some r ∧ 1 ≤ r ∧ r ≤ 255) ∧
    (∃ r, geomean_even_split Real.log Real.exp chunks s n = some r ∧ 1 ≤ r ∧ r ≤ 255) ∧
    (1 ≤ T → n + T < 2 ^ 31 → (∀ t, t < T → n + T < sched.count t) →
      ∃ r, geomean_task_queue Real.log Real.exp T sched s n = some r ∧ 1 ≤ r ∧ r ≤ 255) ∧
    (∃ r, geomean_guided Real.log Real.exp guided_chunks s n = some r ∧ 1 ≤ r ∧ r ≤ 255) ∧
    (1 ≤ T' → 1 ≤ K → ((n + K - 1) / K + T') * K < 2 ^ 31 →
      (∀ t, t < T' → (n + K - 1) / K + T' < sched'.count t) →
      ∃ r, geomean_task_queue_large Real.log Real.exp T' sched' s n (K : Int) = some r ∧
        1 ≤ r ∧ r ≤ 255) ∧
    (∃ r, geomean_atomic_non_parallel Real.log Real.exp s n = some r ∧ 1 ≤ r ∧ r ≤ 255) ∧
    (∃ r, geomean_many_to_few_atomic Real.log Real.exp many_chunks order s n = some r ∧
      1 ≤ r ∧ r ≤ 255) := by
  have h0 := ref_nonneg s n
  have h1 := ref_le s n
  have hr := exp_bounds _ h0 h1
  have e2 := geomean_even_split_eq Real.log Real.exp chunks s n hs hc
  have hchunk : ∀ (cs : List (List Nat)), cs.flatten.Perm (List.range n) → ∀ c ∈ cs,
      ∃ a, run_chunk Real.log s n 0 c = some a ∧ 0 ≤ a ∧ a ≤ Real.log 255 := by
    intro cs hcs c hcm
    have hsub := List.sublist_flatten_of_mem hcm
    have hnd : c.Nodup := hsub.nodup ((hcs.nodup_iff).2 (List.nodup_range n))
    have hlt : ∀ i ∈ c, i < n := fun i hi =>
      List.mem_range.1 ((hcs.mem_iff).1 (hsub.subset hi))
    refine ⟨_, run_chunk_eq Real.log s n c 0 (fun i hi => by rw [hs]; exact hlt i hi), ?_⟩
    rw [zero_add]
    exact nodup_sum_bounds s n c hnd hlt
  refine ⟨fun i hi acc => ?_, fun c hcm => ?_,
    ⟨_, omp_for_reduction_eq Real.log chunks s n hs hc, h0, h1⟩,
    ⟨_, omp_for_reduction_eq Real.log guided_chunks s n hs hg, h0, h1⟩, ?_,
    fun hT hfit hfair => ?_, fun hT' hK hfit' hfair' => ?_,
    ⟨_, e2, hr⟩, ⟨_, e2, hr⟩,
    fun hT hfit hfair =>
      ⟨_, geomean_task_queue_total Real.log Real.exp s n T hs hT hfit sched hfair, hr⟩,
    ⟨_, geomean_guided_eq Real.log Real.exp guided_chunks s n hs hg, hr⟩,
    fun hT' hK hfit' hfair' =>
      ⟨_, geomean_task_queue_large_total Real.log Real.exp s n T' K hs hT' hK hfit' sched'
        hfair', hr⟩,
    ⟨_, geomean_atomic_non_parallel_eq Real.log Real.exp s n hs, hr⟩,
    ⟨_, geomean_many_to_few_atomic_eq Real.log Real.exp many_chunks order s n hs hm ho, hr⟩⟩
  · have hil : i < s.length := by omega
    refine ⟨s[i], List.getElem?_eq_getElem hil, ?_⟩
    unfold loop_body
    rw [List.getElem?_eq_getElem hil]
    by_cases hb : 0 < (s[i]).val
    · right
      have hle : (s[i]).val ≤ 255 := by have := (s[i]).isLt; omega
      refine ⟨hb, hle, by simp [hb],
        div_nonneg (Real.log_nonneg (by exact_mod_cast hb)) (Nat.cast_nonneg n),
        term_le _ n hb⟩
    · left
      exact ⟨by omega, by simp [hb]⟩
  · rcases List.mem_append.1 hcm with h | h
    · rcases List.mem_append.1 h with h | h
      · exact hchunk chunks hc c h
      · exact hchunk guided_chunks hg c h
    · exact hchunk many_chunks hm c h
  · have := run_chunk_eq Real.log s n (List.range n) 0
      (fun i hi => by rw [hs]; exact List.mem_range.1 hi)
    unfold run_chunk at this
    refine ⟨_, this, ?_⟩
    rw [zero_add, sum_range_eq_filter]
    exact ⟨h0, h1⟩
  · obtain ⟨st, hst, hinv⟩ := task_queue_region Real.log s n T hs hfit sched
    have hd := inv_fair_done _ _ 1 n T sched st hinv (by simpa using hfair)
    refine ⟨st, hst, ?_⟩
    rw [(inv_done _ _ 1 n T (le_refl 1) hT sched st hinv hd).2.2.2.2, sum_range_eq_filter]
    exact ⟨h0, h1⟩
  · obtain ⟨st, hst, hinv⟩ := task_queue_large_region Real.log s n T' K hs hK hfit' sched'
    have hd := inv_fair_done _ _ K n T' sched' st hinv hfair'
    refine ⟨st, hst, ?_⟩
    rw [(inv_done _ _ K n T' hK hT' sched' st hinv hd).2.2.2.2, sum_range_eq_filter]
    exact ⟨h0, h1⟩

theorem results_within_byte_range_witness :
    ([255, 0, 7] : List Byte).length = 3 ∧
    ([[0, 1], [2]] : List (List Nat)).flatten.Perm (List.range 3) ∧
    ([[0], [1], [2]] : List (List Nat)).flatten.Perm (List.range 3) ∧
    ([[2], [0, 1]] : List (List Nat)).flatten.Perm (List.range 3) ∧
    ([1, 0] : List Nat).Perm (List.range ([[2], [0, 1]] : List (List Nat)).length) ∧
    1 ≤ 2 ∧ 3 + 2 < 2 ^ 31 ∧
    (∀ t : Nat, t < 2 → 3 + 2 < ([0, 1, 0, 1, 0, 1, 0, 1, 0, 1, 0, 1] : List Nat).count t) ∧
    1 ≤ 3 ∧ 1 ≤ 2 ∧ ((3 + 2 - 1) / 2 + 3) * 2 < 2 ^ 31 ∧
    (∀ t : Nat, t < 3 → (3 + 2 - 1) / 2 + 3 <
      ([0, 1, 2, 0, 1, 2, 0, 1, 2, 0, 1, 2, 0, 1, 2, 0, 1, 2] : List Nat).count t) ∧
    ((∀ i : Nat, i < 3 → ∀ acc : ℝ, ∃ b : Byte, ([255, 0, 7] : List Byte)[i]? = some b ∧
      ((b.val = 0 ∧ loop_body Real.log [255, 0, 7] 3 acc i = some acc) ∨
        (1 ≤ b.val ∧ b.val ≤ 255 ∧
          loop_body Real.log [255, 0, 7] 3 acc i =
            some (acc + Real.log (b.val : ℝ) / ((3 : Nat) : ℝ)) ∧
          0 ≤ Real.log (b.val : ℝ) / ((3 : Nat) : ℝ) ∧
          Real.log (b.val : ℝ) / ((3 : Nat) : ℝ) ≤ Real.log 255 / ((3 : Nat) : ℝ)))) ∧
    (∀ c ∈ [[0, 1], [2]] ++ [[0], [1], [2]] ++ [[2], [0, 1]],
      ∃ a, run_chunk Real.log [255, 0, 7] 3 0 c = some a ∧ 0 ≤ a ∧ a ≤ Real.log 255) ∧
    (∃ a, omp_for_reduction Real.log [[0, 1], [2]] [255, 0, 7] 3 0 = some a ∧
      0 ≤ a ∧ a ≤ Real.log 255) ∧
    (∃ a, omp_for_reduction Real.log [[0], [1], [2]] [255, 0, 7] 3 0 = some a ∧
      0 ≤ a ∧ a ≤ Real.log 255) ∧
    (∃ a, (List.range 3).foldlM (loop_body Real.log [255, 0, 7] 3) 0 = some a ∧
      0 ≤ a ∧ a ≤ Real.log 255) ∧
    (∃ st, parallel_region (task_queue_pass Real.log [255, 0, 7] 3) 2
        [0, 1, 0, 1, 0, 1, 0, 1, 0, 1, 0, 1] = some st ∧
      0 ≤ st.answer ∧ st.answer ≤ Real.log 255) ∧
    (∃ st, parallel_region (task_queue_large_pass Real.log [255, 0, 7] 3 ((2 : Nat) : Int)) 3
        [0, 1, 2, 0, 1, 2, 0, 1, 2, 0, 1, 2, 0, 1, 2, 0, 1, 2] = some st ∧
      0 ≤ st.answer ∧ st.answer ≤ Real.log 255) ∧
    (∃ r, geomean Real.log Real.exp [[0, 1], [2]] [255, 0, 7] 3 = some r ∧ 1 ≤ r ∧ r ≤ 255) ∧
    (∃ r, geomean_even_split Real.log Real.exp [[0, 1], [2]] [255, 0, 7] 3 = some r ∧
      1 ≤ r ∧ r ≤ 255) ∧
    (∃ r, geomean_task_queue Real.log Real.exp 2 [0, 1, 0, 1, 0, 1, 0, 1, 0, 1, 0, 1]
        [255, 0, 7] 3 = some r ∧
      1 ≤ r ∧ r ≤ 255) ∧
    (∃ r, geomean_guided Real.log Real.exp [[0], [1], [2]] [255, 0, 7] 3 = some r ∧
      1 ≤ r ∧ r ≤ 255) ∧
    (∃ r, geomean_task_queue_large Real.log Real.exp 3
        [0, 1, 2, 0, 1, 2, 0, 1, 2, 0, 1, 2, 0, 1, 2, 0, 1, 2] [255, 0, 7] 3
        ((2 : Nat) : Int) = some r ∧
      1 ≤ r ∧ r ≤ 255) ∧
    (∃ r, geomean_atomic_non_parallel Real.log Real.exp [255, 0, 7] 3 = some r ∧
      1 ≤ r ∧ r ≤ 255) ∧
    (∃ r, geomean_many_to_few_atomic Real.log Real.exp [[2], [0, 1]] [1, 0] [255, 0, 7] 3 =
        some r ∧
      1 ≤ r ∧ r ≤ 255)) :=
  have h := results_within_byte_range [255, 0, 7] 3 rfl
    [[0, 1], [2]] [[0], [1], [2]] [[2], [0, 1]] [1, 0]
    (by decide) (by decide) (by decide) (by decide)
    2 [0, 1, 0, 1, 0, 1, 0, 1, 0, 1, 0, 1]
    3 2 [0, 1, 2, 0, 1, 2, 0, 1, 2, 0, 1, 2, 0, 1, 2, 0, 1, 2]
  ⟨rfl, by decide, by decide, by decide, by decide, by decide, by decide, by decide,
    by decide, by decide, by decide, by decide,
    h.1, h.2.1, h.2.2.1, h.2.2.2.1, h.2.2.2.2.1,
    h.2.2.2.2.2.1 (by decide) (by decide) (by decide),
    h.2.2.2.2.2.2.1 (by decide) (by decide) (by decide) (by decide),
    h.2.2.2.2.2.2.2.1, h.2.2.2.2.2.2.2.2.1,
    h.2.2.2.2.2.2.2.2.2.1 (by decide) (by decide) (by decide),
    h.2.2.2.2.2.2.2.2.2.2.1,
    h.2.2.2.2.2.2.2.2.2.2.2.1 (by decide) (by decide) (by decide) (by decide),
    h.2.2.2.2.2.2.2.2.2.2.2.2.1, h.2.2.2.2.2.2.2.2.2.2.2.2.2⟩

/-- C9 fails as stated.  On the one-byte input `[255]`, `geomean_task_queue_large` with
`K = 2 ^ 30` and four threads ends with the accumulator `2 ln 255 > ln 255` and returns
`65025 > 255`: the cursor overflows `int`, comes back to `2 ^ 30`, and index `0` is processed
twice. -/
theorem result_out_of_byte_range :
    (parallel_region (task_queue_large_pass Real.log [255] 1 (2 ^ 30)) 4
        [0, 0, 1, 2, 3, 3, 0, 1, 2, 3]).map (fun st => st.answer) =
      some (0 + (0 + Real.log ((255 : Nat) : ℝ) / ((1 : Nat) : ℝ)) + 0 + 0
        + (0 + Real.log ((255 : Nat) : ℝ) / ((1 : Nat) : ℝ))) ∧
    Real.log 255 < 0 + (0 + Real.log ((255 : Nat) : ℝ) / ((1 : Nat) : ℝ)) + 0 + 0
        + (0 + Real.log ((255 : Nat) : ℝ) / ((1 : Nat) : ℝ)) ∧
    geomean_task_queue_large Real.log Real.exp 4 [0, 0, 1, 2, 3, 3, 0, 1, 2, 3] [255] 1
      (2 ^ 30) = some 65025 ∧
    (255 : ℝ) < 65025 := by
  refine ⟨rfl, ?_, ?_, by norm_num⟩
  · have hpos : 0 < Real.log 255 := Real.log_pos (by norm_num)
    simp only [zero_add, add_zero, Nat.cast_ofNat, Nat.cast_one, div_one]
    linarith
  · have h : geomean_task_queue_large Real.log Real.exp 4 [0, 0, 1, 2, 3, 3, 0, 1, 2, 3]
        [255] 1 (2 ^ 30) =
        some (Real.exp (0 + (0 + Real.log ((255 : Nat) : ℝ) / ((1 : Nat) : ℝ)) + 0 + 0
          + (0 + Real.log ((255 : Nat) : ℝ) / ((1 : Nat) : ℝ)))) := rfl
    rw [h]
    congr 1
    simp only [zero_add, add_zero, Nat.cast_ofNat, Nat.cast_one, div_one]
    rw [Real.exp_add, Real.exp_log (by norm_num)]
    norm_num

/-- C18: `geomean_task_queue_large` needs a positive chunk size.  For `K = 0` and every
`n ≥ 1`, a pass that finds the cursor at `0` leaves it at `0`, does not break and processes no
index; hence for every number of threads `T ≥ 1` and every interleaving the cursor stays `0`,
every thread stays inside its claim loop with `local_sum = 0`, nothing is merged into
`answer`, and the call returns under no interleaving, however long. -/
theorem zero_chunk_never_returns (s : List Byte) (n T : Nat) (hn : 1 ≤ n) (hT : 1 ≤ T)
    (sched : List Nat) :
    (∀ l : ℝ, task_queue_large_pass Real.log s n 0 0 l = some ⟨0, 0, some (l, [])⟩) ∧
    (∃ st, parallel_region (task_queue_large_pass Real.log s n 0) T sched = some st ∧
      st.index = 0 ∧ st.answer = 0 ∧ st.workers.length = T ∧ st.done = false ∧
      ∀ w ∈ st.workers, w.pc = .claiming ∧ w.local_sum = 0 ∧ w.processed = []) ∧
    geomean_task_queue_large Real.log Real.exp T sched s n 0 = none := by
  refine ⟨fun l => task_queue_large_pass_stuck Real.log s n hn l, ?_,
    geomean_task_queue_large_zero Real.log Real.exp s n hn T hT sched⟩
  obtain ⟨st, hst, hidx, hans, hlen, hws⟩ :=
    task_queue_large_zero_region Real.log s n hn T sched
  refine ⟨st, hst, hidx, hans, hlen, ?_, hws⟩
  cases hd : st.done with
  | false => rfl
  | true =>
    exfalso
    have hne : st.workers ≠ [] := by
      intro h
      rw [h] at hlen
      simp at hlen
      omega
    obtain ⟨w, hw⟩ := List.exists_mem_of_ne_nil _ hne
    have h1 := (done_iff st).1 hd w hw
    rw [(hws w hw).1] at h1
    cases h1

theorem zero_chunk_never_returns_witness :
    1 ≤ 3 ∧ 1 ≤ 2 ∧
    ((∀ l : ℝ, task_queue_large_pass Real.log [2, 4, 8] 3 0 0 l = some ⟨0, 0, some (l, [])⟩) ∧
    (∃ st, parallel_region (task_queue_large_pass Real.log [2, 4, 8] 3 0) 2
        [0, 1, 1, 0, 0, 1] = some st ∧
      st.index = 0 ∧ st.answer = 0 ∧ st.workers.length = 2 ∧ st.done = false ∧
      ∀ w ∈ st.workers, w.pc = .claiming ∧ w.local_sum = 0 ∧ w.processed = []) ∧
    geomean_task_queue_large Real.log Real.exp 2 [0, 1, 1, 0, 0, 1] [2, 4, 8] 3 0 = none) :=
  ⟨by decide, by decide,
    zero_chunk_never_returns [2, 4, 8] 3 2 (by decide) (by decide) [0, 1, 1, 0, 0, 1]⟩

/-- C16: zero bytes are indistinguishable from one bytes.  For every buffer `s` and length
`n`, replacing every byte equal to `0` by `1` changes nothing in what the loop body does
(`ln 1 / n = 0` is added instead of nothing), hence nothing in the result of `geomean` and of
each of the six strategies, whatever the assignment of iterations, the merge order, the
number of threads, the interleaving and the chunk size. -/
theorem zero_bytes_as_one_bytes (s : List Byte) (n : Nat) (chunks : List (List Nat))
    (order : List Nat) (T : Nat) (sched : List Nat) (K : Int) :
    loop_body Real.log (s.map fun b => if b = 0 then 1 else b) n = loop_body Real.log s n ∧
    geomean Real.log Real.exp chunks (s.map fun b => if b = 0 then 1 else b) n =
      geomean Real.log Real.exp chunks s n ∧
    geomean_even_split Real.log Real.exp chunks (s.map fun b => if b = 0 then 1 else b) n =
      geomean_even_split Real.log Real.exp chunks s n ∧
    geomean_task_queue Real.log Real.exp T sched (s.map fun b => if b = 0 then 1 else b) n =
      geomean_task_queue Real.log Real.exp T sched s n ∧
    geomean_guided Real.log Real.exp chunks (s.map fun b => if b = 0 then 1 else b) n =
      geomean_guided Real.log Real.exp chunks s n ∧
    geomean_task_queue_large Real.log Real.exp T sched
        (s.map fun b => if b = 0 then 1 else b) n K =
      geomean_task_queue_large Real.log Real.exp T sched s n K ∧
    geomean_atomic_non_parallel Real.log Real.exp (s.map fun b => if b = 0 then 1 else b) n =
      geomean_atomic_non_parallel Real.log Real.exp s n ∧
    geomean_many_to_few_atomic Real.log Real.exp chunks order
        (s.map fun b => if b = 0 then 1 else b) n =
      geomean_many_to_few_atomic Real.log Real.exp chunks order s n := by
  have hb := loop_body_zero_one s n
  have hr : run_chunk Real.log (s.map fun b => if b = 0 then 1 else b) n =
      run_chunk Real.log s n := by
    funext acc chunk
    unfold run_chunk
    rw [hb]
  have ho : omp_for_reduction Real.log chunks (s.map fun b => if b = 0 then 1 else b) n =
      omp_for_reduction Real.log chunks s n := by
    funext answer
    unfold omp_for_reduction
    rw [hr]
  refine ⟨hb, ?_, ?_, ?_, ?_, ?_, ?_, ?_⟩
  · unfold geomean geomean_even_split; rw [ho]
  · unfold geomean_even_split; rw [ho]
  · unfold geomean_task_queue; rw [task_queue_pass_zero_one]
  · unfold geomean_guided; rw [ho]
  · unfold geomean_task_queue_large; rw [task_queue_large_pass_zero_one]
  · unfold geomean_atomic_non_parallel; rw [hb]
  · unfold geomean_many_to_few_atomic; rw [hr]

/-- C17: the result does not depend on the order of the bytes.  For every sequence `s` of
length `n` and every permutation `s'` of `s`, `geomean` (whatever the assignment of
iterations to threads in each of the two calls) and the sequential scan
`geomean_atomic_non_parallel` return on `s'` the value they return on `s`, over the reals. -/
theorem permutation_invariance (s s' : List Byte) (n : Nat) (hs : s.length = n)
    (hp : s'.Perm s) (chunks chunks' : List (List Nat))
    (hc : chunks.flatten.Perm (List.range n)) (hc' : chunks'.flatten.Perm (List.range n)) :
    ∃ v : ℝ, geomean Real.log Real.exp chunks s n = some v ∧
      geomean Real.log Real.exp chunks' s' n = some v ∧
      geomean_atomic_non_parallel Real.log Real.exp s n = some v ∧
      geomean_atomic_non_parallel Real.log Real.exp s' n = some v := by
  have hs' : s'.length = n := hp.length_eq.trans hs
  refine ⟨_, geomean_even_split_eq Real.log Real.exp chunks s n hs hc, ?_,
    geomean_atomic_non_parallel_eq Real.log Real.exp s n hs, ?_⟩
  · rw [← sum_filter_perm Real.log s s' n hs hp]
    exact geomean_even_split_eq Real.log Real.exp chunks' s' n hs' hc'
  · rw [← sum_filter_perm Real.log s s' n hs hp]
    exact geomean_atomic_non_parallel_eq Real.log Real.exp s' n hs'

/-- C17, at a concrete input: the bytes `2, 4, 8` and their reordering `8, 2, 4`, one thread
in the first call and two in the second. -/
theorem permutation_invariance_witness :
    ∃ v : ℝ, geomean Real.log Real.exp [[0, 1, 2]] [2, 4, 8] 3 = some v ∧
      geomean Real.log Real.exp [[2], [0, 1]] [8, 2, 4] 3 = some v ∧
      geomean_atomic_non_parallel Real.log Real.exp [2, 4, 8] 3 = some v ∧
      geomean_atomic_non_parallel Real.log Real.exp [8, 2, 4] 3 = some v :=
  permutation_invariance [2, 4, 8] [8, 2, 4] 3 rfl (by decide) [[0, 1, 2]] [[2], [0, 1]]
    (by decide) (by decide)

/-- C15: the loader of `main` does not append an argument that names no readable file.  With
the file system a map from argument to optional contents, the buffer `main` builds is the
concatenation of the contents of those arguments that are files, and `n` its length; an
argument that is not a file adds nothing, although the comments of `main` announce that it is
treated as a string.  On the command line `a abc` (program name `a`, no file called `abc`)
`main` passes the empty buffer and `n = 0`, where the announced loader passes the three
bytes of `abc` and `n = 3`. -/
theorem loader_skips_string_arguments :
    (∀ (fs : List Byte → Option (List Byte)) (argv : List (List Byte)),
      main_load fs argv = (((argv.drop 1).filterMap fs).flatten,
        ((argv.drop 1).filterMap fs).flatten.length)) ∧
    main_load (fun _ => none) [[97], [97, 98, 99]] = ([], 0) ∧
    announced_load (fun _ => none) [[97], [97, 98, 99]] = ([97, 98, 99], 3) :=
  ⟨main_load_eq, rfl, rfl⟩

/-- C12: the claim loops of the two cursor strategies terminate, as long as the `int` cursor
does not overflow (`n + T < 2 ^ 31` for `geomean_task_queue`, `(⌈n / K⌉ + T) * K < 2 ^ 31` for
`geomean_task_queue_large` with `K ≥ 1`).  For every `T ≥ 1` and every interleaving `sched`,
in the state the run reaches: the cursor is the number of claims made so far times the chunk
size; a claim by any thread still in its loop raises the number of claims by one and the
cursor by the chunk size, hence strictly; at most `n + T` (resp. `⌈n / K⌉ + T`) claims have
been made, and a thread scheduled more often than that has left its loop and merged; once
every thread is done the number of claims is exactly `n + T` (resp. `⌈n / K⌉ + T`); and when
every thread has been scheduled more often than that, the call has returned a value. -/
theorem claim_loops_terminate (s : List Byte) (n T K : Nat) (hs : s.length = n) (hT : 1 ≤ T)
    (hK : 1 ≤ K) (hfit : n + T < 2 ^ 31) (hfit' : ((n + K - 1) / K + T) * K < 2 ^ 31)
    (sched : List Nat) :
    (∃ st, parallel_region (task_queue_pass Real.log s n) T sched = some st ∧
      st.index = ((st.claims * 1 : Nat) : Int) ∧ st.claims ≤ n + T ∧
      (∀ t w, st.workers[t]? = some w → w.pc = .claiming →
        ∃ st', parallel_step (task_queue_pass Real.log s n) st t = some st' ∧
          st'.claims = st.claims + 1 ∧ st'.index = st.index + ((1 : Nat) : Int) ∧
          st.index < st'.index) ∧
      (∀ t w, st.workers[t]? = some w → n + T < sched.count t → w.pc = .finished) ∧
      (st.done = true → st.claims = n + T) ∧
      ((∀ t : Nat, t < T → n + T < sched.count t) →
        st.done = true ∧ ∃ x, geomean_task_queue Real.log Real.exp T sched s n = some x)) ∧
    (∃ st, parallel_region (task_queue_large_pass Real.log s n (K : Int)) T sched = some st ∧
      st.index = ((st.claims * K : Nat) : Int) ∧ st.claims ≤ (n + K - 1) / K + T ∧
      (∀ t w, st.workers[t]? = some w → w.pc = .claiming →
        ∃ st', parallel_step (task_queue_large_pass Real.log s n (K : Int)) st t = some st' ∧
          st'.claims = st.claims + 1 ∧ st'.index = st.index + (K : Int) ∧
          st.index < st'.index) ∧
      (∀ t w, st.workers[t]? = some w → (n + K - 1) / K + T < sched.count t →
        w.pc = .finished) ∧
      (st.done = true → st.claims = (n + K - 1) / K + T) ∧
      ((∀ t : Nat, t < T → (n + K - 1) / K + T < sched.count t) →
        st.done = true ∧
        ∃ x, geomean_task_queue_large Real.log Real.exp T sched s n (K : Int) = some x)) := by
  constructor
  · obtain ⟨st, hst, h1, h2, h3, h4, h5, h6⟩ :=
      region_claims (task_queue_pass Real.log s n) (term Real.log s n)
        (fun k : Nat => (k : Int)) 1 n T (le_refl 1) hT (by simpa using hfit)
        (task_queue_pass_spec Real.log s n hs) sched
    simp only [Nat.add_sub_cancel, Nat.div_one] at h2 h4 h5 h6
    exact ⟨st, hst, h1, h2, h3, h4, h5, fun hfair => ⟨h6 hfair,
      ⟨_, geomean_task_queue_total Real.log Real.exp s n T hs hT hfit sched hfair⟩⟩⟩
  · obtain ⟨st, hst, h1, h2, h3, h4, h5, h6⟩ :=
      region_claims (task_queue_large_pass Real.log s n (K : Int)) (term Real.log s n)
        (fun k : Nat => (((k + 1) * K : Nat) : Int)) K n T hK hT hfit'
        (task_queue_large_pass_spec Real.log s n hs K) sched
    exact ⟨st, hst, h1, h2, h3, h4, h5, fun hfair => ⟨h6 hfair,
      ⟨_, geomean_task_queue_large_total Real.log Real.exp s n T K hs hT hK hfit' sched
        hfair⟩⟩⟩

/-- C12, at a concrete input: the bytes `2, 4, 8`, two threads taking turns, chunk size
`2`. -/
theorem claim_loops_terminate_witness :
    ([2, 4, 8] : List Byte).length = 3 ∧ 1 ≤ 2 ∧ 1 ≤ 2 ∧ 3 + 2 < 2 ^ 31 ∧
    ((3 + 2 - 1) / 2 + 2) * 2 < 2 ^ 31 ∧
    (∃ st, parallel_region (task_queue_pass Real.log [2, 4, 8] 3) 2
        [0, 1, 0, 1, 0, 1, 0, 1, 0, 1, 0, 1] = some st ∧
      st.index = ((st.claims * 1 : Nat) : Int) ∧ st.claims ≤ 3 + 2 ∧
      (∀ t w, st.workers[t]? = some w → w.pc = .claiming →
        ∃ st', parallel_step (task_queue_pass Real.log [2, 4, 8] 3) st t = some st' ∧
          st'.claims = st.claims + 1 ∧ st'.index = st.index + ((1 : Nat) : Int) ∧
          st.index < st'.index) ∧
      (∀ t w, st.workers[t]? = some w →
        3 + 2 < ([0, 1, 0, 1, 0, 1, 0, 1, 0, 1, 0, 1] : List Nat).count t → w.pc = .finished) ∧
      (st.done = true → st.claims = 3 + 2) ∧
      ((∀ t : Nat, t < 2 → 3 + 2 < ([0, 1, 0, 1, 0, 1, 0, 1, 0, 1, 0, 1] : List Nat).count t) →
        st.done = true ∧
        ∃ x, geomean_task_queue Real.log Real.exp 2 [0, 1, 0, 1, 0, 1, 0, 1, 0, 1, 0, 1]
          [2, 4, 8] 3 = some x)) ∧
    (∃ st, parallel_region (task_queue_large_pass Real.log [2, 4, 8] 3 ((2 : Nat) : Int)) 2
        [0, 1, 0, 1, 0, 1, 0, 1, 0, 1, 0, 1] = some st ∧
      st.index = ((st.claims * 2 : Nat) : Int) ∧ st.claims ≤ (3 + 2 - 1) / 2 + 2 ∧
      (∀ t w, st.workers[t]? = some w → w.pc = .claiming →
        ∃ st', parallel_step (task_queue_large_pass Real.log [2, 4, 8] 3 ((2 : Nat) : Int))
            st t = some st' ∧
          st'.claims = st.claims + 1 ∧ st'.index = st.index + ((2 : Nat) : Int) ∧
          st.index < st'.index) ∧
      (∀ t w, st.workers[t]? = some w →
        (3 + 2 - 1) / 2 + 2 < ([0, 1, 0, 1, 0, 1, 0, 1, 0, 1, 0, 1] : List Nat).count t →
        w.pc = .finished) ∧
      (st.done = true → st.claims = (3 + 2 - 1) / 2 + 2) ∧
      ((∀ t : Nat, t < 2 →
          (3 + 2 - 1) / 2 + 2 < ([0, 1, 0, 1, 0, 1, 0, 1, 0, 1, 0, 1] : List Nat).count t) →
        st.done = true ∧
        ∃ x, geomean_task_queue_large Real.log Real.exp 2 [0, 1, 0, 1, 0, 1, 0, 1, 0, 1, 0, 1]
          [2, 4, 8] 3 ((2 : Nat) : Int) = some x)) :=
  ⟨rfl, by decide, by decide, by decide, by decide,
    claim_loops_terminate [2, 4, 8] 3 2 2 rfl (by decide) (by decide) (by decide) (by decide)
      [0, 1, 0, 1, 0, 1, 0, 1, 0, 1, 0, 1]⟩

/-- C14: every strategy is memory safe and never divides by zero, given only that the buffer
holds `n` bytes (`n` being the size of an object, below `2 ^ 63`).  The loop body, the only
place where `s[i]` is read and `log (s[i]) / n` evaluated, succeeds exactly at the indices
`i < n`, which exist only when `n ≥ 1`.  The statically scheduled strategies and the
sequential scan, run on any assignment `chunks` of iterations of the loop `i < n`, never
read outside the buffer (they return a value).  The two cursor strategies, for every number
of threads, every interleaving and every chunk size `K` (zero and negative included, cursor
overflow included), never read outside the buffer, and every index at which they run the
loop body is below `n`, hence `n ≥ 1` there. -/
theorem every_strategy_is_safe (s : List Byte) (n : Nat) (hs : s.length = n)
    (hn : n < 2 ^ 63) (chunks : List (List Nat)) (order : List Nat)
    (hc : ∀ i ∈ chunks.flatten, i < n) (T : Nat) (sched : List Nat) (K : Int) :
    (∀ (acc : ℝ) (i : Nat),
      (loop_body Real.log s n acc i).isSome = true ↔ i < n ∧ 1 ≤ n) ∧
    (geomean Real.log Real.exp chunks s n).isSome = true ∧
    (geomean_even_split Real.log Real.exp chunks s n).isSome = true ∧
    (geomean_guided Real.log Real.exp chunks s n).isSome = true ∧
    (geomean_atomic_non_parallel Real.log Real.exp s n).isSome = true ∧
    (geomean_many_to_few_atomic Real.log Real.exp chunks order s n).isSome = true ∧
    (∃ st, parallel_region (task_queue_pass Real.log s n) T sched = some st ∧
      ∀ w ∈ st.workers, ∀ i ∈ w.processed, i < n ∧ 1 ≤ n) ∧
    (∃ st, parallel_region (task_queue_large_pass Real.log s n K) T sched = some st ∧
      ∀ w ∈ st.workers, ∀ i ∈ w.processed, i < n ∧ 1 ≤ n) := by
  have hb : ∀ i ∈ chunks.flatten, i < s.length := fun i hi => by rw [hs]; exact hc i hi
  have hm := mapM_run_chunk_eq Real.log s n chunks hb
  have hsplit : (geomean_even_split Real.log Real.exp chunks s n).isSome = true := by
    unfold geomean_even_split omp_for_reduction
    rw [hm]
    rfl
  refine ⟨fun acc i => ?_, hsplit, hsplit, ?_, ?_, ?_, ?_, ?_⟩
  · rw [loop_body_isSome, hs]
    exact ⟨fun h => ⟨h, by omega⟩, fun h => h.1⟩
  · unfold geomean_guided omp_for_reduction
    rw [hm]
    rfl
  · rw [geomean_atomic_non_parallel_eq Real.log Real.exp s n hs]
    rfl
  · unfold geomean_many_to_few_atomic
    rw [hm]
    rfl
  · obtain ⟨st, h1, h2⟩ := sinv_region (task_queue_pass Real.log s n) (term Real.log s n)
      ((1 : Nat) : Int) n T (task_queue_pass_safe Real.log s n hs hn) sched
    exact ⟨st, h1, fun w hw i hi => ⟨h2 w hw i hi, by have := h2 w hw i hi; omega⟩⟩
  · obtain ⟨st, h1, h2⟩ := sinv_region (task_queue_large_pass Real.log s n K)
      (term Real.log s n) K n T (task_queue_large_pass_safe_any Real.log s n hs hn K) sched
    exact ⟨st, h1, fun w hw i hi => ⟨h2 w hw i hi, by have := h2 w hw i hi; omega⟩⟩

/-- C14, at a concrete input: the bytes `2, 0, 8`, two threads, chunk size `2`. -/
theorem every_strategy_is_safe_witness :
    ([2, 0, 8] : List Byte).length = 3 ∧ 3 < 2 ^ 63 ∧
    (∀ i ∈ ([[0, 2], [1]] : List (List Nat)).flatten, i < 3) ∧
    (∀ (acc : ℝ) (i : Nat),
      (loop_body Real.log [2, 0, 8] 3 acc i).isSome = true ↔ i < 3 ∧ 1 ≤ 3) ∧
    (geomean Real.log Real.exp [[0, 2], [1]] [2, 0, 8] 3).isSome = true ∧
    (geomean_even_split Real.log Real.exp [[0, 2], [1]] [2, 0, 8] 3).isSome = true ∧
    (geomean_guided Real.log Real.exp [[0, 2], [1]] [2, 0, 8] 3).isSome = true ∧
    (geomean_atomic_non_parallel Real.log Real.exp [2, 0, 8] 3).isSome = true ∧
    (geomean_many_to_few_atomic Real.log Real.exp [[0, 2], [1]] [1, 0] [2, 0, 8] 3).isSome =
      true ∧
    (∃ st, parallel_region (task_queue_pass Real.log [2, 0, 8] 3) 2 [0, 1, 1, 0] = some st ∧
      ∀ w ∈ st.workers, ∀ i ∈ w.processed, i < 3 ∧ 1 ≤ 3) ∧
    (∃ st, parallel_region (task_queue_large_pass Real.log [2, 0, 8] 3 2) 2 [0, 1, 1, 0] =
        some st ∧
      ∀ w ∈ st.workers, ∀ i ∈ w.processed, i < 3 ∧ 1 ≤ 3) :=
  ⟨rfl, by decide, by decide,
    every_strategy_is_safe [2, 0, 8] 3 rfl (by decide) [[0, 2], [1]] [1, 0] (by decide) 2
      [0, 1, 1, 0] 2⟩

/-- C11: the cursor of `geomean_task_queue` is an `int`, so it never reaches an `n` above
`2 ^ 31 - 1`, and the indices from `2 ^ 31` on are never processed.  On the input of
`n = 2 ^ 31 + 1` bytes all equal to `2`: for every number of threads and every interleaving
the run stays inside the buffer, its cursor stays below `2 ^ 31 < n` and every index it
processes is below `2 ^ 31` (index `2 ^ 31` is never claimed); run by one thread, the call
claims `0, …, 2 ^ 31 - 1`, finds the cursor at `-2 ^ 31` (which converts to a `size_t` above
`n`), leaves the loop and returns a value below `2`, whereas `geomean_even_split`, whose
loop variable is a `size_t`, returns `2` on the same input. -/
theorem task_queue_cursor_stops_at_int_max :
    (∀ (T : Nat) (sched : List Nat), ∃ st,
      parallel_region (task_queue_pass Real.log (List.replicate (2 ^ 31 + 1) 2) (2 ^ 31 + 1))
        T sched = some st ∧
      st.index < 2 ^ 31 ∧ ∀ w ∈ st.workers, ∀ i ∈ w.processed, i < 2 ^ 31) ∧
    (∃ x : ℝ, geomean_task_queue Real.log Real.exp 1 (List.replicate (2 ^ 31 - 1) 0 ++ [0, 0, 0])
      (List.replicate (2 ^ 31 + 1) 2) (2 ^ 31 + 1) = some x ∧ x < 2) ∧
    geomean_even_split Real.log Real.exp [List.range (2 ^ 31 + 1)]
      (List.replicate (2 ^ 31 + 1) 2) (2 ^ 31 + 1) = some 2 :=
  ⟨fun T sched => sinv_region_cursor _ (term Real.log (List.replicate (2 ^ 31 + 1) 2)
      (2 ^ 31 + 1)) ((1 : Nat) : Int) (2 ^ 31) T
      (task_queue_pass_capped Real.log (List.replicate (2 ^ 31 + 1) 2) (2 ^ 31 + 1)
        (List.length_replicate _ _) (by norm_num) (by norm_num)) sched,
    task_queue_solo_short (2 ^ 31 + 1) (by norm_num) (by norm_num) (2 ^ 31 - 1) (by norm_num) 2
      (by decide) 2 (by rw [show (2 : Byte).val = 2 from rfl]; norm_num),
    even_split_uniform (2 ^ 31 + 1) (by norm_num) 2 (by decide) 2
      (by rw [show (2 : Byte).val = 2 from rfl]; norm_num)⟩

/-- C13: with chunk size `1` the chunked queue does what the single-item queue does as long
as `n ≤ 2 ^ 31 - 1`, and not beyond.  For every buffer, every `n < 2 ^ 31`, every number of
threads and every interleaving, the run of `geomean_task_queue_large(s, n, 1)` is the run of
`geomean_task_queue(s, n)` step by step (same cursor, same indices processed by the same
thread, same local sums and accumulator; it captures `start = i + 1` where the other
captures `i`), and the two calls return the same result.  On the input of `n = 2 ^ 31` bytes
all equal to `2`, run by one thread, `geomean_task_queue` processes every index and returns
`2`, while `geomean_task_queue_large` with `K = 1` claims at cursor `2 ^ 31 - 1` the block
that ends at `start = -2 ^ 31`, processes nothing there, and returns a value below `2`. -/
theorem chunk_one_differs_beyond_int_max :
    (∀ (s : List Byte) (n T : Nat) (sched : List Nat), n < 2 ^ 31 →
      parallel_region (task_queue_large_pass Real.log s n 1) T sched =
        (parallel_region (task_queue_pass Real.log s n) T sched).map
          (Region.relabel fun i => wrap32 (i + 1)) ∧
      geomean_task_queue_large Real.log Real.exp T sched s n 1 =
        geomean_task_queue Real.log Real.exp T sched s n) ∧
    geomean_task_queue Real.log Real.exp 1 (List.replicate (2 ^ 31 - 1) 0 ++ [0, 0, 0])
      (List.replicate (2 ^ 31) 2) (2 ^ 31) = some 2 ∧
    (∃ x : ℝ, geomean_task_queue_large Real.log Real.exp 1
      (List.replicate (2 ^ 31 - 1) 0 ++ [0, 0, 0]) (List.replicate (2 ^ 31) 2) (2 ^ 31) 1 =
        some x ∧ x < 2) :=
  ⟨fun s n T sched hn => ⟨chunk_one_region Real.log s n hn T sched,
      chunk_one_result Real.log Real.exp s n hn T sched⟩,
    task_queue_solo_exact (2 ^ 31) rfl (2 ^ 31 - 1) (by norm_num) 2 (by decide) 2
      (by rw [show (2 : Byte).val = 2 from rfl]; norm_num),
    task_queue_large_solo_short (2 ^ 31) (le_refl _) (by norm_num) (2 ^ 31 - 1) (by norm_num) 2
      (by decide) 2 (by rw [show (2 : Byte).val = 2 from rfl]; norm_num)⟩

end Claims

end Geomean
